import Mathlib

/-!
# NetStream: the tagged value stream of the Socket library

A shallow embedding of `src/src/NetStream.h` and `src/src/NetStream.cpp`
(class `Inet::NetStream`) together with theorems about its wire format, followed
by `ConnectionEndpoint::receive` of `src/src/ConnectionEndpoint.cpp`, the cursor
of `src/src/Address.cpp`, and `SendMessage` and `ReceiveMessage` of
`src/testapp/appcommon.h`.

Conventions of the embedding:

* a `char` of the buffer is its 8-bit pattern, a `Byte` (`Fin 256`); where the
  C++ code compares a buffer element with a type marker the element is first
  promoted as a signed `char` (`charToInt`);
* integer objects are `Nat` (unsigned types) or `Int` (signed types); every
  implicit conversion of the C++ code is written out (`toUnsigned`, `toSigned`,
  `% 2 ^ 32`);
* the byte order of the machine is a parameter `Host`; the object
  representation of an integer is `toMem`, and `htons`, `htonl`, `ntohs`,
  `ntohl` are the libc functions described by their POSIX contract;
* an iterator is an `Int` index into the vector; dereferencing or erasing at
  an index outside the vector is undefined behaviour in C++ and yields `none`
  here, so each decode operation returns an `Option (Result α)`.
-/

namespace Inet

/-! ## Bytes, byte order of the host, object representations -/

/-- An 8-bit pattern: one element of the `std::vector<char>`, one `u_char`. -/
abbrev Byte := Fin 256

/-- Conversion of an integer to an 8-bit pattern (conversion to `char` or `u_char`). -/
def toByte (n : Nat) : Byte := ⟨n % 256, Nat.mod_lt n (by decide)⟩

/-- Integral promotion of a (signed) `char` holding the pattern `c`. -/
def charToInt (c : Byte) : Int := if c.val < 128 then (c.val : Int) else (c.val : Int) - 256

/-- Byte order of the machine the library is compiled for. -/
inductive Host
  | littleEndian
  | bigEndian
  deriving DecidableEq, Repr

/-- The `w` low-order bytes of `x`, least significant byte first. -/
def toLE : Nat → Nat → List Byte
  | 0, _ => []
  | w + 1, x => toByte x :: toLE w (x / 256)

/-- The number whose bytes, least significant first, are `bs`. -/
def ofLE : List Byte → Nat
  | [] => 0
  | b :: bs => b.val + 256 * ofLE bs

/-- The `w` low-order bytes of `x`, most significant byte first (network order). -/
def toBE (w x : Nat) : List Byte := (toLE w x).reverse

/-- The number whose bytes, most significant first, are `bs`. -/
def ofBE (bs : List Byte) : Nat := ofLE bs.reverse

/-- Object representation: the bytes of a `w`-byte unsigned integer object holding `x`,
in address order, as seen through a `u_char*` (`pIndex`). -/
def toMem : Host → Nat → Nat → List Byte
  | .littleEndian, w, x => toLE w x
  | .bigEndian, w, x => toBE w x

/-- The unsigned value of the integer object whose bytes, in address order, are `bs`. -/
def ofMem : Host → List Byte → Nat
  | .littleEndian, bs => ofLE bs
  | .bigEndian, bs => ofBE bs

/-- Conversion of an integer to the unsigned type of `bits` bits (modular). -/
def toUnsigned (bits : Nat) (v : Int) : Nat := (v % (2 : Int) ^ bits).toNat

/-- The value of the signed type of `bits` bits whose pattern is `x` (twos complement). -/
def toSigned (bits : Nat) (x : Nat) : Int :=
  if x % 2 ^ bits < 2 ^ (bits - 1) then ((x % 2 ^ bits : Nat) : Int)
  else ((x % 2 ^ bits : Nat) : Int) - (2 : Int) ^ bits

/-- libc `htons`: the `uint16_t` whose object representation is `hostshort` in network
byte order. -/
def htons (h : Host) (hostshort : Nat) : Nat := ofMem h (toBE 2 hostshort)

/-- libc `htonl`: the `uint32_t` whose object representation is `hostlong` in network
byte order. -/
def htonl (h : Host) (hostlong : Nat) : Nat := ofMem h (toBE 4 hostlong)

/-- libc `ntohs`: the `uint16_t` whose network byte order representation is the object
representation of `netshort`. -/
def ntohs (h : Host) (netshort : Nat) : Nat := ofBE (toMem h 2 netshort)

/-- libc `ntohl`: the `uint32_t` whose network byte order representation is the object
representation of `netlong`. -/
def ntohl (h : Host) (netlong : Nat) : Nat := ofBE (toMem h 4 netlong)

namespace NetStream

/-! ## `NetStream.h`: type markers and the buffer -/

/-- Marker `enum Type : u_short`, `CHAR = 'c'`. -/
def CHAR : Nat := 99
/-- Marker `UCHAR = 'C'`. -/
def UCHAR : Nat := 67
/-- Marker `INT16 = 'i'`. -/
def INT16 : Nat := 105
/-- Marker `UINT16 = 'I'`. -/
def UINT16 : Nat := 73
/-- Marker `INT32 = 'l'`. -/
def INT32 : Nat := 108
/-- Marker `UINT32 = 'L'`. -/
def UINT32 : Nat := 76
/-- Marker `INT64 = 'w'`. -/
def INT64 : Nat := 119
/-- Marker `UINT64 = 'W'`. -/
def UINT64 : Nat := 87
/-- Marker `STRING = 's'`. -/
def STRING : Nat := 115
/-- Marker `STREAM = 'S'`. -/
def STREAM : Nat := 83
/-- Marker `STREAMABLE = 'M'`. -/
def STREAMABLE : Nat := 77
/-- Marker `UNKNOWN = 'X'`. -/
def UNKNOWN : Nat := 88

/-- Modelled from the spec: the macro `STREAM_TYPE_CHAR` of `StreamException.h`, a header
that is not part of the sources at hand. The spec fixes the tag byte of char as `'c'`,
the marker `NetStream::CHAR`. -/
def STREAM_TYPE_CHAR : Nat := CHAR
/-- Modelled from the spec: macro of the absent `StreamException.h`; uchar is `'C'`. -/
def STREAM_TYPE_UCHAR : Nat := UCHAR
/-- Modelled from the spec: macro of the absent `StreamException.h`; int16 is `'i'`. -/
def STREAM_TYPE_INT16 : Nat := INT16
/-- Modelled from the spec: macro of the absent `StreamException.h`; uint16 is `'I'`. -/
def STREAM_TYPE_UINT16 : Nat := UINT16
/-- Modelled from the spec: macro of the absent `StreamException.h`; int32 is `'l'`. -/
def STREAM_TYPE_INT32 : Nat := INT32
/-- Modelled from the spec: macro of the absent `StreamException.h`; uint32 is `'L'`. -/
def STREAM_TYPE_UINT32 : Nat := UINT32
/-- Modelled from the spec: macro of the absent `StreamException.h`; int64 is `'w'`. -/
def STREAM_TYPE_INT64 : Nat := INT64
/-- Modelled from the spec: macro of the absent `StreamException.h`; uint64 is `'W'`. -/
def STREAM_TYPE_UINT64 : Nat := UINT64
/-- Modelled from the spec: macro of the absent `StreamException.h`; string is `'s'`. -/
def STREAM_TYPE_STRING : Nat := STRING

/-- Modelled from the spec: the error codes of the absent `StreamException.h`. The only
code the stream operations throw is `STREAM_ERR_INVALID_TYPE` (the type mismatch
condition of the spec). -/
inductive StreamErr
  | STREAM_ERR_INVALID_TYPE
  deriving DecidableEq, Repr

/-- Source `typedef std::vector<char> Buffer_t`. -/
abbrev Buffer_t := List Byte

/-- Source `buffer_.push_back(x)`: `x` is converted to `char` and appended. -/
def push_back (buffer_ : Buffer_t) (x : Nat) : Buffer_t := buffer_ ++ [toByte x]

/-- Source `size()`: `buffer_.size()` returned as `u_int32_t`. -/
def size (buffer_ : Buffer_t) : Nat := buffer_.length % 2 ^ 32

/-- Source `data()`: the internal vector. -/
def data (buffer_ : Buffer_t) : Buffer_t := buffer_

/-! ## `NetStream.cpp`: byte order of 64-bit values -/

/-- Source `NetStream::htonll`. The test on `num` reads the first byte of the object
representation of the `int` 42: it differs from 42 exactly on a big-endian host. -/
def htonll (h : Host) (value : Nat) : Nat :=
  let num : Int := 42
  if charToInt ((toMem h 4 (toUnsigned 32 num)).headD 0) ≠ num then value
  else
    let high_part := htonl h ((value >>> 32) % 2 ^ 32)
    let low_part := htonl h ((value &&& 0xFFFFFFFF) % 2 ^ 32)
    ((low_part <<< 32) % 2 ^ 64) ||| high_part

/-- Source `NetStream::ntohll`. -/
def ntohll (h : Host) (value : Nat) : Nat :=
  let num : Int := 42
  if charToInt ((toMem h 4 (toUnsigned 32 num)).headD 0) ≠ num then value
  else
    let high_part := ntohl h ((value >>> 32) % 2 ^ 32)
    let low_part := ntohl h ((value &&& 0xFFFFFFFF) % 2 ^ 32)
    ((low_part <<< 32) % 2 ^ 64) ||| high_part

/-! ## `NetStream.cpp`: the encode operations `operator<<` -/

/-- The loop `for (count = 0; count < n; count++) { buffer_.push_back(*pIndex); pIndex++; }`
over the `n` bytes `mem` found at `pIndex`. -/
def push_each (buffer_ : Buffer_t) (mem : List Byte) : Buffer_t :=
  mem.foldl (fun b c => push_back b c.val) buffer_

/-- Source `NetStream::operator<<(const char& val)`. -/
def encode_char (buffer_ : Buffer_t) (val : Int) : Buffer_t :=
  let buffer_ := push_back buffer_ STREAM_TYPE_CHAR
  let buffer_ := push_back buffer_ (toUnsigned 8 val)
  push_back buffer_ STREAM_TYPE_CHAR

/-- Source `NetStream::operator<<(const u_char& val)`. -/
def encode_uchar (buffer_ : Buffer_t) (val : Nat) : Buffer_t :=
  let buffer_ := push_back buffer_ STREAM_TYPE_UCHAR
  let buffer_ := push_back buffer_ val
  push_back buffer_ STREAM_TYPE_UCHAR

/-- Source `NetStream::operator<<(const int16_t& val)`. -/
def encode_int16 (h : Host) (buffer_ : Buffer_t) (val : Int) : Buffer_t :=
  let netval : Int := toSigned 16 (htons h (toUnsigned 16 val))
  let pIndex := toMem h 2 (toUnsigned 16 netval)
  let buffer_ := push_back buffer_ STREAM_TYPE_INT16
  let buffer_ := push_each buffer_ pIndex
  push_back buffer_ STREAM_TYPE_INT16

/-- Source `NetStream::operator<<(const u_int16_t& val)`. -/
def encode_uint16 (h : Host) (buffer_ : Buffer_t) (val : Nat) : Buffer_t :=
  let netval : Nat := htons h val
  let pIndex := toMem h 2 netval
  let buffer_ := push_back buffer_ STREAM_TYPE_UINT16
  let buffer_ := push_each buffer_ pIndex
  push_back buffer_ STREAM_TYPE_UINT16

/-- Source `NetStream::operator<<(const int32_t& val)`. -/
def encode_int32 (h : Host) (buffer_ : Buffer_t) (val : Int) : Buffer_t :=
  let netval : Int := toSigned 32 (htonl h (toUnsigned 32 val))
  let pIndex := toMem h 4 (toUnsigned 32 netval)
  let buffer_ := push_back buffer_ STREAM_TYPE_INT32
  let buffer_ := push_each buffer_ pIndex
  push_back buffer_ STREAM_TYPE_INT32

/-- Source `NetStream::operator<<(const u_int32_t& val)`. -/
def encode_uint32 (h : Host) (buffer_ : Buffer_t) (val : Nat) : Buffer_t :=
  let netval : Nat := htonl h val
  let pIndex := toMem h 4 netval
  let buffer_ := push_back buffer_ STREAM_TYPE_UINT32
  let buffer_ := push_each buffer_ pIndex
  push_back buffer_ STREAM_TYPE_UINT32

/-- Source `NetStream::operator<<(const int64_t& val)`. -/
def encode_int64 (h : Host) (buffer_ : Buffer_t) (val : Int) : Buffer_t :=
  let netval : Int := toSigned 64 (htonll h (toUnsigned 64 val))
  let pIndex := toMem h 8 (toUnsigned 64 netval)
  let buffer_ := push_back buffer_ STREAM_TYPE_INT64
  let buffer_ := push_each buffer_ pIndex
  push_back buffer_ STREAM_TYPE_INT64

/-- Source `NetStream::operator<<(const u_int64_t& val)`. -/
def encode_uint64 (h : Host) (buffer_ : Buffer_t) (val : Nat) : Buffer_t :=
  let netval : Nat := htonll h val
  let pIndex := toMem h 8 netval
  let buffer_ := push_back buffer_ STREAM_TYPE_UINT64
  let buffer_ := push_each buffer_ pIndex
  push_back buffer_ STREAM_TYPE_UINT64

/-- Source `NetStream::operator<<(const std::string &val)`. The string is the list of its
`val.length()` bytes; `length` is a `u_int32_t`. -/
def encode_string (h : Host) (buffer_ : Buffer_t) (val : List Byte) : Buffer_t :=
  let length : Nat := val.length % 2 ^ 32
  let buffer_ := push_back buffer_ STREAM_TYPE_STRING
  let buffer_ := push_each buffer_ (val.take length)
  let netlength : Nat := htonl h length
  let pIndex := toMem h 4 netlength
  let buffer_ := push_each buffer_ pIndex
  push_back buffer_ STREAM_TYPE_STRING

/-! ## `NetStream.cpp`: the decode operations `operator>>` -/

/-- What a decode operation leaves behind when its behaviour is defined: it returns
with `val` set, or it throws a `StreamException`; in both cases `buffer_` is the
vector at that moment. -/
inductive Result (α : Type)
  | returned (val : α) (buffer_ : Buffer_t)
  | thrown (code : StreamErr) (buffer_ : Buffer_t)
  deriving DecidableEq, Repr

/-- Source `*itr`: the element at index `itr`, which must lie inside the vector. -/
def deref (buffer_ : Buffer_t) (itr : Int) : Option Byte :=
  if 0 ≤ itr then buffer_[itr.toNat]? else none

/-- Source `buffer_.erase(itr, buffer_.end())`: `itr` must lie in `[begin, end]`. -/
def erase (buffer_ : Buffer_t) (itr : Int) : Option Buffer_t :=
  if 0 ≤ itr ∧ itr ≤ buffer_.length then some (buffer_.take itr.toNat) else none

/-- The loop `for (count = 0; count < n; count++) { (*pIndex) = (*itr); itr--; pIndex--; }`
where `pIndex` starts at the last byte of an `n`-byte object: the bytes already stored
(those above `pIndex`) are `mem`. Returns the object representation and `itr`. -/
def copy_back (buffer_ : Buffer_t) : Nat → Int → List Byte → Option (List Byte × Int)
  | 0, itr, mem => some (mem, itr)
  | n + 1, itr, mem => do
      let c ← deref buffer_ itr
      copy_back buffer_ n (itr - 1) (c :: mem)

/-- The loop `for (count = length; count > 0; count--) { *(pBuffer.get() + count - 1) = (*itr);
itr--; }` of the string decoder; a store outside the array `pBuffer` is undefined. -/
def copy_string (buffer_ : Buffer_t) : Nat → Int → List Byte → Option (List Byte × Int)
  | 0, itr, pBuffer => some (pBuffer, itr)
  | count + 1, itr, pBuffer => do
      let c ← deref buffer_ itr
      if count < pBuffer.length then copy_string buffer_ count (itr - 1) (pBuffer.set count c)
      else none

/-- Source `std::string((char*)p)`: the bytes at `p` up to the first zero byte, which must be
found inside the array. -/
def c_str : List Byte → Option (List Byte)
  | [] => none
  | c :: cs => if c = 0 then some [] else (c_str cs).map (fun r => c :: r)

/-- Source `NetStream::operator>>(char& val)`. -/
def decode_char (buffer_ : Buffer_t) : Option (Result Int) := do
  let itr : Int := (buffer_.length : Int) - 1
  let t ← deref buffer_ itr
  if charToInt t ≠ STREAM_TYPE_CHAR then
    pure (.thrown .STREAM_ERR_INVALID_TYPE buffer_)
  else do
    let t ← deref buffer_ (itr - (1 + 1))
    if charToInt t ≠ STREAM_TYPE_CHAR then
      pure (.thrown .STREAM_ERR_INVALID_TYPE buffer_)
    else do
      let itr := itr - 1
      let c ← deref buffer_ itr
      let val : Int := charToInt c
      let itr := itr - 1
      let buffer_ ← erase buffer_ itr
      pure (.returned val buffer_)

/-- Source `NetStream::operator>>(u_char& val)`. -/
def decode_uchar (buffer_ : Buffer_t) : Option (Result Nat) := do
  let itr : Int := (buffer_.length : Int) - 1
  let t ← deref buffer_ itr
  if charToInt t ≠ STREAM_TYPE_UCHAR then
    pure (.thrown .STREAM_ERR_INVALID_TYPE buffer_)
  else do
    let t ← deref buffer_ (itr - (1 + 1))
    if charToInt t ≠ STREAM_TYPE_UCHAR then
      pure (.thrown .STREAM_ERR_INVALID_TYPE buffer_)
    else do
      let itr := itr - 1
      let c ← deref buffer_ itr
      let val : Nat := toUnsigned 8 (charToInt c)
      let itr := itr - 1
      let buffer_ ← erase buffer_ itr
      pure (.returned val buffer_)

/-- Source `NetStream::operator>>(int16_t& val)`; the two stores through `pIndex` are written
out in the source: first `pIndex[1]`, then `pIndex[0]`. -/
def decode_int16 (h : Host) (buffer_ : Buffer_t) : Option (Result Int) := do
  let itr : Int := (buffer_.length : Int) - 1
  let t ← deref buffer_ itr
  if charToInt t ≠ STREAM_TYPE_INT16 then
    pure (.thrown .STREAM_ERR_INVALID_TYPE buffer_)
  else do
    let t ← deref buffer_ (itr - (2 + 1))
    if charToInt t ≠ STREAM_TYPE_INT16 then
      pure (.thrown .STREAM_ERR_INVALID_TYPE buffer_)
    else do
      let itr := itr - 1
      let p1 ← deref buffer_ itr
      let itr := itr - 1
      let p0 ← deref buffer_ itr
      let itr := itr - 1
      let buffer_ ← erase buffer_ itr
      let val : Int := toSigned 16 (ofMem h [p0, p1])
      let val : Int := toSigned 16 (ntohs h (toUnsigned 16 val))
      pure (.returned val buffer_)

/-- Source `NetStream::operator>>(u_int16_t& val)`. -/
def decode_uint16 (h : Host) (buffer_ : Buffer_t) : Option (Result Nat) := do
  let itr : Int := (buffer_.length : Int) - 1
  let t ← deref buffer_ itr
  if charToInt t ≠ STREAM_TYPE_UINT16 then
    pure (.thrown .STREAM_ERR_INVALID_TYPE buffer_)
  else do
    let t ← deref buffer_ (itr - (2 + 1))
    if charToInt t ≠ STREAM_TYPE_UINT16 then
      pure (.thrown .STREAM_ERR_INVALID_TYPE buffer_)
    else do
      let itr := itr - 1
      let p1 ← deref buffer_ itr
      let itr := itr - 1
      let p0 ← deref buffer_ itr
      let itr := itr - 1
      let buffer_ ← erase buffer_ itr
      let val : Nat := ofMem h [p0, p1]
      let val : Nat := ntohs h val
      pure (.returned val buffer_)

/-- Source `NetStream::operator>>(int32_t& val)`. -/
def decode_int32 (h : Host) (buffer_ : Buffer_t) : Option (Result Int) := do
  let itr : Int := (buffer_.length : Int) - 1
  let t ← deref buffer_ itr
  if charToInt t ≠ STREAM_TYPE_INT32 then
    pure (.thrown .STREAM_ERR_INVALID_TYPE buffer_)
  else do
    let t ← deref buffer_ (itr - (4 + 1))
    if charToInt t ≠ STREAM_TYPE_INT32 then
      pure (.thrown .STREAM_ERR_INVALID_TYPE buffer_)
    else do
      let itr := itr - 1
      let (mem, itr) ← copy_back buffer_ 4 itr []
      let buffer_ ← erase buffer_ itr
      let val : Int := toSigned 32 (ofMem h mem)
      let val : Int := toSigned 32 (ntohl h (toUnsigned 32 val))
      pure (.returned val buffer_)

/-- Source `NetStream::operator>>(u_int32_t& val)`. -/
def decode_uint32 (h : Host) (buffer_ : Buffer_t) : Option (Result Nat) := do
  let itr : Int := (buffer_.length : Int) - 1
  let t ← deref buffer_ itr
  if charToInt t ≠ STREAM_TYPE_UINT32 then
    pure (.thrown .STREAM_ERR_INVALID_TYPE buffer_)
  else do
    let t ← deref buffer_ (itr - (4 + 1))
    if charToInt t ≠ STREAM_TYPE_UINT32 then
      pure (.thrown .STREAM_ERR_INVALID_TYPE buffer_)
    else do
      let itr := itr - 1
      let (mem, itr) ← copy_back buffer_ 4 itr []
      let buffer_ ← erase buffer_ itr
      let val : Nat := ofMem h mem
      let val : Nat := ntohl h val
      pure (.returned val buffer_)

/-- Source `NetStream::operator>>(int64_t& val)`. -/
def decode_int64 (h : Host) (buffer_ : Buffer_t) : Option (Result Int) := do
  let itr : Int := (buffer_.length : Int) - 1
  let t ← deref buffer_ itr
  if charToInt t ≠ STREAM_TYPE_INT64 then
    pure (.thrown .STREAM_ERR_INVALID_TYPE buffer_)
  else do
    let t ← deref buffer_ (itr - (8 + 1))
    if charToInt t ≠ STREAM_TYPE_INT64 then
      pure (.thrown .STREAM_ERR_INVALID_TYPE buffer_)
    else do
      let itr := itr - 1
      let (mem, itr) ← copy_back buffer_ 8 itr []
      let buffer_ ← erase buffer_ itr
      let val : Int := toSigned 64 (ofMem h mem)
      let val : Int := toSigned 64 (ntohll h (toUnsigned 64 val))
      pure (.returned val buffer_)

/-- Source `NetStream::operator>>(u_int64_t& val)`. -/
def decode_uint64 (h : Host) (buffer_ : Buffer_t) : Option (Result Nat) := do
  let itr : Int := (buffer_.length : Int) - 1
  let t ← deref buffer_ itr
  if charToInt t ≠ STREAM_TYPE_UINT64 then
    pure (.thrown .STREAM_ERR_INVALID_TYPE buffer_)
  else do
    let t ← deref buffer_ (itr - (8 + 1))
    if charToInt t ≠ STREAM_TYPE_UINT64 then
      pure (.thrown .STREAM_ERR_INVALID_TYPE buffer_)
    else do
      let itr := itr - 1
      let (mem, itr) ← copy_back buffer_ 8 itr []
      let buffer_ ← erase buffer_ itr
      let val : Nat := ofMem h mem
      let val : Nat := ntohll h val
      pure (.returned val buffer_)

/-- Source `NetStream::operator>>(std::string &val)`. `length` and `length + 1` are
`u_int32_t`; `pBuffer` is the zero-filled array of `length + 1` bytes. -/
def decode_string (h : Host) (buffer_ : Buffer_t) : Option (Result (List Byte)) := do
  let itr : Int := (buffer_.length : Int) - 1
  let t ← deref buffer_ itr
  if charToInt t ≠ STREAM_TYPE_STRING then
    pure (.thrown .STREAM_ERR_INVALID_TYPE buffer_)
  else do
    let itr := itr - 1
    let (mem, itr) ← copy_back buffer_ 4 itr []
    let length : Nat := ofMem h mem
    let length : Nat := ntohl h length
    let t ← deref buffer_ (itr - length)
    if charToInt t ≠ STREAM_TYPE_STRING then
      pure (.thrown .STREAM_ERR_INVALID_TYPE buffer_)
    else do
      let pBuffer : List Byte := List.replicate ((length + 1) % 2 ^ 32) 0
      let (pBuffer, itr) ← copy_string buffer_ length itr pBuffer
      let buffer_ ← erase buffer_ itr
      let val ← c_str pBuffer
      pure (.returned val buffer_)

/-! ## The supported types, for statements that range over them -/

/-- The nine types that have an `operator<<` and an `operator>>`. -/
inductive Ty
  | char | uchar | int16 | uint16 | int32 | uint32 | int64 | uint64 | string
  deriving DecidableEq, Repr

/-- A value of one of the nine supported types. -/
inductive Value
  | char (v : Int)
  | uchar (v : Nat)
  | int16 (v : Int)
  | uint16 (v : Nat)
  | int32 (v : Int)
  | uint32 (v : Nat)
  | int64 (v : Int)
  | uint64 (v : Nat)
  | string (s : List Byte)
  deriving DecidableEq, Repr

/-- The type of a value. -/
def Value.ty : Value → Ty
  | .char _ => .char
  | .uchar _ => .uchar
  | .int16 _ => .int16
  | .uint16 _ => .uint16
  | .int32 _ => .int32
  | .uint32 _ => .uint32
  | .int64 _ => .int64
  | .uint64 _ => .uint64
  | .string _ => .string

/-- The value lies in the range of its C++ type (every `std::string` does). -/
def Value.representable : Value → Prop
  | .char v => -2 ^ 7 ≤ v ∧ v < 2 ^ 7
  | .uchar v => v < 2 ^ 8
  | .int16 v => -2 ^ 15 ≤ v ∧ v < 2 ^ 15
  | .uint16 v => v < 2 ^ 16
  | .int32 v => -2 ^ 31 ≤ v ∧ v < 2 ^ 31
  | .uint32 v => v < 2 ^ 32
  | .int64 v => -2 ^ 63 ≤ v ∧ v < 2 ^ 63
  | .uint64 v => v < 2 ^ 64
  | .string _ => True

instance (v : Value) : Decidable v.representable := by
  cases v <;> unfold Value.representable <;> infer_instance

/-- The marker of a type: the `STREAM_TYPE_` macro its two operators use. -/
def Ty.tag : Ty → Nat
  | .char => STREAM_TYPE_CHAR
  | .uchar => STREAM_TYPE_UCHAR
  | .int16 => STREAM_TYPE_INT16
  | .uint16 => STREAM_TYPE_UINT16
  | .int32 => STREAM_TYPE_INT32
  | .uint32 => STREAM_TYPE_UINT32
  | .int64 => STREAM_TYPE_INT64
  | .uint64 => STREAM_TYPE_UINT64
  | .string => STREAM_TYPE_STRING

/-- The `sizeof` of a scalar type (0 for the string type, which has no fixed width). -/
def Ty.width : Ty → Nat
  | .char => 1
  | .uchar => 1
  | .int16 => 2
  | .uint16 => 2
  | .int32 => 4
  | .uint32 => 4
  | .int64 => 8
  | .uint64 => 8
  | .string => 0

/-- The type is one of the eight scalar types. -/
def Ty.scalar (t : Ty) : Prop := t ≠ .string

instance (t : Ty) : Decidable t.scalar := by unfold Ty.scalar; infer_instance

/-- The overload of `operator<<` selected by the type of the value. -/
def encode (h : Host) (buffer_ : Buffer_t) : Value → Buffer_t
  | .char v => encode_char buffer_ v
  | .uchar v => encode_uchar buffer_ v
  | .int16 v => encode_int16 h buffer_ v
  | .uint16 v => encode_uint16 h buffer_ v
  | .int32 v => encode_int32 h buffer_ v
  | .uint32 v => encode_uint32 h buffer_ v
  | .int64 v => encode_int64 h buffer_ v
  | .uint64 v => encode_uint64 h buffer_ v
  | .string s => encode_string h buffer_ s

/-- Change of the value carried by a `Result`. -/
def Result.map {α β : Type} (f : α → β) : Result α → Result β
  | .returned val buffer_ => .returned (f val) buffer_
  | .thrown code buffer_ => .thrown code buffer_

/-- The overload of `operator>>` selected by the type of the variable decoded into. -/
def decode (h : Host) : Ty → Buffer_t → Option (Result Value)
  | .char, buffer_ => (decode_char buffer_).map (Result.map Value.char)
  | .uchar, buffer_ => (decode_uchar buffer_).map (Result.map Value.uchar)
  | .int16, buffer_ => (decode_int16 h buffer_).map (Result.map Value.int16)
  | .uint16, buffer_ => (decode_uint16 h buffer_).map (Result.map Value.uint16)
  | .int32, buffer_ => (decode_int32 h buffer_).map (Result.map Value.int32)
  | .uint32, buffer_ => (decode_uint32 h buffer_).map (Result.map Value.uint32)
  | .int64, buffer_ => (decode_int64 h buffer_).map (Result.map Value.int64)
  | .uint64, buffer_ => (decode_uint64 h buffer_).map (Result.map Value.uint64)
  | .string, buffer_ => (decode_string h buffer_).map (Result.map Value.string)

/-- The steps shared by the eight scalar overloads of `operator>>`, for a marker `tag`
and a width `w`: both marker tests, the `w` loads, the erase. It returns the `w` bytes
found between the markers; each overload is this followed by its own conversion of
those bytes (see `decode_int32_eq` and its siblings). -/
def decode_payload (tag w : Nat) (buffer_ : Buffer_t) : Option (Result (List Byte)) := do
  let itr : Int := (buffer_.length : Int) - 1
  let t ← deref buffer_ itr
  if charToInt t ≠ tag then
    pure (.thrown .STREAM_ERR_INVALID_TYPE buffer_)
  else do
    let t ← deref buffer_ (itr - (w + 1))
    if charToInt t ≠ tag then
      pure (.thrown .STREAM_ERR_INVALID_TYPE buffer_)
    else do
      let itr := itr - 1
      let (mem, itr) ← copy_back buffer_ w itr []
      let buffer_ ← erase buffer_ itr
      pure (.returned mem buffer_)

/-! ## Sequences of operations -/

/-- The chained encodes `stream << v1 << v2 << ...`, in the order of the list. -/
def encodeAll (h : Host) (buffer_ : Buffer_t) (vs : List Value) : Buffer_t :=
  vs.foldl (encode h) buffer_

/-- The decodes `stream >> x1; stream >> x2; ...` for variables of the types `ts`, in the
order of the list: the values read, first one first, and the buffer left, provided every
decode returns. -/
def decodeAll (h : Host) : List Ty → Buffer_t → Option (List Value × Buffer_t)
  | [], buffer_ => some ([], buffer_)
  | t :: ts, buffer_ =>
    match decode h t buffer_ with
    | some (.returned v buffer_) =>
      (decodeAll h ts buffer_).map fun r => (v :: r.1, r.2)
    | _ => none

/-- No byte of a string value is zero (every scalar value qualifies). -/
def Value.zeroFree : Value → Prop
  | .string s => (0 : Byte) ∉ s
  | _ => True

instance (v : Value) : Decidable v.zeroFree := by
  cases v <;> unfold Value.zeroFree <;> infer_instance

/-- A string value has fewer than `n` bytes (every scalar value qualifies). -/
def Value.shorterThan (n : Nat) : Value → Prop
  | .string s => s.length < n
  | _ => True

instance (n : Nat) (v : Value) : Decidable (v.shorterThan n) := by
  cases v <;> unfold Value.shorterThan <;> infer_instance

/-! ## The wire format in the words of the specification -/

/-- The spec: "big-endian", most significant byte first. Byte `i` of the `w` bytes of `x`
is `x / 256 ^ (w - 1 - i)` modulo 256. -/
def bigEndian (w x : Nat) : List Byte :=
  (List.range w).map fun i => toByte (x / 256 ^ (w - 1 - i))

/-- The twos complement pattern on `bits` bits of a signed value. -/
def twosComplement (bits : Nat) (v : Int) : Nat :=
  if 0 ≤ v then v.toNat else (v + 2 ^ bits).toNat

/-- The unsigned number whose big-endian bytes are the payload of a scalar value: the
value itself for an unsigned type, its twos complement pattern for a signed one. -/
def Value.pattern : Value → Nat
  | .char v => twosComplement 8 v
  | .uchar v => v
  | .int16 v => twosComplement 16 v
  | .uint16 v => v
  | .int32 v => twosComplement 32 v
  | .uint32 v => v
  | .int64 v => twosComplement 64 v
  | .uint64 v => v
  | .string _ => 0

/-- The macro `STRING_DATA` of `tests/StreamString.h`, `"This is a string"`, as the bytes
of the `std::string` built from it. -/
def STRING_DATA : List Byte := "This is a string".toList.map fun c => toByte c.toNat

/-! ## `NetStream.cpp`: construction from raw bytes and `setRaw` -/

/-- Source `memcpy(dest, src, n)`, where `dest` points at the first element of a vector
whose elements are `dest` and `src` at the first byte of an array whose bytes are `src`:
afterwards the first `n` elements of the vector are the first `n` bytes of the array.
Copying more bytes than the array or the vector holds is undefined. Taking the address of
the first element (`&buffer_[0]`, `&(*(buffer_.begin()))`) loads and stores nothing. -/
def memcpy (dest src : List Byte) (n : Nat) : Option (List Byte) :=
  if n ≤ src.length ∧ n ≤ dest.length then some (src.take n ++ dest.drop n) else none

/-- Source `buffer_.resize(n)`: shortened to `n` elements, or filled up with zero elements. -/
def resize (buffer_ : Buffer_t) (n : Nat) : Buffer_t :=
  buffer_.take n ++ List.replicate (n - buffer_.length) 0

/-- Source `NetStream::NetStream(const char *data, const size_t bytes)`: the member
initialiser `buffer_(bytes)` makes a vector of `bytes` zero elements, the body copies
`bytes` bytes of the array `data` into it. -/
def NetStream_raw (data : List Byte) (bytes : Nat) : Option Buffer_t :=
  let buffer_ : Buffer_t := List.replicate bytes 0
  memcpy buffer_ data bytes

/-- Source `NetStream::setRaw(u_char* data, u_int32_t size)`: the `int32_t` it returns and
the buffer it leaves. -/
def setRaw (buffer_ : Buffer_t) (data : List Byte) (size : Nat) : Option (Int × Buffer_t) := do
  let buffer_ : Buffer_t := if buffer_.length > 0 then [] else buffer_
  let buffer_ := resize buffer_ size
  let buffer_ ← memcpy buffer_ data size
  pure (0, buffer_)

/-! ## Records, well-formed buffers, reachable buffers -/

/-- The least number of bytes of a record of the type: two markers and the payload for a
scalar type, two markers and the 4-byte length for the string type. -/
def Ty.minRecord : Ty → Nat
  | .string => 6
  | t => t.width + 2

/-- The spec: the number whose bytes, most significant first, are `bs`. -/
def ofBigEndian (bs : List Byte) : Nat :=
  bs.foldl (fun acc c => acc * 256 + c.val) 0

/-- The 4-byte big-endian length field of a buffer that ends with a string record: the
four bytes that precede the last byte. -/
def lengthField (buffer_ : Buffer_t) : Nat :=
  ofBigEndian ((buffer_.drop (buffer_.length - 5)).take 4)

/-- The spec: a complete tagged record is the marker of a scalar type, a payload of the
width of the type and the same marker; or the string marker, `N` data bytes, the 4-byte
big-endian `N` and the string marker. -/
inductive Record : List Byte → Prop
  | scalar (t : Ty) (payload : List Byte) (hs : t.scalar) (hw : payload.length = t.width) :
      Record (toByte t.tag :: (payload ++ [toByte t.tag]))
  | string (data : List Byte) (hN : data.length < 2 ^ 32) :
      Record (toByte STRING :: (data ++ (bigEndian 4 data.length ++ [toByte STRING])))

/-- The spec: a well-formed buffer is a concatenation of zero or more complete records. -/
inductive WellFormed : Buffer_t → Prop
  | nil : WellFormed []
  | snoc (b r : List Byte) (hb : WellFormed b) (hr : Record r) : WellFormed (b ++ r)

/-- The buffers a stream created empty can hold: after any sequence of encode operations
and of decode operations attempted on a non-empty buffer that return or throw. -/
inductive Reachable (h : Host) : Buffer_t → Prop
  | created : Reachable h []
  | encoded (b : Buffer_t) (v : Value) (hb : Reachable h b) : Reachable h (encode h b v)
  | decoded (b : Buffer_t) (t : Ty) (v : Value) (after : Buffer_t) (hb : Reachable h b)
      (hne : b ≠ []) (hd : decode h t b = some (.returned v after)) : Reachable h after
  | raised (b : Buffer_t) (t : Ty) (code : StreamErr) (after : Buffer_t) (hb : Reachable h b)
      (hne : b ≠ []) (hd : decode h t b = some (.thrown code after)) : Reachable h after

/-- The conversion each scalar overload of `operator>>` applies to the bytes it has loaded
between the two markers, as a value of the type (see `decode_scalar_eq`). -/
def Ty.conv (h : Host) : Ty → List Byte → Value
  | .char, mem => .char (charToInt (mem.headD 0))
  | .uchar, mem => .uchar (toUnsigned 8 (charToInt (mem.headD 0)))
  | .int16, mem => .int16 (toSigned 16 (ntohs h (toUnsigned 16 (toSigned 16 (ofMem h mem)))))
  | .uint16, mem => .uint16 (ntohs h (ofMem h mem))
  | .int32, mem => .int32 (toSigned 32 (ntohl h (toUnsigned 32 (toSigned 32 (ofMem h mem)))))
  | .uint32, mem => .uint32 (ntohl h (ofMem h mem))
  | .int64, mem => .int64 (toSigned 64 (ntohll h (toUnsigned 64 (toSigned 64 (ofMem h mem)))))
  | .uint64, mem => .uint64 (ntohll h (ofMem h mem))
  | .string, mem => .string mem

/-! ## Definitions for the byte order helpers and typed records -/

/-- The spec: the value obtained by reversing the `w` bytes of `x`. The bytes of `x` taken
from the least significant one are read as a number written most significant byte first. -/
def reverseBytes (w x : Nat) : Nat :=
  ofBigEndian ((List.range w).map fun i => toByte (x / 256 ^ i))

/-- The spec: a complete tagged record of the type `t` (see `Record`). -/
inductive RecordOf : Ty → List Byte → Prop
  | scalar (t : Ty) (payload : List Byte) (hs : t.scalar) (hw : payload.length = t.width) :
      RecordOf t (toByte t.tag :: (payload ++ [toByte t.tag]))
  | string (data : List Byte) (hN : data.length < 2 ^ 32) :
      RecordOf Ty.string
        (toByte STRING :: (data ++ (bigEndian 4 data.length ++ [toByte STRING])))

end NetStream

/-! ## `ConnectionEndpoint.cpp`: `receive` -/

/-- Modelled from the spec: the exception class of `SocketException.h`, a header that is
not part of the sources at hand. The code builds it from an `int` code and a message; the
spec speaks of a peer-closed condition and of a transport error carrying the OS error
code. Only the code is kept. -/
structure SocketException where
  code : Int
  deriving DecidableEq, Repr

namespace ConnectionEndpoint

/-- Source `ConnectionEndpoint::receive(char *buf, int len)`, given the value `bytes` that
`::read(socket_, buf, len)` has returned and the `errno` it has left. -/
def receive (blocking_ : Bool) (bytes errno : Int) : Except SocketException Int := do
  if bytes = 0 then
    if blocking_ then
      throw { code := -1 }
  if bytes < 0 then
    throw { code := errno }
  return bytes

end ConnectionEndpoint

/-! ## `Address.cpp`: the cursor over the address list -/

/-- Source `AddressException` of `AddressException.h`, reduced to its code. -/
structure AddressException where
  code : Int
  deriving DecidableEq, Repr

/-- Source `class Address`: the two members `pAddrInfo_` and `pCurrent_`. A pointer into the
singly linked `addrinfo` list is the part of the list that starts at the node it points
to; `nullptr` is the empty list. -/
structure Address (α : Type) where
  pAddrInfo_ : List α
  pCurrent_ : List α
  deriving DecidableEq, Repr

namespace Address

/-- Source `Address::Address(AddrInfo_t* pInfo)`. -/
def mk_from {α : Type} (pInfo : List α) : Address α :=
  { pAddrInfo_ := pInfo, pCurrent_ := pInfo }

/-- Source `Address::first()`. -/
def first {α : Type} (a : Address α) : Address α :=
  { a with pCurrent_ := a.pAddrInfo_ }

/-- Source `Address::hasNext()`: `pAddrInfo_->ai_next != nullptr`; dereferencing a null
`pAddrInfo_` is undefined. -/
def hasNext {α : Type} (a : Address α) : Option Bool :=
  match a.pAddrInfo_ with
  | [] => none
  | _ :: ai_next => some (!ai_next.isEmpty)

/-- Source `Address::next()`. -/
def next {α : Type} (a : Address α) : Except AddressException (Address α) :=
  match a.pCurrent_ with
  | _ :: ai_next => .ok { a with pCurrent_ := ai_next }
  | [] => .error { code := -1 }

/-- Source `operator const AddrInfoPtr_t ()`: the current address is valid when the pointer
it converts to is not null. -/
def valid {α : Type} (a : Address α) : Bool := !a.pCurrent_.isEmpty

end Address

/-! ## `testapp/appcommon.h`: messages with a length header -/

/-- The receiving end of a connection over a reliable ordered transport: the bytes sent by
the peer that are still to be read, and for each coming call of `::read` the largest number
of bytes the transport hands over in it (the way the transport splits the stream). -/
structure Conn where
  wire : List Byte
  splits : List Nat
  blocking_ : Bool
  deriving DecidableEq, Repr

/-- The call `::read(socket_, buf, len)` on such a connection: the bytes stored at `buf`
(their number is the value returned) and the connection afterwards. The `int len` becomes
the `size_t` count. When the transport has nothing more to hand over, no byte is read. -/
def Conn.read (c : Conn) (len : Int) : List Byte × Conn :=
  match c.splits with
  | [] => ([], c)
  | k :: ks =>
    let count := min (toUnsigned 64 len) k
    (c.wire.take count, { c with wire := c.wire.drop count, splits := ks })

/-- A store of the bytes `r` at `&buffer[totalbytes]`, which must fit in the array. -/
def store_at (buffer : List Byte) (totalbytes : Nat) (r : List Byte) : Option (List Byte) :=
  if totalbytes + r.length ≤ buffer.length then
    some (buffer.take totalbytes ++ r ++ buffer.drop (totalbytes + r.length))
  else none

/-- What a call of `ReceiveMessage` leaves: the value returned, the array `buffer`, the
references `buflen` and `chunks`, and the connection. -/
structure Received where
  ret : Bool
  buffer : List Byte
  buflen : Nat
  chunks : Nat
  conn : Conn
  deriving DecidableEq, Repr

/-- Source `SendMessage`: the value returned and the bytes put on the wire after `wire`.
`ConnectionEndpoint::send` hands the bytes to `::send` and does not throw; over a reliable
transport every byte handed over is put on the wire. The `int` length becomes the `size_t`
count of `::send`, which reads that many bytes from the array `buffer`; a read past the
array is undefined (`none`). -/
def SendMessage (h : Host) (wire : List Byte) (buffer : List Byte) (buflen : Int) :
    Option (Bool × List Byte) :=
  let netbytes : Nat := htonl h (toUnsigned 32 buflen)
  let wire := wire ++ toMem h 4 netbytes
  if toUnsigned 64 buflen ≤ buffer.length then
    some (true, wire ++ buffer.take (toUnsigned 64 buflen))
  else none

/-- The loop `while (totalbytes < msglen) { len = conn.receive(&buffer[totalbytes],
msglen - totalbytes); totalbytes += len; chunks++; }` of `ReceiveMessage`, with the `catch`
that returns false. Each turn uses up one element of `splits`. On a connection that is not
blocking and has nothing more to hand over the loop does not end (`none`), as it does not
when a store leaves the array. -/
def receive_loop (blocking_ : Bool) (msglen : Nat) :
    List Nat → List Byte → Nat → List Byte → Nat → Option (Bool × List Byte × Nat × Conn)
  | [], wire, totalbytes, buffer, chunks =>
    if totalbytes < msglen then
      match ConnectionEndpoint.receive blocking_ 0 0 with
      | .error _ => some (false, buffer, chunks, { wire := wire, splits := [], blocking_ })
      | .ok _ => none
    else some (true, buffer, chunks, { wire := wire, splits := [], blocking_ })
  | k :: ks, wire, totalbytes, buffer, chunks =>
    if totalbytes < msglen then
      let conn : Conn := { wire := wire, splits := k :: ks, blocking_ }
      let len : Int := toSigned 32 ((msglen - totalbytes) % 2 ^ 32)
      let (r, conn) := conn.read len
      match ConnectionEndpoint.receive blocking_ r.length 0 with
      | .error _ => some (false, buffer, chunks, conn)
      | .ok len =>
        match store_at buffer totalbytes r with
        | none => none
        | some buffer =>
          receive_loop blocking_ msglen ks conn.wire
            ((totalbytes + toUnsigned 32 len) % 2 ^ 32) buffer ((chunks + 1) % 2 ^ 32)
    else some (true, buffer, chunks, { wire := wire, splits := k :: ks, blocking_ })

/-- Source `ReceiveMessage`. The array `buffer` holds `buflen` bytes on entry; the array
made by `new char[msglen]` is taken as zero-filled (its bytes are indeterminate until
stored). The four bytes of `msglen` start as 0 and the first `receive` stores what it reads
over them. -/
def ReceiveMessage (h : Host) (conn : Conn) (buffer : List Byte) (buflen chunks : Nat) :
    Option Received :=
  let msglen : Nat := 0
  let (r, conn1) := conn.read 4
  match ConnectionEndpoint.receive conn.blocking_ r.length 0 with
  | .error _ => some { ret := false, buffer, buflen, chunks, conn := conn1 }
  | .ok len =>
    if len > 0 then
      match store_at (toMem h 4 msglen) 0 r with
      | none => none
      | some mem =>
        let msglen : Nat := ntohl h (ofMem h mem)
        let (buffer, buflen) : List Byte × Nat :=
          if msglen ≠ buflen then (List.replicate msglen 0, msglen) else (buffer, buflen)
        match receive_loop conn.blocking_ msglen conn1.splits conn1.wire 0 buffer chunks with
        | none => none
        | some (ret, buffer, chunks, conn2) => some { ret, buffer, buflen, chunks, conn := conn2 }
    else some { ret := true, buffer, buflen, chunks, conn := conn1 }

open NetStream

/-! ## Bytes of a number -/

theorem toByte_val (c : Byte) : toByte c.val = c := by
  apply Fin.ext
  simp [toByte]

theorem length_toLE (w x : Nat) : (toLE w x).length = w := by
  induction w generalizing x with
  | zero => rfl
  | succ w ih => simp [toLE, ih]

theorem ofLE_lt (bs : List Byte) : ofLE bs < 256 ^ bs.length := by
  induction bs with
  | nil => simp [ofLE]
  | cons b bs ih =>
    have hb := b.isLt
    simp only [ofLE, List.length_cons, pow_succ]
    omega

theorem ofLE_toLE (w x : Nat) : ofLE (toLE w x) = x % 256 ^ w := by
  induction w generalizing x with
  | zero => simp [toLE, ofLE, Nat.mod_one]
  | succ w ih =>
    simp only [toLE, ofLE, ih, toByte]
    rw [pow_succ', Nat.mod_mul]

theorem toLE_ofLE (bs : List Byte) : toLE bs.length (ofLE bs) = bs := by
  induction bs with
  | nil => rfl
  | cons b bs ih =>
    have hb := b.isLt
    have h1 : (b.val + 256 * ofLE bs) / 256 = ofLE bs := by omega
    have h2 : toByte (b.val + 256 * ofLE bs) = b := by
      apply Fin.ext
      simp only [toByte]
      omega
    simp only [List.length_cons, ofLE, toLE, h1, h2, ih]

theorem ofLE_append (as bs : List Byte) :
    ofLE (as ++ bs) = ofLE as + 256 ^ as.length * ofLE bs := by
  induction as with
  | nil => simp [ofLE]
  | cons a as ih =>
    show a.val + 256 * ofLE (as ++ bs) = a.val + 256 * ofLE as + 256 ^ (as.length + 1) * ofLE bs
    rw [ih, pow_succ]
    ring

theorem toLE_add (m n x : Nat) : toLE (m + n) x = toLE m x ++ toLE n (x / 256 ^ m) := by
  induction m generalizing x with
  | zero => simp [toLE]
  | succ m ih =>
    have : m + 1 + n = (m + n) + 1 := by omega
    rw [this]
    simp only [toLE, List.cons_append, ih, Nat.div_div_eq_div_mul, pow_succ]
    rw [Nat.mul_comm (256 ^ m) 256]

theorem toLE_mod (w x : Nat) : toLE w (x % 256 ^ w) = toLE w x := by
  have h := toLE_ofLE (toLE w x)
  rw [length_toLE, ofLE_toLE] at h
  exact h

theorem length_toBE (w x : Nat) : (toBE w x).length = w := by
  simp [toBE, length_toLE]

theorem ofBE_toBE (w x : Nat) : ofBE (toBE w x) = x % 256 ^ w := by
  simp [ofBE, toBE, ofLE_toLE]

theorem toBE_ofBE (bs : List Byte) : toBE bs.length (ofBE bs) = bs := by
  have h := toLE_ofLE bs.reverse
  rw [List.length_reverse] at h
  simp [toBE, ofBE, h]

theorem ofBE_lt (bs : List Byte) : ofBE bs < 256 ^ bs.length := by
  have h := ofLE_lt bs.reverse
  rwa [List.length_reverse] at h

theorem toBE_mod (w x : Nat) : toBE w (x % 256 ^ w) = toBE w x := by
  simp [toBE, toLE_mod]

theorem length_toMem (h : Host) (w x : Nat) : (toMem h w x).length = w := by
  cases h <;> simp [toMem, length_toLE, length_toBE]

theorem ofMem_lt (h : Host) (bs : List Byte) : ofMem h bs < 256 ^ bs.length := by
  cases h
  · exact ofLE_lt bs
  · exact ofBE_lt bs

theorem toMem_ofMem (h : Host) (bs : List Byte) : toMem h bs.length (ofMem h bs) = bs := by
  cases h
  · exact toLE_ofLE bs
  · exact toBE_ofBE bs

theorem ofMem_toMem (h : Host) (w x : Nat) : ofMem h (toMem h w x) = x % 256 ^ w := by
  cases h
  · exact ofLE_toLE w x
  · exact ofBE_toBE w x

theorem toMem_mod (h : Host) (w x : Nat) : toMem h w (x % 256 ^ w) = toMem h w x := by
  cases h
  · exact toLE_mod w x
  · exact toBE_mod w x

theorem ofBE_append (as bs : List Byte) :
    ofBE (as ++ bs) = ofBE as * 256 ^ bs.length + ofBE bs := by
  simp only [ofBE, List.reverse_append, ofLE_append, List.length_reverse]
  ring

theorem toBE_add (m n x : Nat) : toBE (m + n) x = toBE m (x / 256 ^ n) ++ toBE n x := by
  simp only [toBE]
  rw [Nat.add_comm, toLE_add, List.reverse_append]

/-! ## Conversions between signed and unsigned -/

theorem toUnsigned_lt (bits : Nat) (v : Int) : toUnsigned bits v < 2 ^ bits := by
  unfold toUnsigned
  have hpos : (0 : Int) < 2 ^ bits := by positivity
  have h1 := Int.emod_lt_of_pos v hpos
  have h2 := Int.emod_nonneg v (ne_of_gt hpos)
  zify
  rw [Int.toNat_of_nonneg h2]
  exact h1

theorem toUnsigned_toSigned (bits x : Nat) :
    toUnsigned bits (toSigned bits x) = x % 2 ^ bits := by
  unfold toUnsigned toSigned
  have hlt : x % 2 ^ bits < 2 ^ bits := Nat.mod_lt _ (by positivity)
  have hcast : ((2 ^ bits : Nat) : Int) = (2 : Int) ^ bits := by push_cast; rfl
  split
  · rw [← hcast, ← Int.natCast_mod, Int.toNat_natCast, Nat.mod_mod]
  · rw [← hcast, Int.sub_emod, Int.emod_self, sub_zero, Int.emod_emod, ← Int.natCast_mod,
      Int.toNat_natCast, Nat.mod_mod]

theorem toSigned_toUnsigned (bits : Nat) (v : Int) (hb : 0 < bits)
    (hlo : -(2 : Int) ^ (bits - 1) ≤ v) (hhi : v < (2 : Int) ^ (bits - 1)) :
    toSigned bits (toUnsigned bits v) = v := by
  obtain ⟨k, rfl⟩ : ∃ k, bits = k + 1 := ⟨bits - 1, by omega⟩
  simp only [Nat.add_sub_cancel] at hlo hhi
  have hu := toUnsigned_lt (k + 1) v
  unfold toSigned
  rw [Nat.mod_eq_of_lt hu]
  simp only [Nat.add_sub_cancel]
  unfold toUnsigned at *
  have hpos : (0 : Int) < 2 ^ (k + 1) := by positivity
  have h2 := Int.emod_nonneg v (ne_of_gt hpos)
  have hp : (2 : Int) ^ (k + 1) = 2 * 2 ^ k := by rw [pow_succ]; ring
  have hpn : (2 : Nat) ^ (k + 1) = 2 * 2 ^ k := by rw [pow_succ]; ring
  by_cases hv : 0 ≤ v
  · have e : v % 2 ^ (k + 1) = v := Int.emod_eq_of_lt hv (by omega)
    rw [e]
    have : v.toNat < 2 ^ k := by zify; rw [Int.toNat_of_nonneg hv]; exact hhi
    rw [if_pos this, Int.toNat_of_nonneg hv]
  · have e : v % 2 ^ (k + 1) = v + 2 ^ (k + 1) := by
      rw [← Int.add_mul_emod_self_left v (2 ^ (k + 1)) 1, mul_one]
      exact Int.emod_eq_of_lt (by omega) (by omega)
    rw [e]
    have : ¬ (v + 2 ^ (k + 1)).toNat < 2 ^ k := by
      zify; rw [Int.toNat_of_nonneg (by omega)]; omega
    rw [if_neg this, Int.toNat_of_nonneg (by omega)]
    ring

/-! ## Host order to network order -/

theorem toMem_htons (h : Host) (x : Nat) : toMem h 2 (htons h x) = toBE 2 x := by
  have := toMem_ofMem h (toBE 2 x)
  rwa [length_toBE] at this

theorem toMem_htonl (h : Host) (x : Nat) : toMem h 4 (htonl h x) = toBE 4 x := by
  have := toMem_ofMem h (toBE 4 x)
  rwa [length_toBE] at this

theorem htons_lt (h : Host) (x : Nat) : htons h x < 2 ^ 16 := by
  have := ofMem_lt h (toBE 2 x)
  rw [length_toBE] at this
  exact this

theorem htonl_lt (h : Host) (x : Nat) : htonl h x < 2 ^ 32 := by
  have := ofMem_lt h (toBE 4 x)
  rw [length_toBE] at this
  exact this

theorem ntohs_ofMem (h : Host) (bs : List Byte) (hl : bs.length = 2) :
    ntohs h (ofMem h bs) = ofBE bs := by
  have := toMem_ofMem h bs
  rw [hl] at this
  rw [ntohs, this]

theorem ntohl_ofMem (h : Host) (bs : List Byte) (hl : bs.length = 4) :
    ntohl h (ofMem h bs) = ofBE bs := by
  have := toMem_ofMem h bs
  rw [hl] at this
  rw [ntohl, this]

theorem ntohl_lt (h : Host) (x : Nat) : ntohl h x < 2 ^ 32 := by
  have := ofBE_lt (toMem h 4 x)
  rw [length_toMem] at this
  exact this

theorem htonll_bigEndian (x : Nat) : htonll .bigEndian x = x := by
  simp [htonll, toMem, toBE, toLE, toUnsigned, toByte, charToInt]

theorem ntohll_bigEndian (x : Nat) : ntohll .bigEndian x = x := by
  simp [ntohll, toMem, toBE, toLE, toUnsigned, toByte, charToInt]

theorem htonll_littleEndian (x : Nat) :
    htonll .littleEndian x
      = htonl .littleEndian (x / 2 ^ 32 % 2 ^ 32) + 2 ^ 32 * htonl .littleEndian (x % 2 ^ 32) := by
  have hh := htonl_lt .littleEndian (x / 2 ^ 32 % 2 ^ 32)
  have hl := htonl_lt .littleEndian (x % 2 ^ 32)
  have e : (0xFFFFFFFF : Nat) = 2 ^ 32 - 1 := by norm_num
  have hc : ¬ charToInt ((toMem .littleEndian 4 (toUnsigned 32 (42 : Int))).headD 0) ≠ (42 : Int) := by
    decide
  unfold htonll
  simp only [hc, if_false]
  rw [e, Nat.and_pow_two_sub_one_eq_mod, Nat.shiftRight_eq_div_pow, Nat.shiftLeft_eq, Nat.mod_mod]
  rw [Nat.mod_eq_of_lt (by omega : htonl .littleEndian (x % 2 ^ 32) * 2 ^ 32 < 2 ^ 64)]
  rw [Nat.mul_comm, ← Nat.mul_add_lt_is_or hh]
  omega

theorem ntohll_littleEndian (x : Nat) :
    ntohll .littleEndian x
      = ntohl .littleEndian (x / 2 ^ 32 % 2 ^ 32) + 2 ^ 32 * ntohl .littleEndian (x % 2 ^ 32) := by
  have hh := ntohl_lt .littleEndian (x / 2 ^ 32 % 2 ^ 32)
  have hl := ntohl_lt .littleEndian (x % 2 ^ 32)
  have e : (0xFFFFFFFF : Nat) = 2 ^ 32 - 1 := by norm_num
  have hc : ¬ charToInt ((toMem .littleEndian 4 (toUnsigned 32 (42 : Int))).headD 0) ≠ (42 : Int) := by
    decide
  unfold ntohll
  simp only [hc, if_false]
  rw [e, Nat.and_pow_two_sub_one_eq_mod, Nat.shiftRight_eq_div_pow, Nat.shiftLeft_eq, Nat.mod_mod]
  rw [Nat.mod_eq_of_lt (by omega : ntohl .littleEndian (x % 2 ^ 32) * 2 ^ 32 < 2 ^ 64)]
  rw [Nat.mul_comm, ← Nat.mul_add_lt_is_or hh]
  omega

theorem toMem_htonll (h : Host) (x : Nat) :
    toMem h 8 (htonll h x) = toBE 8 x := by
  cases h
  · rw [htonll_littleEndian]
    have hh := htonl_lt .littleEndian (x / 2 ^ 32 % 2 ^ 32)
    have e1 := toMem_htonl .littleEndian (x / 2 ^ 32 % 2 ^ 32)
    have e2 := toMem_htonl .littleEndian (x % 2 ^ 32)
    have p : (2 : Nat) ^ 32 = 256 ^ 4 := by norm_num
    simp only [toMem] at *
    rw [show (8 : Nat) = 4 + 4 from rfl, toLE_add]
    have d : (htonl .littleEndian (x / 2 ^ 32 % 2 ^ 32)
        + 2 ^ 32 * htonl .littleEndian (x % 2 ^ 32)) / 256 ^ 4
        = htonl .littleEndian (x % 2 ^ 32) := by
      rw [← p]; omega
    rw [d, e2]
    have m := toLE_mod 4 (htonl .littleEndian (x / 2 ^ 32 % 2 ^ 32)
        + 2 ^ 32 * htonl .littleEndian (x % 2 ^ 32))
    have m2 : (htonl .littleEndian (x / 2 ^ 32 % 2 ^ 32)
        + 2 ^ 32 * htonl .littleEndian (x % 2 ^ 32)) % 256 ^ 4
        = htonl .littleEndian (x / 2 ^ 32 % 2 ^ 32) := by
      rw [← p]; omega
    rw [m2] at m
    rw [← m, e1, toBE_add, p, toBE_mod, toBE_mod]
  · rw [htonll_bigEndian]; rfl

theorem ntohll_ofMem (h : Host) (bs : List Byte) (hl : bs.length = 8) :
    ntohll h (ofMem h bs) = ofBE bs := by
  cases h
  · rw [ntohll_littleEndian]
    simp only [ofMem]
    have hsplit : bs = bs.take 4 ++ bs.drop 4 := (List.take_append_drop 4 bs).symm
    have l1 : (bs.take 4).length = 4 := by simp [hl]
    have l2 : (bs.drop 4).length = 4 := by simp [hl]
    have p : (2 : Nat) ^ 32 = 256 ^ 4 := by norm_num
    have v : ofLE bs = ofLE (bs.take 4) + 256 ^ 4 * ofLE (bs.drop 4) := by
      conv_lhs => rw [hsplit]
      rw [ofLE_append, l1]
    have b1 := ofLE_lt (bs.take 4)
    have b2 := ofLE_lt (bs.drop 4)
    rw [l1] at b1
    rw [l2] at b2
    have lo : ofLE bs % 2 ^ 32 = ofLE (bs.take 4) := by rw [v, p]; omega
    have hi : ofLE bs / 2 ^ 32 % 2 ^ 32 = ofLE (bs.drop 4) := by rw [v, p]; omega
    rw [lo, hi]
    have n1 := ntohl_ofMem .littleEndian (bs.take 4) l1
    have n2 := ntohl_ofMem .littleEndian (bs.drop 4) l2
    simp only [ofMem] at n1 n2
    rw [n1, n2]
    conv_rhs => rw [hsplit]
    rw [ofBE_append, l2, p]
    ring
  · rw [ntohll_bigEndian]; rfl

namespace NetStream

/-! ## The buffer primitives -/

theorem push_back_eq (b : Buffer_t) (x : Nat) : push_back b x = b ++ [toByte x] := rfl

theorem push_each_eq (b : Buffer_t) (mem : List Byte) : push_each b mem = b ++ mem := by
  unfold push_each
  induction mem generalizing b with
  | nil => simp
  | cons c cs ih =>
    rw [List.foldl_cons, ih, push_back, toByte_val]
    simp

theorem deref_natCast (buf : Buffer_t) (i : Nat) : deref buf (i : Int) = buf[i]? := by
  simp [deref]

theorem deref_neg (buf : Buffer_t) (i : Int) (hi : i < 0) : deref buf i = none := by
  simp [deref, hi]

theorem erase_natCast (buf : Buffer_t) (i : Nat) (hi : i ≤ buf.length) :
    erase buf (i : Int) = some (buf.take i) := by
  simp [erase, hi]

theorem copy_back_eq (buf : Buffer_t) (n k : Nat) (mem : List Byte) (hk : k + n ≤ buf.length) :
    copy_back buf n (((k + n : Nat) : Int) - 1) mem
      = some ((buf.drop k).take n ++ mem, (k : Int) - 1) := by
  induction n generalizing mem with
  | zero => simp [copy_back]
  | succ n ih =>
    have hlt : k + n < buf.length := by omega
    have e1 : (((k + (n + 1) : Nat) : Int) - 1) = ((k + n : Nat) : Int) := by push_cast; ring
    rw [copy_back, e1, deref_natCast, List.getElem?_eq_getElem hlt]
    simp only [Option.bind_eq_bind, Option.some_bind]
    rw [ih _ (by omega)]
    have e2 : (buf.drop k).take (n + 1) = (buf.drop k).take n ++ [buf[k + n]] := by
      rw [List.take_succ, List.getElem?_drop, List.getElem?_eq_getElem hlt]
      rfl
    rw [e2]
    simp

theorem charToInt_ne_iff (c : Byte) (tag : Nat) (ht : tag < 128) :
    charToInt c ≠ (tag : Int) ↔ c ≠ toByte tag := by
  have hc := c.isLt
  unfold charToInt toByte
  rw [Ne, Ne, Fin.ext_iff]
  simp only
  split <;> omega

theorem charToInt_toByte (tag : Nat) (ht : tag < 128) : charToInt (toByte tag) = (tag : Int) := by
  unfold charToInt toByte
  simp only
  split <;> omega

/-- Decoding the record `tag payload tag` at the tail of a buffer: the payload is
returned and the record removed. -/
theorem decode_payload_record (tag w : Nat) (ht : tag < 128) (b : Buffer_t) (payload : List Byte)
    (hw : payload.length = w) :
    decode_payload tag w (b ++ toByte tag :: (payload ++ [toByte tag]))
      = some (.returned payload b) := by
  unfold decode_payload
  have hlen : (b ++ toByte tag :: (payload ++ [toByte tag])).length = b.length + w + 2 := by
    simp [hw]; omega
  have i1 : (((b ++ toByte tag :: (payload ++ [toByte tag])).length : Int) - 1)
      = ((b.length + w + 1 : Nat) : Int) := by rw [hlen]; push_cast; ring
  have i2 : ((b.length + w + 1 : Nat) : Int) - ((w : Int) + 1) = ((b.length : Nat) : Int) := by
    push_cast; ring
  have i3 : ((b.length + w + 1 : Nat) : Int) - 1 = (((b.length + 1) + w : Nat) : Int) - 1 := by
    push_cast; ring
  have i4 : ((b.length + 1 : Nat) : Int) - 1 = ((b.length : Nat) : Int) := by push_cast; ring
  have g1 : (b ++ toByte tag :: (payload ++ [toByte tag]))[b.length + w + 1]? = some (toByte tag) := by
    rw [List.getElem?_append_right (by omega)]
    have : b.length + w + 1 - b.length = (payload.length + 0) + 1 := by omega
    rw [this, List.getElem?_cons_succ, List.getElem?_append_right (by omega)]
    simp
  have g2 : (b ++ toByte tag :: (payload ++ [toByte tag]))[b.length]? = some (toByte tag) := by
    rw [List.getElem?_append_right (by omega)]
    simp
  have c : copy_back (b ++ toByte tag :: (payload ++ [toByte tag])) w
      ((((b.length + 1) + w : Nat) : Int) - 1) []
      = some (payload, ((b.length + 1 : Nat) : Int) - 1) := by
    rw [copy_back_eq _ _ _ _ (by rw [hlen]; omega)]
    have : (b ++ toByte tag :: (payload ++ [toByte tag])).drop (b.length + 1)
        = payload ++ [toByte tag] := by
      rw [show b ++ toByte tag :: (payload ++ [toByte tag])
          = (b ++ [toByte tag]) ++ (payload ++ [toByte tag]) by simp]
      rw [List.drop_append_eq_append_drop]
      simp
    rw [this, ← hw]
    simp
  simp only [i1, deref_natCast, g1, Option.bind_eq_bind, Option.some_bind, i2, g2,
    charToInt_toByte tag ht, ne_eq, not_true_eq_false, if_false, i3, c, i4,
    erase_natCast _ _ (by rw [hlen]; omega : b.length ≤ _)]
  simp

/-! ## Each scalar overload of `operator>>` in terms of the shared steps -/

theorem decode_int32_eq (h : Host) (buf : Buffer_t) :
    decode_int32 h buf = (decode_payload STREAM_TYPE_INT32 4 buf).map
      (Result.map fun mem => toSigned 32 (ntohl h (toUnsigned 32 (toSigned 32 (ofMem h mem))))) := by
  unfold decode_int32 decode_payload
  simp only [Nat.cast_ofNat, Option.bind_eq_bind, Option.pure_def]
  cases deref buf ((buf.length : Int) - 1) with
  | none => rfl
  | some t =>
    simp only [Option.some_bind]
    split
    · rfl
    · cases deref buf ((buf.length : Int) - 1 - (4 + 1)) with
      | none => rfl
      | some t2 =>
        simp only [Option.some_bind]
        split
        · rfl
        · cases copy_back buf 4 ((buf.length : Int) - 1 - 1) [] with
          | none => rfl
          | some r =>
            obtain ⟨mem, itr⟩ := r
            simp only [Option.some_bind]
            cases erase buf itr <;> rfl

theorem decode_char_eq (buf : Buffer_t) :
    decode_char buf = (decode_payload STREAM_TYPE_CHAR 1 buf).map
      (Result.map fun mem => charToInt (mem.headD 0)) := by
  unfold decode_char decode_payload
  simp only [Nat.cast_ofNat, Nat.cast_one, Option.bind_eq_bind, Option.pure_def, copy_back]
  cases deref buf ((buf.length : Int) - 1) with
  | none => rfl
  | some t =>
    simp only [Option.some_bind]
    split
    · rfl
    · cases deref buf ((buf.length : Int) - 1 - (1 + 1)) with
      | none => rfl
      | some t2 =>
        simp only [Option.some_bind]
        split
        · rfl
        · cases deref buf ((buf.length : Int) - 1 - 1) with
          | none => rfl
          | some c =>
            simp only [Option.some_bind]
            cases erase buf ((buf.length : Int) - 1 - 1 - 1) <;> rfl

theorem decode_int16_eq (h : Host) (buf : Buffer_t) :
    decode_int16 h buf = (decode_payload STREAM_TYPE_INT16 2 buf).map
      (Result.map fun mem => toSigned 16 (ntohs h (toUnsigned 16 (toSigned 16 (ofMem h mem))))) := by
  unfold decode_int16 decode_payload
  simp only [Nat.cast_ofNat, Option.bind_eq_bind, Option.pure_def, copy_back]
  cases deref buf ((buf.length : Int) - 1) with
  | none => rfl
  | some t =>
    simp only [Option.some_bind]
    split
    · rfl
    · cases deref buf ((buf.length : Int) - 1 - (2 + 1)) with
      | none => rfl
      | some t2 =>
        simp only [Option.some_bind]
        split
        · rfl
        · cases deref buf ((buf.length : Int) - 1 - 1) with
          | none => rfl
          | some p1 =>
            simp only [Option.some_bind]
            cases deref buf ((buf.length : Int) - 1 - 1 - 1) with
            | none => rfl
            | some p0 =>
              simp only [Option.some_bind]
              cases erase buf ((buf.length : Int) - 1 - 1 - 1 - 1) <;> rfl

theorem decode_uchar_eq (buf : Buffer_t) :
    decode_uchar buf = (decode_payload STREAM_TYPE_UCHAR 1 buf).map
      (Result.map fun mem => toUnsigned 8 (charToInt (mem.headD 0))) := by
  unfold decode_uchar decode_payload
  simp only [Nat.cast_ofNat, Nat.cast_one, Option.bind_eq_bind, Option.pure_def, copy_back]
  cases deref buf ((buf.length : Int) - 1) with
  | none => rfl
  | some t =>
    simp only [Option.some_bind]
    split
    · rfl
    · cases deref buf ((buf.length : Int) - 1 - (1 + 1)) with
      | none => rfl
      | some t2 =>
        simp only [Option.some_bind]
        split
        · rfl
        · cases deref buf ((buf.length : Int) - 1 - 1) with
          | none => rfl
          | some c =>
            simp only [Option.some_bind]
            cases erase buf ((buf.length : Int) - 1 - 1 - 1) <;> rfl

theorem decode_uint16_eq (h : Host) (buf : Buffer_t) :
    decode_uint16 h buf = (decode_payload STREAM_TYPE_UINT16 2 buf).map
      (Result.map fun mem => ntohs h (ofMem h mem)) := by
  unfold decode_uint16 decode_payload
  simp only [Nat.cast_ofNat, Option.bind_eq_bind, Option.pure_def, copy_back]
  cases deref buf ((buf.length : Int) - 1) with
  | none => rfl
  | some t =>
    simp only [Option.some_bind]
    split
    · rfl
    · cases deref buf ((buf.length : Int) - 1 - (2 + 1)) with
      | none => rfl
      | some t2 =>
        simp only [Option.some_bind]
        split
        · rfl
        · cases deref buf ((buf.length : Int) - 1 - 1) with
          | none => rfl
          | some p1 =>
            simp only [Option.some_bind]
            cases deref buf ((buf.length : Int) - 1 - 1 - 1) with
            | none => rfl
            | some p0 =>
              simp only [Option.some_bind]
              cases erase buf ((buf.length : Int) - 1 - 1 - 1 - 1) <;> rfl

theorem decode_uint32_eq (h : Host) (buf : Buffer_t) :
    decode_uint32 h buf = (decode_payload STREAM_TYPE_UINT32 4 buf).map
      (Result.map fun mem => ntohl h (ofMem h mem)) := by
  unfold decode_uint32 decode_payload
  simp only [Nat.cast_ofNat, Option.bind_eq_bind, Option.pure_def]
  cases deref buf ((buf.length : Int) - 1) with
  | none => rfl
  | some t =>
    simp only [Option.some_bind]
    split
    · rfl
    · cases deref buf ((buf.length : Int) - 1 - (4 + 1)) with
      | none => rfl
      | some t2 =>
        simp only [Option.some_bind]
        split
        · rfl
        · cases copy_back buf 4 ((buf.length : Int) - 1 - 1) [] with
          | none => rfl
          | some r =>
            obtain ⟨mem, itr⟩ := r
            simp only [Option.some_bind]
            cases erase buf itr <;> rfl

theorem decode_int64_eq (h : Host) (buf : Buffer_t) :
    decode_int64 h buf = (decode_payload STREAM_TYPE_INT64 8 buf).map
      (Result.map fun mem => toSigned 64 (ntohll h (toUnsigned 64 (toSigned 64 (ofMem h mem))))) := by
  unfold decode_int64 decode_payload
  simp only [Nat.cast_ofNat, Option.bind_eq_bind, Option.pure_def]
  cases deref buf ((buf.length : Int) - 1) with
  | none => rfl
  | some t =>
    simp only [Option.some_bind]
    split
    · rfl
    · cases deref buf ((buf.length : Int) - 1 - (8 + 1)) with
      | none => rfl
      | some t2 =>
        simp only [Option.some_bind]
        split
        · rfl
        · cases copy_back buf 8 ((buf.length : Int) - 1 - 1) [] with
          | none => rfl
          | some r =>
            obtain ⟨mem, itr⟩ := r
            simp only [Option.some_bind]
            cases erase buf itr <;> rfl

theorem decode_uint64_eq (h : Host) (buf : Buffer_t) :
    decode_uint64 h buf = (decode_payload STREAM_TYPE_UINT64 8 buf).map
      (Result.map fun mem => ntohll h (ofMem h mem)) := by
  unfold decode_uint64 decode_payload
  simp only [Nat.cast_ofNat, Option.bind_eq_bind, Option.pure_def]
  cases deref buf ((buf.length : Int) - 1) with
  | none => rfl
  | some t =>
    simp only [Option.some_bind]
    split
    · rfl
    · cases deref buf ((buf.length : Int) - 1 - (8 + 1)) with
      | none => rfl
      | some t2 =>
        simp only [Option.some_bind]
        split
        · rfl
        · cases copy_back buf 8 ((buf.length : Int) - 1 - 1) [] with
          | none => rfl
          | some r =>
            obtain ⟨mem, itr⟩ := r
            simp only [Option.some_bind]
            cases erase buf itr <;> rfl

/-! ## The bytes appended by each overload of `operator<<` -/

theorem toBE_one (x : Nat) : toBE 1 x = [toByte x] := rfl

theorem encode_char_eq (b : Buffer_t) (v : Int) :
    encode_char b v
      = b ++ toByte STREAM_TYPE_CHAR :: (toBE 1 (toUnsigned 8 v) ++ [toByte STREAM_TYPE_CHAR]) := by
  simp [encode_char, push_back_eq, toBE_one]

theorem encode_uchar_eq (b : Buffer_t) (v : Nat) :
    encode_uchar b v
      = b ++ toByte STREAM_TYPE_UCHAR :: (toBE 1 v ++ [toByte STREAM_TYPE_UCHAR]) := by
  simp [encode_uchar, push_back_eq, toBE_one]

theorem encode_int16_eq (h : Host) (b : Buffer_t) (v : Int) :
    encode_int16 h b v
      = b ++ toByte STREAM_TYPE_INT16 :: (toBE 2 (toUnsigned 16 v) ++ [toByte STREAM_TYPE_INT16]) := by
  have e : toMem h 2 (toUnsigned 16 (toSigned 16 (htons h (toUnsigned 16 v))))
      = toBE 2 (toUnsigned 16 v) := by
    rw [toUnsigned_toSigned, show (2 : Nat) ^ 16 = 256 ^ 2 by norm_num, toMem_mod, toMem_htons]
  simp [encode_int16, push_back_eq, push_each_eq, e]

theorem encode_uint16_eq (h : Host) (b : Buffer_t) (v : Nat) :
    encode_uint16 h b v
      = b ++ toByte STREAM_TYPE_UINT16 :: (toBE 2 v ++ [toByte STREAM_TYPE_UINT16]) := by
  simp [encode_uint16, push_back_eq, push_each_eq, toMem_htons]

theorem encode_int32_eq (h : Host) (b : Buffer_t) (v : Int) :
    encode_int32 h b v
      = b ++ toByte STREAM_TYPE_INT32 :: (toBE 4 (toUnsigned 32 v) ++ [toByte STREAM_TYPE_INT32]) := by
  have e : toMem h 4 (toUnsigned 32 (toSigned 32 (htonl h (toUnsigned 32 v))))
      = toBE 4 (toUnsigned 32 v) := by
    rw [toUnsigned_toSigned, show (2 : Nat) ^ 32 = 256 ^ 4 by norm_num, toMem_mod, toMem_htonl]
  simp [encode_int32, push_back_eq, push_each_eq, e]

theorem encode_uint32_eq (h : Host) (b : Buffer_t) (v : Nat) :
    encode_uint32 h b v
      = b ++ toByte STREAM_TYPE_UINT32 :: (toBE 4 v ++ [toByte STREAM_TYPE_UINT32]) := by
  simp [encode_uint32, push_back_eq, push_each_eq, toMem_htonl]

theorem encode_int64_eq (h : Host) (b : Buffer_t) (v : Int) :
    encode_int64 h b v
      = b ++ toByte STREAM_TYPE_INT64 :: (toBE 8 (toUnsigned 64 v) ++ [toByte STREAM_TYPE_INT64]) := by
  have e : toMem h 8 (toUnsigned 64 (toSigned 64 (htonll h (toUnsigned 64 v))))
      = toBE 8 (toUnsigned 64 v) := by
    rw [toUnsigned_toSigned, show (2 : Nat) ^ 64 = 256 ^ 8 by norm_num, toMem_mod, toMem_htonll]
  simp [encode_int64, push_back_eq, push_each_eq, e]

theorem encode_uint64_eq (h : Host) (b : Buffer_t) (v : Nat) :
    encode_uint64 h b v
      = b ++ toByte STREAM_TYPE_UINT64 :: (toBE 8 v ++ [toByte STREAM_TYPE_UINT64]) := by
  simp [encode_uint64, push_back_eq, push_each_eq, toMem_htonll]

theorem encode_string_eq (h : Host) (b : Buffer_t) (s : List Byte) :
    encode_string h b s
      = b ++ toByte STREAM_TYPE_STRING :: (s.take (s.length % 2 ^ 32)
          ++ (toBE 4 (s.length % 2 ^ 32) ++ [toByte STREAM_TYPE_STRING])) := by
  simp [encode_string, push_back_eq, push_each_eq, toMem_htonl]

/-! ## The value each overload of `operator>>` computes from the payload bytes -/

theorem ntohs_conv (h : Host) (mem : List Byte) (hl : mem.length = 2) :
    ntohs h (toUnsigned 16 (toSigned 16 (ofMem h mem))) = ofBE mem := by
  have hlt := ofMem_lt h mem
  rw [hl] at hlt
  rw [toUnsigned_toSigned, Nat.mod_eq_of_lt (by omega), ntohs_ofMem h mem hl]

theorem ntohl_conv (h : Host) (mem : List Byte) (hl : mem.length = 4) :
    ntohl h (toUnsigned 32 (toSigned 32 (ofMem h mem))) = ofBE mem := by
  have hlt := ofMem_lt h mem
  rw [hl] at hlt
  rw [toUnsigned_toSigned, Nat.mod_eq_of_lt (by omega), ntohl_ofMem h mem hl]

theorem ntohll_conv (h : Host) (mem : List Byte) (hl : mem.length = 8) :
    ntohll h (toUnsigned 64 (toSigned 64 (ofMem h mem))) = ofBE mem := by
  have hlt := ofMem_lt h mem
  rw [hl] at hlt
  rw [toUnsigned_toSigned, Nat.mod_eq_of_lt (by omega), ntohll_ofMem h mem hl]

theorem ofBE_toBE_of_lt (w x : Nat) (hx : x < 256 ^ w) : ofBE (toBE w x) = x := by
  rw [ofBE_toBE, Nat.mod_eq_of_lt hx]

theorem charToInt_toByte_toUnsigned (v : Int) (hlo : -2 ^ 7 ≤ v) (hhi : v < 2 ^ 7) :
    charToInt (toByte (toUnsigned 8 v)) = v := by
  unfold charToInt toByte toUnsigned
  simp only
  split <;> omega

theorem toUnsigned_charToInt_toByte (v : Nat) (hv : v < 2 ^ 8) :
    toUnsigned 8 (charToInt (toByte v)) = v := by
  unfold charToInt toByte toUnsigned
  simp only
  split <;> omega

/-! ## The string overload of `operator>>` -/

theorem copy_string_eq (buf : Buffer_t) (n k : Nat) (pB : List Byte)
    (hk : k + n ≤ buf.length) (hp : n ≤ pB.length) :
    copy_string buf n (((k + n : Nat) : Int) - 1) pB
      = some ((buf.drop k).take n ++ pB.drop n, (k : Int) - 1) := by
  induction n generalizing pB with
  | zero => simp [copy_string]
  | succ n ih =>
    have hlt : k + n < buf.length := by omega
    have hn : n < pB.length := by omega
    have e1 : (((k + (n + 1) : Nat) : Int) - 1) = ((k + n : Nat) : Int) := by push_cast; ring
    rw [copy_string, e1, deref_natCast, List.getElem?_eq_getElem hlt]
    simp only [Option.bind_eq_bind, Option.some_bind, if_pos hn]
    rw [ih _ (by omega) (by simp; omega)]
    have e2 : (buf.drop k).take (n + 1) = (buf.drop k).take n ++ [buf[k + n]] := by
      rw [List.take_succ, List.getElem?_drop, List.getElem?_eq_getElem hlt]
      rfl
    have e3 : (pB.set n buf[k + n]).drop n = buf[k + n] :: pB.drop (n + 1) := by
      rw [List.set_eq_take_append_cons_drop, if_pos hn]
      exact List.drop_left' (by simp; omega)
    rw [e2, e3]
    simp

/-- A store through `pBuffer` when the array has no element is outside the array. -/
theorem copy_string_empty (buf : Buffer_t) (n : Nat) (itr : Int) :
    copy_string buf (n + 1) itr [] = none := by
  rw [copy_string]
  cases deref buf itr <;> simp

theorem c_str_append_zero (data rest : List Byte) :
    c_str (data ++ 0 :: rest) = some (data.takeWhile (fun c => c ≠ 0)) := by
  induction data with
  | nil => simp [c_str]
  | cons c cs ih =>
    by_cases hc : c = 0
    · simp [c_str, hc]
    · simp [c_str, hc, ih]

theorem takeWhile_ne_zero (data : List Byte) (hz : (0 : Byte) ∉ data) :
    data.takeWhile (fun c => c ≠ 0) = data := by
  rw [List.takeWhile_eq_self_iff]
  intro x hx
  simp only [ne_eq, decide_eq_true_eq]
  rintro rfl
  exact hz hx

/-- The position of the string record in a buffer, and the facts about it that the
decoder uses. -/
theorem string_record_facts (tag : Byte) (b data : List Byte) (len4 : List Byte)
    (hl : len4.length = 4) :
    let B := b ++ tag :: (data ++ (len4 ++ [tag]))
    B.length = b.length + data.length + 6 ∧
    B[b.length + data.length + 5]? = some tag ∧
    B[b.length]? = some tag ∧
    (B.drop (b.length + data.length + 1)).take 4 = len4 ∧
    (B.drop (b.length + 1)).take data.length = data ∧
    B.take b.length = b := by
  intro B
  have hB : B = (b ++ [tag]) ++ (data ++ (len4 ++ [tag])) := by simp [B]
  refine ⟨by simp [B, hl]; omega, ?_, ?_, ?_, ?_, ?_⟩
  · rw [hB, List.getElem?_append_right (by simp; omega),
      List.getElem?_append_right (by simp; omega),
      List.getElem?_append_right (by simp; omega)]
    have : b.length + data.length + 5 - (b ++ [tag]).length - data.length - len4.length = 0 := by
      simp; omega
    rw [this]; rfl
  · rw [List.getElem?_append_right (by omega)]
    simp
  · rw [hB, ← List.append_assoc]
    have : b.length + data.length + 1 = ((b ++ [tag]) ++ data).length := by simp; omega
    rw [this, List.drop_left, ← hl, List.take_left]
  · have : b.length + 1 = (b ++ [tag]).length := by simp
    rw [hB, this, List.drop_left, List.take_left]
  · simp [B]

theorem decode_string_record (h : Host) (b data : List Byte) (hN : data.length + 1 < 2 ^ 32) :
    decode_string h (b ++ toByte STREAM_TYPE_STRING
        :: (data ++ (toBE 4 data.length ++ [toByte STREAM_TYPE_STRING])))
      = some (.returned (data.takeWhile (fun c => c ≠ 0)) b) := by
  obtain ⟨hlen, g1, g2, g3, g4, g5⟩ :=
    string_record_facts (toByte STREAM_TYPE_STRING) b data (toBE 4 data.length) (length_toBE _ _)
  generalize hB : b ++ toByte STREAM_TYPE_STRING
        :: (data ++ (toBE 4 data.length ++ [toByte STREAM_TYPE_STRING])) = B at *
  have ht : charToInt (toByte STREAM_TYPE_STRING) = (STREAM_TYPE_STRING : Int) :=
    charToInt_toByte _ (by decide)
  have i1 : ((B.length : Int) - 1) = ((b.length + data.length + 5 : Nat) : Int) := by
    rw [hlen]; push_cast; ring
  have i2 : ((b.length + data.length + 5 : Nat) : Int) - 1
      = (((b.length + data.length + 1) + 4 : Nat) : Int) - 1 := by push_cast; ring
  have c4 := copy_back_eq B 4 (b.length + data.length + 1) [] (by omega)
  rw [g3, List.append_nil] at c4
  have hlenval : ntohl h (ofMem h (toBE 4 data.length)) = data.length := by
    rw [ntohl_ofMem h _ (length_toBE _ _), ofBE_toBE_of_lt _ _ (by omega)]
  have i3 : ((b.length + 1 + data.length : Nat) : Int) - 1 - ((data.length : Nat) : Int)
      = ((b.length : Nat) : Int) := by push_cast; ring
  have i4 : ((b.length + data.length + 1 : Nat) : Int) - 1
      = (((b.length + 1) + data.length : Nat) : Int) - 1 := by push_cast; ring
  have hcap : (data.length + 1) % 2 ^ 32 = data.length + 1 := Nat.mod_eq_of_lt hN
  have cs := copy_string_eq B data.length (b.length + 1) (List.replicate (data.length + 1) 0)
    (by omega) (by simp)
  rw [g4] at cs
  have hdrop : (List.replicate (data.length + 1) (0 : Byte)).drop data.length = [0] := by
    simp
  rw [hdrop] at cs
  have i5 : ((b.length + 1 : Nat) : Int) - 1 = ((b.length : Nat) : Int) := by push_cast; ring
  unfold decode_string
  simp only [i1, deref_natCast, g1, Option.bind_eq_bind, Option.some_bind, ht, ne_eq,
    not_true_eq_false, if_false, i2, c4, hlenval, i3, g2, hcap, i4, cs, i5,
    erase_natCast B b.length (by omega), g5, c_str_append_zero, Option.pure_def]

/-- A length field of `0xFFFFFFFF`: `length + 1` wraps to 0, the array `pBuffer` has no
element, and the first store of the copy loop is outside it. -/
theorem decode_string_record_max (h : Host) (b data : List Byte)
    (hN : data.length = 2 ^ 32 - 1) :
    decode_string h (b ++ toByte STREAM_TYPE_STRING
        :: (data ++ (toBE 4 data.length ++ [toByte STREAM_TYPE_STRING])))
      = none := by
  obtain ⟨hlen, g1, g2, g3, g4, g5⟩ :=
    string_record_facts (toByte STREAM_TYPE_STRING) b data (toBE 4 data.length) (length_toBE _ _)
  generalize hB : b ++ toByte STREAM_TYPE_STRING
        :: (data ++ (toBE 4 data.length ++ [toByte STREAM_TYPE_STRING])) = B at *
  have ht : charToInt (toByte STREAM_TYPE_STRING) = (STREAM_TYPE_STRING : Int) :=
    charToInt_toByte _ (by decide)
  have i1 : ((B.length : Int) - 1) = ((b.length + data.length + 5 : Nat) : Int) := by
    rw [hlen]; push_cast; ring
  have i2 : ((b.length + data.length + 5 : Nat) : Int) - 1
      = (((b.length + data.length + 1) + 4 : Nat) : Int) - 1 := by push_cast; ring
  have c4 := copy_back_eq B 4 (b.length + data.length + 1) [] (by omega)
  rw [g3, List.append_nil] at c4
  have hlenval : ntohl h (ofMem h (toBE 4 data.length)) = data.length := by
    rw [ntohl_ofMem h _ (length_toBE _ _), ofBE_toBE_of_lt _ _ (by omega)]
  have i3 : ((b.length + data.length + 1 : Nat) : Int) - 1 - ((data.length : Nat) : Int)
      = ((b.length : Nat) : Int) := by push_cast; ring
  have hcap : (data.length + 1) % 2 ^ 32 = 0 := by omega
  obtain ⟨n, hn⟩ : ∃ n, data.length = n + 1 := ⟨2 ^ 32 - 2, by omega⟩
  unfold decode_string
  simp only [i1, deref_natCast, g1, Option.bind_eq_bind, Option.some_bind, ht, ne_eq,
    not_true_eq_false, if_false, i2, c4, hlenval, i3, g2, hcap, List.replicate_zero]
  rw [hn, copy_string_empty]
  rfl

/-! ## Encode then decode, one type at a time -/

theorem roundtrip_char (b : Buffer_t) (v : Int) (hlo : -2 ^ 7 ≤ v) (hhi : v < 2 ^ 7) :
    decode_char (encode_char b v) = some (.returned v b) := by
  rw [encode_char_eq, decode_char_eq,
    decode_payload_record _ 1 (by decide) _ _ (length_toBE _ _)]
  simp only [Option.map_some', Result.map, toBE_one, List.headD_cons]
  rw [charToInt_toByte_toUnsigned v hlo hhi]

theorem roundtrip_uchar (b : Buffer_t) (v : Nat) (hv : v < 2 ^ 8) :
    decode_uchar (encode_uchar b v) = some (.returned v b) := by
  rw [encode_uchar_eq, decode_uchar_eq,
    decode_payload_record _ 1 (by decide) _ _ (length_toBE _ _)]
  simp only [Option.map_some', Result.map, toBE_one, List.headD_cons]
  rw [toUnsigned_charToInt_toByte v hv]

theorem roundtrip_int16 (h : Host) (b : Buffer_t) (v : Int) (hlo : -2 ^ 15 ≤ v)
    (hhi : v < 2 ^ 15) : decode_int16 h (encode_int16 h b v) = some (.returned v b) := by
  rw [encode_int16_eq, decode_int16_eq,
    decode_payload_record _ 2 (by decide) _ _ (length_toBE _ _)]
  simp only [Option.map_some', Result.map]
  rw [ntohs_conv h _ (length_toBE _ _), ofBE_toBE_of_lt _ _ (toUnsigned_lt 16 v),
    toSigned_toUnsigned 16 v (by decide) hlo hhi]

theorem roundtrip_uint16 (h : Host) (b : Buffer_t) (v : Nat) (hv : v < 2 ^ 16) :
    decode_uint16 h (encode_uint16 h b v) = some (.returned v b) := by
  rw [encode_uint16_eq, decode_uint16_eq,
    decode_payload_record _ 2 (by decide) _ _ (length_toBE _ _)]
  simp only [Option.map_some', Result.map]
  rw [ntohs_ofMem h _ (length_toBE _ _), ofBE_toBE_of_lt _ _ hv]

theorem roundtrip_int32 (h : Host) (b : Buffer_t) (v : Int) (hlo : -2 ^ 31 ≤ v)
    (hhi : v < 2 ^ 31) : decode_int32 h (encode_int32 h b v) = some (.returned v b) := by
  rw [encode_int32_eq, decode_int32_eq,
    decode_payload_record _ 4 (by decide) _ _ (length_toBE _ _)]
  simp only [Option.map_some', Result.map]
  rw [ntohl_conv h _ (length_toBE _ _), ofBE_toBE_of_lt _ _ (toUnsigned_lt 32 v),
    toSigned_toUnsigned 32 v (by decide) hlo hhi]

theorem roundtrip_uint32 (h : Host) (b : Buffer_t) (v : Nat) (hv : v < 2 ^ 32) :
    decode_uint32 h (encode_uint32 h b v) = some (.returned v b) := by
  rw [encode_uint32_eq, decode_uint32_eq,
    decode_payload_record _ 4 (by decide) _ _ (length_toBE _ _)]
  simp only [Option.map_some', Result.map]
  rw [ntohl_ofMem h _ (length_toBE _ _), ofBE_toBE_of_lt _ _ hv]

theorem roundtrip_int64 (h : Host) (b : Buffer_t) (v : Int) (hlo : -2 ^ 63 ≤ v)
    (hhi : v < 2 ^ 63) : decode_int64 h (encode_int64 h b v) = some (.returned v b) := by
  rw [encode_int64_eq, decode_int64_eq,
    decode_payload_record _ 8 (by decide) _ _ (length_toBE _ _)]
  simp only [Option.map_some', Result.map]
  rw [ntohll_conv h _ (length_toBE _ _), ofBE_toBE_of_lt _ _ (toUnsigned_lt 64 v),
    toSigned_toUnsigned 64 v (by decide) hlo hhi]

theorem roundtrip_uint64 (h : Host) (b : Buffer_t) (v : Nat) (hv : v < 2 ^ 64) :
    decode_uint64 h (encode_uint64 h b v) = some (.returned v b) := by
  rw [encode_uint64_eq, decode_uint64_eq,
    decode_payload_record _ 8 (by decide) _ _ (length_toBE _ _)]
  simp only [Option.map_some', Result.map]
  rw [ntohll_ofMem h _ (length_toBE _ _), ofBE_toBE_of_lt _ _ hv]

/-- What the string decoder returns after the string encoder, for a string whose length
fits the length field and leaves room for the terminating zero of `pBuffer`. -/
theorem decode_encode_string (h : Host) (b : Buffer_t) (s : List Byte)
    (hN : s.length + 1 < 2 ^ 32) :
    decode_string h (encode_string h b s)
      = some (.returned (s.takeWhile (fun c => c ≠ 0)) b) := by
  have hm : s.length % 2 ^ 32 = s.length := Nat.mod_eq_of_lt (by omega)
  rw [encode_string_eq, hm, List.take_length, decode_string_record h b s hN]

theorem roundtrip_string (h : Host) (b : Buffer_t) (s : List Byte) (hz : (0 : Byte) ∉ s)
    (hN : s.length + 1 < 2 ^ 32) :
    decode_string h (encode_string h b s) = some (.returned s b) := by
  rw [decode_encode_string h b s hN, takeWhile_ne_zero s hz]

/-- Encode then decode restores value and buffer, for every scalar type. -/
theorem roundtrip_scalar (h : Host) (b : Buffer_t) (v : Value) (hs : v.ty.scalar)
    (hv : v.representable) : decode h v.ty (encode h b v) = some (.returned v b) := by
  cases v with
  | char v => simp [decode, encode, Value.ty, roundtrip_char b v hv.1 hv.2, Result.map]
  | uchar v => simp [decode, encode, Value.ty, roundtrip_uchar b v hv, Result.map]
  | int16 v => simp [decode, encode, Value.ty, roundtrip_int16 h b v hv.1 hv.2, Result.map]
  | uint16 v => simp [decode, encode, Value.ty, roundtrip_uint16 h b v hv, Result.map]
  | int32 v => simp [decode, encode, Value.ty, roundtrip_int32 h b v hv.1 hv.2, Result.map]
  | uint32 v => simp [decode, encode, Value.ty, roundtrip_uint32 h b v hv, Result.map]
  | int64 v => simp [decode, encode, Value.ty, roundtrip_int64 h b v hv.1 hv.2, Result.map]
  | uint64 v => simp [decode, encode, Value.ty, roundtrip_uint64 h b v hv, Result.map]
  | string s => exact absurd rfl hs

/-! ## The embedding against the words of the specification -/

theorem getElem?_toLE (w x i : Nat) :
    (toLE w x)[i]? = if i < w then some (toByte (x / 256 ^ i)) else none := by
  induction w generalizing x i with
  | zero => simp [toLE]
  | succ w ih =>
    cases i with
    | zero => simp [toLE]
    | succ i =>
      simp only [toLE, List.getElem?_cons_succ, ih, Nat.add_lt_add_iff_right,
        Nat.div_div_eq_div_mul, pow_succ]
      rw [Nat.mul_comm 256 (256 ^ i)]

theorem toBE_eq_bigEndian (w x : Nat) : toBE w x = bigEndian w x := by
  apply List.ext_getElem?
  intro i
  unfold toBE bigEndian
  by_cases hi : i < w
  · rw [List.getElem?_reverse (by rw [length_toLE]; exact hi), length_toLE, getElem?_toLE,
      if_pos (by omega), List.getElem?_map, List.getElem?_range hi]
    rfl
  · rw [List.getElem?_eq_none (by simp [length_toLE]; omega),
      List.getElem?_eq_none (by simp; omega)]

theorem toUnsigned_eq_twosComplement (bits : Nat) (v : Int)
    (hlo : -(2 : Int) ^ bits ≤ v) (hhi : v < (2 : Int) ^ bits) :
    toUnsigned bits v = twosComplement bits v := by
  unfold toUnsigned twosComplement
  split
  · rename_i hv
    rw [Int.emod_eq_of_lt hv hhi]
  · rename_i hv
    have e : v % 2 ^ bits = v + 2 ^ bits := by
      rw [← Int.add_mul_emod_self_left v (2 ^ bits) 1, mul_one]
      exact Int.emod_eq_of_lt (by omega) (by omega)
    rw [e]

/-! ## A wrong marker at the tail, and what a throw leaves behind -/

theorem decode_payload_last_ne (tag w : Nat) (X : Buffer_t) (c : Byte)
    (hc : charToInt c ≠ (tag : Int)) :
    decode_payload tag w (X ++ [c]) = some (.thrown .STREAM_ERR_INVALID_TYPE (X ++ [c])) := by
  unfold decode_payload
  have i1 : (((X ++ [c]).length : Int) - 1) = ((X.length : Nat) : Int) := by simp
  simp only [i1, deref_natCast, List.getElem?_concat_length, Option.bind_eq_bind,
    Option.some_bind, if_pos hc, Option.pure_def]

theorem decode_string_last_ne (h : Host) (X : Buffer_t) (c : Byte)
    (hc : charToInt c ≠ (STREAM_TYPE_STRING : Int)) :
    decode_string h (X ++ [c]) = some (.thrown .STREAM_ERR_INVALID_TYPE (X ++ [c])) := by
  unfold decode_string
  have i1 : (((X ++ [c]).length : Int) - 1) = ((X.length : Nat) : Int) := by simp
  simp only [i1, deref_natCast, List.getElem?_concat_length, Option.bind_eq_bind,
    Option.some_bind, if_pos hc, Option.pure_def]

theorem decode_payload_thrown (tag w : Nat) (buf after : Buffer_t) (code : StreamErr)
    (ht : decode_payload tag w buf = some (.thrown code after)) : after = buf := by
  unfold decode_payload at ht
  simp only [Option.bind_eq_bind, Option.pure_def] at ht
  cases h1 : deref buf ((buf.length : Int) - 1) with
  | none => simp [h1] at ht
  | some t =>
    simp only [h1, Option.some_bind] at ht
    split at ht
    · simp only [Option.some.injEq, Result.thrown.injEq] at ht
      exact ht.2.symm
    · cases h2 : deref buf ((buf.length : Int) - 1 - ((w : Int) + 1)) with
      | none => simp [h2] at ht
      | some t2 =>
        simp only [h2, Option.some_bind] at ht
        split at ht
        · simp only [Option.some.injEq, Result.thrown.injEq] at ht
          exact ht.2.symm
        · cases h3 : copy_back buf w ((buf.length : Int) - 1 - 1) [] with
          | none => simp [h3] at ht
          | some r =>
            simp only [h3, Option.some_bind] at ht
            cases h4 : erase buf r.2 with
            | none => simp [h4] at ht
            | some b2 => simp [h4] at ht

theorem decode_string_thrown (h : Host) (buf after : Buffer_t) (code : StreamErr)
    (ht : decode_string h buf = some (.thrown code after)) : after = buf := by
  unfold decode_string at ht
  simp only [Option.bind_eq_bind, Option.pure_def] at ht
  cases h1 : deref buf ((buf.length : Int) - 1) with
  | none => simp [h1] at ht
  | some t =>
    simp only [h1, Option.some_bind] at ht
    split at ht
    · simp only [Option.some.injEq, Result.thrown.injEq] at ht
      exact ht.2.symm
    · cases h3 : copy_back buf 4 ((buf.length : Int) - 1 - 1) [] with
      | none => simp [h3] at ht
      | some r =>
        simp only [h3, Option.some_bind] at ht
        cases h2 : deref buf (r.2 - ((ntohl h (ofMem h r.1) : Nat) : Int)) with
        | none => simp [h2] at ht
        | some t2 =>
          simp only [h2, Option.some_bind] at ht
          split at ht
          · simp only [Option.some.injEq, Result.thrown.injEq] at ht
            exact ht.2.symm
          · obtain ⟨q, -, ht⟩ := Option.bind_eq_some.mp ht
            obtain ⟨b2, -, ht⟩ := Option.bind_eq_some.mp ht
            obtain ⟨val, -, ht⟩ := Option.bind_eq_some.mp ht
            simp at ht

theorem map_thrown {α β : Type} (f : α → β) (r : Option (Result α)) (code : StreamErr)
    (after : Buffer_t) (ht : r.map (Result.map f) = some (.thrown code after)) :
    r = some (.thrown code after) := by
  cases r with
  | none => simp at ht
  | some x =>
    cases x with
    | returned val buf => simp [Result.map] at ht
    | thrown c b2 =>
      simp only [Option.map_some', Result.map, Option.some.injEq, Result.thrown.injEq] at ht
      cases c
      cases code
      rw [ht.2]

/-- A throw of any decode operation leaves the buffer as it was. -/
theorem decode_thrown (h : Host) (t : Ty) (buf after : Buffer_t) (code : StreamErr)
    (ht : decode h t buf = some (.thrown code after)) : after = buf := by
  cases t <;> simp only [decode] at ht <;> have ht := map_thrown _ _ _ _ ht
  · rw [decode_char_eq] at ht; exact decode_payload_thrown _ _ _ _ _ (map_thrown _ _ _ _ ht)
  · rw [decode_uchar_eq] at ht; exact decode_payload_thrown _ _ _ _ _ (map_thrown _ _ _ _ ht)
  · rw [decode_int16_eq] at ht; exact decode_payload_thrown _ _ _ _ _ (map_thrown _ _ _ _ ht)
  · rw [decode_uint16_eq] at ht; exact decode_payload_thrown _ _ _ _ _ (map_thrown _ _ _ _ ht)
  · rw [decode_int32_eq] at ht; exact decode_payload_thrown _ _ _ _ _ (map_thrown _ _ _ _ ht)
  · rw [decode_uint32_eq] at ht; exact decode_payload_thrown _ _ _ _ _ (map_thrown _ _ _ _ ht)
  · rw [decode_int64_eq] at ht; exact decode_payload_thrown _ _ _ _ _ (map_thrown _ _ _ _ ht)
  · rw [decode_uint64_eq] at ht; exact decode_payload_thrown _ _ _ _ _ (map_thrown _ _ _ _ ht)
  · exact decode_string_thrown _ _ _ _ ht

/-- Every decode operation throws when the last byte of the buffer is not its marker. -/
theorem decode_last_ne (h : Host) (U : Ty) (X : Buffer_t) (c : Byte)
    (hc : charToInt c ≠ (U.tag : Int)) :
    decode h U (X ++ [c]) = some (.thrown .STREAM_ERR_INVALID_TYPE (X ++ [c])) := by
  cases U <;> simp only [decode, Ty.tag] at hc ⊢
  · rw [decode_char_eq, decode_payload_last_ne _ _ _ _ hc]; rfl
  · rw [decode_uchar_eq, decode_payload_last_ne _ _ _ _ hc]; rfl
  · rw [decode_int16_eq, decode_payload_last_ne _ _ _ _ hc]; rfl
  · rw [decode_uint16_eq, decode_payload_last_ne _ _ _ _ hc]; rfl
  · rw [decode_int32_eq, decode_payload_last_ne _ _ _ _ hc]; rfl
  · rw [decode_uint32_eq, decode_payload_last_ne _ _ _ _ hc]; rfl
  · rw [decode_int64_eq, decode_payload_last_ne _ _ _ _ hc]; rfl
  · rw [decode_uint64_eq, decode_payload_last_ne _ _ _ _ hc]; rfl
  · rw [decode_string_last_ne _ _ _ hc]; rfl

/-- The last byte every encode operation appends is the marker of the type. -/
theorem encode_last (h : Host) (b : Buffer_t) (v : Value) :
    ∃ X, encode h b v = X ++ [toByte v.ty.tag] := by
  cases v <;> simp only [encode, Value.ty, Ty.tag]
  · exact ⟨_, by rw [encode_char_eq, ← List.cons_append, ← List.append_assoc]⟩
  · exact ⟨_, by rw [encode_uchar_eq, ← List.cons_append, ← List.append_assoc]⟩
  · exact ⟨_, by rw [encode_int16_eq, ← List.cons_append, ← List.append_assoc]⟩
  · exact ⟨_, by rw [encode_uint16_eq, ← List.cons_append, ← List.append_assoc]⟩
  · exact ⟨_, by rw [encode_int32_eq, ← List.cons_append, ← List.append_assoc]⟩
  · exact ⟨_, by rw [encode_uint32_eq, ← List.cons_append, ← List.append_assoc]⟩
  · exact ⟨_, by rw [encode_int64_eq, ← List.cons_append, ← List.append_assoc]⟩
  · exact ⟨_, by rw [encode_uint64_eq, ← List.cons_append, ← List.append_assoc]⟩
  · exact ⟨_, by rw [encode_string_eq, ← List.append_assoc (List.take _ _), ← List.cons_append,
      ← List.append_assoc]⟩

/-- Two types with the same marker are the same type; a marker byte promotes to the
marker. -/
theorem charToInt_tag_ne (T U : Ty) (hne : T ≠ U) : charToInt (toByte T.tag) ≠ (U.tag : Int) := by
  cases T <;> cases U <;> first | exact absurd rfl hne | decide

/-- Encode then decode restores value and buffer, for every supported value that the
string decoder can return. -/
theorem roundtrip_value (h : Host) (b : Buffer_t) (v : Value) (hv : v.representable)
    (hz : v.zeroFree) (hl : v.shorterThan (2 ^ 32 - 1)) :
    decode h v.ty (encode h b v) = some (.returned v b) := by
  by_cases hs : v.ty.scalar
  · exact roundtrip_scalar h b v hs hv
  · cases v with
    | string s =>
      have hN : s.length + 1 < 2 ^ 32 := by
        have : s.length < 2 ^ 32 - 1 := hl
        omega
      simp [decode, encode, Value.ty, roundtrip_string h b s hz hN, Result.map]
    | _ => exact absurd (by simp [Ty.scalar, Value.ty]) hs

theorem decodeAll_cons_returned (h : Host) (t : Ty) (ts : List Ty) (buf buf2 : Buffer_t)
    (v : Value) (hd : decode h t buf = some (.returned v buf2)) :
    decodeAll h (t :: ts) buf = (decodeAll h ts buf2).map fun r => (v :: r.1, r.2) := by
  simp only [decodeAll, hd]

theorem encodeAll_concat (h : Host) (b : Buffer_t) (vs : List Value) (v : Value) :
    encodeAll h b (vs ++ [v]) = encode h (encodeAll h b vs) v := by
  simp [encodeAll, List.foldl_append]

/-! ## The claims -/

/-- What the string decoder does after the string encoder for a string of `2 ^ 32 - 1`
bytes: its behaviour is undefined. -/
theorem decode_encode_string_max (h : Host) (b : Buffer_t) (s : List Byte)
    (hN : s.length = 2 ^ 32 - 1) : decode_string h (encode_string h b s) = none := by
  have hm : s.length % 2 ^ 32 = s.length := Nat.mod_eq_of_lt (by omega)
  rw [encode_string_eq, hm, List.take_length, decode_string_record_max h b s hN]

/-- What the string encoder and decoder do with a string of `2 ^ 32` bytes: the length
field is 0, no byte of the string is written, and the empty string is read back. -/
theorem decode_encode_string_wrapped (h : Host) (b : Buffer_t) (s : List Byte)
    (hN : s.length = 2 ^ 32) : decode_string h (encode_string h b s) = some (.returned [] b) := by
  have hm : s.length % 2 ^ 32 = 0 := by omega
  have hr := decode_string_record h b [] (by decide)
  rw [encode_string_eq, hm, List.take_zero]
  exact hr

theorem decodeAll_string_wrapped (h : Host) (s : List Byte) (hN : s.length = 2 ^ 32) :
    decodeAll h ([Value.string s].reverse.map Value.ty) (encodeAll h [] [Value.string s])
      = some ([Value.string []], []) := by
  simp [encodeAll, encode, decodeAll, decode, Value.ty, decode_encode_string_wrapped h [] s hN,
    Result.map]

/-- C1: for each of the 8-, 16- and 32-bit scalar types (char, u_char, int16, uint16,
int32, uint32), every representable value `v` of the type and every prior buffer content
`b`, encoding `v` onto `b` and then decoding the same type returns, gives back exactly
`v`, and leaves the buffer equal to `b`; this holds on a little-endian and on a
big-endian host. -/
theorem roundtrip_scalar_8_16_32 (h : Host) (b : Buffer_t) (v : Value)
    (hT : v.ty ∈ [Ty.char, Ty.uchar, Ty.int16, Ty.uint16, Ty.int32, Ty.uint32])
    (hv : v.representable) :
    decode h v.ty (encode h b v) = some (.returned v b) := by
  refine roundtrip_scalar h b v ?_ hv
  intro e
  rw [e] at hT
  simp at hT

theorem roundtrip_scalar_8_16_32_witness :
    (Value.int16 (-32768)).ty ∈ [Ty.char, Ty.uchar, Ty.int16, Ty.uint16, Ty.int32, Ty.uint32]
    ∧ (Value.int16 (-32768)).representable
    ∧ decode .littleEndian (Value.int16 (-32768)).ty
        (encode .littleEndian [1, 2, 3] (Value.int16 (-32768)))
      = some (.returned (Value.int16 (-32768)) [1, 2, 3]) :=
  ⟨by decide, by decide,
    roundtrip_scalar_8_16_32 .littleEndian [1, 2, 3] (Value.int16 (-32768)) (by decide)
      (by decide)⟩

/-- C2: for the 64-bit types int64 and uint64, every representable value `v` (negative
int64 values included) and every prior buffer content `b`, encoding `v` onto `b` (through
`htonll`) and then decoding the same type (through `ntohll`) returns, gives back exactly
`v`, and leaves the buffer equal to `b`, on either host. -/
theorem roundtrip_scalar_64 (h : Host) (b : Buffer_t) (v : Value)
    (hT : v.ty ∈ [Ty.int64, Ty.uint64]) (hv : v.representable) :
    decode h v.ty (encode h b v) = some (.returned v b) := by
  refine roundtrip_scalar h b v ?_ hv
  intro e
  rw [e] at hT
  simp at hT

theorem roundtrip_scalar_64_witness :
    (Value.int64 (-9223372036854775808)).ty ∈ [Ty.int64, Ty.uint64]
    ∧ (Value.int64 (-9223372036854775808)).representable
    ∧ decode .littleEndian (Value.int64 (-9223372036854775808)).ty
        (encode .littleEndian [7] (Value.int64 (-9223372036854775808)))
      = some (.returned (Value.int64 (-9223372036854775808)) [7]) :=
  ⟨by decide, by decide,
    roundtrip_scalar_64 .littleEndian [7] (Value.int64 (-9223372036854775808)) (by decide)
      (by decide)⟩

/-- C3: the claim asks that a string with an embedded zero byte decodes to itself. The
code does not do so: the string of the three bytes 0x41, 0x00, 0x42, encoded onto an empty
stream, decodes on either host to the one-byte string 0x41 (the whole record is removed). -/
theorem string_embedded_zero_lost (h : Host) :
    decode_string h (encode_string h [] [65, 0, 66]) = some (.returned [65] [])
    ∧ ([65] : List Byte) ≠ [65, 0, 66] := by
  cases h <;> decide

/-- C4: the claim asks that every string without zero byte and of length below `2 ^ 32`
decodes to itself. At length `2 ^ 32 - 1` the code does not do so: for the string of
4294967295 bytes 0x61, which has no zero byte and whose length is below `2 ^ 32`, the
decoder computes `length + 1` as 0, allocates an array without element and stores outside
it, so that its behaviour is undefined, for every host and every prior buffer. -/
theorem string_of_4294967295_bytes_undefined (h : Host) (b : Buffer_t) :
    (0 : Byte) ∉ List.replicate 4294967295 (97 : Byte)
    ∧ (List.replicate 4294967295 (97 : Byte)).length < 2 ^ 32
    ∧ decode_string h (encode_string h b (List.replicate 4294967295 97)) = none := by
  refine ⟨?_, ?_, ?_⟩
  · intro hm
    have := List.eq_of_mem_replicate hm
    exact absurd this (by decide)
  · rw [List.length_replicate]
    decide
  · exact decode_encode_string_max h b _ (List.length_replicate _ _)

/-- C5, as amended: for every finite list of representable values `v1..vn` of supported
types, the strings among them free of zero bytes and shorter than `2 ^ 32 - 1` bytes, and
every prior buffer content `b`, encoding `v1`, then `v2`, ..., then `vn` and afterwards
decoding `n` times with the types of `vn`, ..., `v1` in that order returns every time,
yields `vn` first and `v1` last, and leaves the buffer equal to `b`. -/
theorem lifo_order (h : Host) (b : Buffer_t) (vs : List Value)
    (hv : ∀ v ∈ vs, v.representable ∧ v.zeroFree ∧ v.shorterThan (2 ^ 32 - 1)) :
    decodeAll h (vs.reverse.map Value.ty) (encodeAll h b vs) = some (vs.reverse, b) := by
  induction vs using List.reverseRecOn with
  | nil => rfl
  | append_singleton vs v ih =>
    have hv1 := hv v (by simp)
    have hvs : ∀ u ∈ vs, u.representable ∧ u.zeroFree ∧ u.shorterThan (2 ^ 32 - 1) :=
      fun u hu => hv u (by simp [hu])
    rw [encodeAll_concat, List.reverse_append, List.reverse_singleton, List.singleton_append,
      List.map_cons,
      decodeAll_cons_returned h _ _ _ _ _ (roundtrip_value h _ v hv1.1 hv1.2.1 hv1.2.2),
      ih hvs]
    rfl

theorem lifo_order_witness :
    (∀ v ∈ [Value.uint32 0xAAAAAAAA, Value.uint32 0x55555555, Value.string [104, 105]],
        v.representable ∧ v.zeroFree ∧ v.shorterThan (2 ^ 32 - 1))
    ∧ decodeAll .littleEndian
        ([Value.uint32 0xAAAAAAAA, Value.uint32 0x55555555, Value.string [104, 105]].reverse.map
          Value.ty)
        (encodeAll .littleEndian [9]
          [Value.uint32 0xAAAAAAAA, Value.uint32 0x55555555, Value.string [104, 105]])
      = some ([Value.uint32 0xAAAAAAAA, Value.uint32 0x55555555,
          Value.string [104, 105]].reverse, [9]) :=
  ⟨by decide, lifo_order .littleEndian [9] _ (by decide)⟩

/-- C5 as stated fails: the one-element list made of the string of 4294967296 bytes 0x61
is a list of values of supported types whose string is free of zero bytes, yet encoding it
onto an empty stream and decoding a string yields the empty string, not that string. -/
theorem lifo_order_fails_for_string_of_4294967296_bytes :
    (Value.string (List.replicate 4294967296 97)).representable
    ∧ (Value.string (List.replicate 4294967296 97)).zeroFree
    ∧ decodeAll .littleEndian ([Value.string (List.replicate 4294967296 97)].reverse.map Value.ty)
        (encodeAll .littleEndian [] [Value.string (List.replicate 4294967296 97)])
      = some ([Value.string []], [])
    ∧ decodeAll .littleEndian ([Value.string (List.replicate 4294967296 97)].reverse.map Value.ty)
        (encodeAll .littleEndian [] [Value.string (List.replicate 4294967296 97)])
      ≠ some ([Value.string (List.replicate 4294967296 97)].reverse, []) := by
  have hd := decodeAll_string_wrapped .littleEndian (List.replicate 4294967296 (97 : Byte))
    (List.length_replicate _ _)
  refine ⟨trivial, ?_, hd, ?_⟩
  · intro hm
    have := List.eq_of_mem_replicate hm
    exact absurd this (by decide)
  · rw [hd]
    intro he
    have h1 : Value.string [] = Value.string (List.replicate 4294967296 (97 : Byte)) := by
      have := (Prod.mk.inj (Option.some.inj he)).1
      exact List.head_eq_of_cons_eq this
    have h2 := congrArg List.length (Value.string.inj h1)
    rw [List.length_replicate] at h2
    exact absurd h2 (by decide)

/-- C6: for every pair of distinct supported types `T` and `U` (the eight scalar types
and string), every value `v` of `T` and every prior buffer content `b`, decoding type `U`
right after encoding `v` as `T` throws the invalid-type `StreamException` and leaves the
buffer exactly as it was after the encode. -/
theorem type_mismatch (h : Host) (b : Buffer_t) (v : Value) (U : Ty) (hne : v.ty ≠ U) :
    decode h U (encode h b v)
      = some (.thrown .STREAM_ERR_INVALID_TYPE (encode h b v)) := by
  obtain ⟨X, hX⟩ := encode_last h b v
  rw [hX]
  exact decode_last_ne h U X _ (charToInt_tag_ne v.ty U hne)

theorem type_mismatch_witness :
    (Value.int64 0x5555555555555555).ty ≠ Ty.uint64
    ∧ decode .littleEndian Ty.uint64 (encode .littleEndian [] (Value.int64 0x5555555555555555))
      = some (.thrown .STREAM_ERR_INVALID_TYPE
          (encode .littleEndian [] (Value.int64 0x5555555555555555))) :=
  ⟨by decide, type_mismatch .littleEndian [] (Value.int64 0x5555555555555555) Ty.uint64
    (by decide)⟩

/-- C7: for every buffer content and every decode operation (each scalar type and
string), if the decode throws then the buffer at the throw is the buffer before the
call. -/
theorem decode_atomic (h : Host) (t : Ty) (buffer_ after : Buffer_t) (code : StreamErr)
    (hthrow : decode h t buffer_ = some (.thrown code after)) : after = buffer_ :=
  decode_thrown h t buffer_ after code hthrow

theorem decode_atomic_witness :
    decode .littleEndian Ty.int32 [73, 0, 5, 73]
      = some (.thrown .STREAM_ERR_INVALID_TYPE [73, 0, 5, 73])
    ∧ ([73, 0, 5, 73] : Buffer_t) = [73, 0, 5, 73] :=
  ⟨by decide, decode_atomic .littleEndian Ty.int32 [73, 0, 5, 73] [73, 0, 5, 73]
    .STREAM_ERR_INVALID_TYPE (by decide)⟩

/-- The payload of each scalar encode operation in the words of the specification. -/
theorem encode_scalar_eq (h : Host) (b : Buffer_t) (v : Value) (hs : v.ty.scalar)
    (hv : v.representable) :
    encode h b v
      = b ++ [toByte v.ty.tag] ++ bigEndian v.ty.width v.pattern ++ [toByte v.ty.tag] := by
  cases v with
  | char v =>
    have e := toUnsigned_eq_twosComplement 8 v (by have := hv.1; omega) (by have := hv.2; omega)
    simp [encode, Value.ty, Ty.tag, Ty.width, Value.pattern, encode_char_eq,
      toBE_eq_bigEndian, e]
  | uchar v =>
    simp [encode, Value.ty, Ty.tag, Ty.width, Value.pattern, encode_uchar_eq, toBE_eq_bigEndian]
  | int16 v =>
    have e := toUnsigned_eq_twosComplement 16 v (by have := hv.1; omega) (by have := hv.2; omega)
    simp [encode, Value.ty, Ty.tag, Ty.width, Value.pattern, encode_int16_eq,
      toBE_eq_bigEndian, e]
  | uint16 v =>
    simp [encode, Value.ty, Ty.tag, Ty.width, Value.pattern, encode_uint16_eq, toBE_eq_bigEndian]
  | int32 v =>
    have e := toUnsigned_eq_twosComplement 32 v (by have := hv.1; omega) (by have := hv.2; omega)
    simp [encode, Value.ty, Ty.tag, Ty.width, Value.pattern, encode_int32_eq,
      toBE_eq_bigEndian, e]
  | uint32 v =>
    simp [encode, Value.ty, Ty.tag, Ty.width, Value.pattern, encode_uint32_eq, toBE_eq_bigEndian]
  | int64 v =>
    have e := toUnsigned_eq_twosComplement 64 v (by have := hv.1; omega) (by have := hv.2; omega)
    simp [encode, Value.ty, Ty.tag, Ty.width, Value.pattern, encode_int64_eq,
      toBE_eq_bigEndian, e]
  | uint64 v =>
    simp [encode, Value.ty, Ty.tag, Ty.width, Value.pattern, encode_uint64_eq, toBE_eq_bigEndian]
  | string s => exact absurd rfl hs

theorem length_bigEndian (w x : Nat) : (bigEndian w x).length = w := by
  simp [bigEndian]

/-- C8: for every scalar type `T` of width `w` (1, 2, 4 or 8 bytes), every representable
value `v` of `T` and every prior buffer content `b`, the buffer after encoding `v` is
exactly `b` followed by the one-byte tag of `T`, then the `w` bytes of `v` most significant
byte first (twos complement for the signed types), then the same tag byte again; the size
grows by exactly `w + 2`. This holds on a little-endian and on a big-endian host. -/
theorem scalar_wire_format (h : Host) (b : Buffer_t) (v : Value) (hs : v.ty.scalar)
    (hv : v.representable) :
    encode h b v
      = b ++ [toByte v.ty.tag] ++ bigEndian v.ty.width v.pattern ++ [toByte v.ty.tag]
    ∧ (encode h b v).length = b.length + (v.ty.width + 2) := by
  have e := encode_scalar_eq h b v hs hv
  refine ⟨e, ?_⟩
  rw [e]
  simp only [List.length_append, List.length_singleton, length_bigEndian]
  omega

theorem scalar_wire_format_witness :
    (Value.int16 (-2)).ty.scalar ∧ (Value.int16 (-2)).representable
    ∧ (encode .littleEndian [1] (Value.int16 (-2))
        = [1] ++ [toByte (Value.int16 (-2)).ty.tag]
            ++ bigEndian (Value.int16 (-2)).ty.width (Value.int16 (-2)).pattern
            ++ [toByte (Value.int16 (-2)).ty.tag]
      ∧ (encode .littleEndian [1] (Value.int16 (-2))).length
        = ([1] : Buffer_t).length + ((Value.int16 (-2)).ty.width + 2)) :=
  ⟨by decide, by decide,
    scalar_wire_format .littleEndian [1] (Value.int16 (-2)) (by decide) (by decide)⟩

/-- C9: for every string `s` of length `N < 2 ^ 32` (any byte values, zero bytes
included) and every prior buffer content `b`, the buffer after encoding `s` is exactly `b`
followed by the byte `'s'`, the `N` bytes of `s` verbatim, the 4-byte big-endian encoding
of `N`, and the byte `'s'`; the size grows by exactly `N + 6`. -/
theorem string_wire_format (h : Host) (b : Buffer_t) (s : List Byte)
    (hN : s.length < 2 ^ 32) :
    encode_string h b s
      = b ++ [toByte STRING] ++ s ++ bigEndian 4 s.length ++ [toByte STRING]
    ∧ (encode_string h b s).length = b.length + (s.length + 6) := by
  have hm : s.length % 2 ^ 32 = s.length := Nat.mod_eq_of_lt hN
  have e : encode_string h b s
      = b ++ [toByte STRING] ++ s ++ bigEndian 4 s.length ++ [toByte STRING] := by
    rw [encode_string_eq, hm, List.take_length, toBE_eq_bigEndian]
    simp [STREAM_TYPE_STRING]
  refine ⟨e, ?_⟩
  rw [e]
  simp only [List.length_append, List.length_singleton, length_bigEndian]
  omega

theorem string_wire_format_witness :
    ([65, 0, 66] : List Byte).length < 2 ^ 32
    ∧ (encode_string .bigEndian [5] [65, 0, 66]
        = [5] ++ [toByte STRING] ++ [65, 0, 66] ++ bigEndian 4 ([65, 0, 66] : List Byte).length
            ++ [toByte STRING]
      ∧ (encode_string .bigEndian [5] [65, 0, 66]).length
        = ([5] : Buffer_t).length + (([65, 0, 66] : List Byte).length + 6)) :=
  ⟨by decide, string_wire_format .bigEndian [5] [65, 0, 66] (by decide)⟩

/-- C10, as amended: the string `"This is a string"` has 16 bytes; encoding it onto an
empty stream produces, on either host, the 22 bytes made of the byte `'s'` (0x73), the 16
raw string bytes, the length bytes 0x00 0x00 0x00 0x10 and the byte `'s'`, which is the
array `raw` of `test_rawstring`; decoding it returns `"This is a string"` exactly and
leaves the stream empty. -/
theorem scenario_2 (h : Host) :
    STRING_DATA.length = 16
    ∧ encode_string h [] STRING_DATA
      = [0x73, 0x54, 0x68, 0x69, 0x73, 0x20, 0x69, 0x73, 0x20, 0x61, 0x20, 0x73, 0x74, 0x72,
          0x69, 0x6e, 0x67, 0x00, 0x00, 0x00, 0x10, 0x73]
    ∧ encode_string h [] STRING_DATA
      = toByte STRING :: (STRING_DATA ++ [0x00, 0x00, 0x00, 0x10, toByte STRING])
    ∧ decode_string h (encode_string h [] STRING_DATA) = some (.returned STRING_DATA []) := by
  cases h <;> decide

/-- C10 as stated fails: on neither host is the buffer after encoding `"This is a string"`
onto an empty stream of the form `'s'`, 17 raw bytes, 0x00 0x00 0x00 0x11, `'s'`; it has
22 bytes, not 23, and its length field is 0x00 0x00 0x00 0x10. -/
theorem scenario_2_as_stated_fails :
    (¬ ∃ raw : List Byte, raw.length = 17
        ∧ encode_string .littleEndian [] STRING_DATA
          = toByte STRING :: (raw ++ [0x00, 0x00, 0x00, 0x11, toByte STRING]))
    ∧ (¬ ∃ raw : List Byte, raw.length = 17
        ∧ encode_string .bigEndian [] STRING_DATA
          = toByte STRING :: (raw ++ [0x00, 0x00, 0x00, 0x11, toByte STRING]))
    ∧ (encode_string .littleEndian [] STRING_DATA).length = 22
    ∧ (encode_string .littleEndian [] STRING_DATA).drop 17 = [0x00, 0x00, 0x00, 0x10, 0x73] := by
  have l1 : (encode_string .littleEndian [] STRING_DATA).length = 22 := by decide
  have l2 : (encode_string .bigEndian [] STRING_DATA).length = 22 := by decide
  refine ⟨?_, ?_, l1, by decide⟩
  · rintro ⟨raw, hl, he⟩
    have := congrArg List.length he
    rw [l1] at this
    simp [hl] at this
  · rintro ⟨raw, hl, he⟩
    have := congrArg List.length he
    rw [l2] at this
    simp [hl] at this

/-! ## The decode operations on an arbitrary buffer -/

theorem deref_empty (itr : Int) : deref ([] : Buffer_t) itr = none := by
  simp [deref]

/-- A buffer of at least `w + 2` bytes, cut at its last `w + 2` bytes. -/
theorem exists_split (buf : Buffer_t) (w : Nat) (hl : w + 2 ≤ buf.length) :
    ∃ (pre payload : List Byte) (lead last : Byte),
      buf = pre ++ lead :: (payload ++ [last]) ∧ payload.length = w := by
  have h1 : buf = buf.take (buf.length - (w + 2)) ++ buf.drop (buf.length - (w + 2)) :=
    (List.take_append_drop _ _).symm
  have h2 : (buf.drop (buf.length - (w + 2))).length = w + 2 := by
    rw [List.length_drop]; omega
  generalize buf.drop (buf.length - (w + 2)) = t at h1 h2
  cases t with
  | nil => simp at h2
  | cons lead rest =>
    have h3 : rest.length = w + 1 := by simpa using h2
    have h4 : rest ≠ [] := by
      intro e; rw [e] at h3; simp at h3
    refine ⟨buf.take (buf.length - (w + 2)), rest.dropLast, lead, rest.getLast h4, ?_, ?_⟩
    · rw [List.dropLast_append_getLast h4]
      exact h1
    · rw [List.length_dropLast, h3]
      rfl

/-- The positions of the parts of a buffer cut at its last `w + 2` bytes. -/
theorem split_facts (pre payload : List Byte) (lead last : Byte) :
    let B := pre ++ lead :: (payload ++ [last])
    B.length = pre.length + payload.length + 2 ∧
    B[B.length - 1]? = some last ∧
    B[B.length - (payload.length + 2)]? = some lead ∧
    (B.drop (B.length - (payload.length + 1))).take payload.length = payload ∧
    B.take (B.length - (payload.length + 2)) = pre := by
  intro B
  have hB : B = (pre ++ [lead]) ++ (payload ++ [last]) := by simp [B]
  have hlen : B.length = pre.length + payload.length + 2 := by simp [B]; omega
  have e1 : B.length - 1 = pre.length + payload.length + 1 := by omega
  have e2 : B.length - (payload.length + 2) = pre.length := by omega
  have e3 : B.length - (payload.length + 1) = (pre ++ [lead]).length := by simp; omega
  refine ⟨hlen, ?_, ?_, ?_, ?_⟩
  · have l1 : (pre ++ [lead]).length = pre.length + 1 := by simp
    rw [e1, hB, List.getElem?_append_right (by omega),
      List.getElem?_append_right (by omega)]
    have : pre.length + payload.length + 1 - (pre ++ [lead]).length - payload.length = 0 := by
      omega
    rw [this]; rfl
  · rw [e2, List.getElem?_append_right (by omega)]
    simp
  · rw [e3, hB, List.drop_left, List.take_left]
  · rw [e2]
    simp [B]

/-- The scalar decode steps on a buffer of at least `w + 2` bytes, cut at its last `w + 2`
bytes: both markers are tested, then the payload is returned and the cut part removed. -/
theorem decode_payload_split (tag w : Nat) (pre payload : List Byte) (lead last : Byte)
    (hw : payload.length = w) :
    decode_payload tag w (pre ++ lead :: (payload ++ [last]))
      = some (if charToInt last ≠ (tag : Int) ∨ charToInt lead ≠ (tag : Int) then
          .thrown .STREAM_ERR_INVALID_TYPE (pre ++ lead :: (payload ++ [last]))
        else .returned payload pre) := by
  obtain ⟨hlen, g1, g2, g3, g4⟩ := split_facts pre payload lead last
  rw [hw] at hlen g2 g3 g4
  generalize pre ++ lead :: (payload ++ [last]) = B at *
  have i1 : ((B.length : Int) - 1) = ((B.length - 1 : Nat) : Int) := by omega
  have i2 : ((B.length - 1 : Nat) : Int) - ((w : Int) + 1) = ((B.length - (w + 2) : Nat) : Int) := by
    omega
  have i3 : ((B.length - 1 : Nat) : Int) - 1 = (((B.length - (w + 1)) + w : Nat) : Int) - 1 := by
    omega
  have c := copy_back_eq B w (B.length - (w + 1)) [] (by omega)
  rw [g3, List.append_nil] at c
  have i4 : ((B.length - (w + 1) : Nat) : Int) - 1 = ((B.length - (w + 2) : Nat) : Int) := by
    omega
  unfold decode_payload
  simp only [i1, deref_natCast, g1, Option.bind_eq_bind, Option.some_bind, Option.pure_def]
  by_cases h1 : charToInt last ≠ (tag : Int)
  · rw [if_pos h1, if_pos (Or.inl h1)]
  · rw [if_neg h1]
    simp only [i2, deref_natCast, g2, Option.some_bind]
    by_cases h2 : charToInt lead ≠ (tag : Int)
    · rw [if_pos h2, if_pos (Or.inr h2)]
    · rw [if_neg h2, if_neg (not_or.mpr ⟨h1, h2⟩)]
      simp only [i3, c, Option.some_bind, i4,
        erase_natCast B _ (by omega : B.length - (w + 2) ≤ B.length), g4]

/-- The scalar decode steps on a buffer of fewer than `w + 2` bytes: a throw when the last
byte is not the marker, a load outside the buffer otherwise. -/
theorem decode_payload_short (tag w : Nat) (buf : Buffer_t) (hl : buf.length < w + 2) :
    decode_payload tag w buf
      = match buf.getLast? with
        | none => none
        | some c =>
          if charToInt c ≠ (tag : Int) then some (.thrown .STREAM_ERR_INVALID_TYPE buf)
          else none := by
  rcases List.eq_nil_or_concat buf with rfl | ⟨X, c, hX⟩
  · simp [decode_payload, deref_empty]
  rw [List.concat_eq_append] at hX
  subst hX
  rw [List.getLast?_concat]
  simp only
  by_cases hc : charToInt c ≠ (tag : Int)
  · rw [if_pos hc, decode_payload_last_ne tag w X c hc]
  · rw [if_neg hc]
    unfold decode_payload
    have i1 : (((X ++ [c]).length : Int) - 1) = ((X.length : Nat) : Int) := by simp
    have hneg : ((X.length : Nat) : Int) - ((w : Int) + 1) < 0 := by
      simp at hl; omega
    simp only [i1, deref_natCast, List.getElem?_concat_length, Option.bind_eq_bind,
      Option.some_bind, if_neg hc, deref_neg _ _ hneg, Option.none_bind]

theorem copy_back_none (buf : Buffer_t) (n : Nat) (itr : Int) (mem : List Byte)
    (hn : 0 < n) (hi : itr < (n : Int) - 1) : copy_back buf n itr mem = none := by
  induction n generalizing itr mem with
  | zero => omega
  | succ n ih =>
    rw [copy_back]
    cases hd : deref buf itr with
    | none => rfl
    | some c =>
      simp only [Option.bind_eq_bind, Option.some_bind]
      by_cases h0 : n = 0
      · subst h0
        have : itr < 0 := by simpa using hi
        rw [deref_neg _ _ this] at hd
        exact absurd hd (by simp)
      · exact ih _ _ (by omega) (by push_cast at hi ⊢; omega)

theorem ofBigEndian_eq_ofBE (bs : List Byte) : ofBigEndian bs = ofBE bs := by
  unfold ofBigEndian ofBE
  induction bs using List.reverseRecOn with
  | nil => rfl
  | append_singleton bs c ih =>
    rw [List.foldl_append, List.reverse_append, List.reverse_singleton, List.singleton_append]
    show (List.foldl (fun acc c => acc * 256 + c.val) 0 bs) * 256 + c.val
      = c.val + 256 * ofLE bs.reverse
    rw [ih]
    ring

/-- The positions of the parts of a buffer cut before a would-be string record. -/
theorem string_split_facts (pre data len4 : List Byte) (lead last : Byte)
    (hl : len4.length = 4) :
    let B := pre ++ lead :: (data ++ (len4 ++ [last]))
    B.length = pre.length + data.length + 6 ∧
    B[pre.length + data.length + 5]? = some last ∧
    B[pre.length]? = some lead ∧
    (B.drop (pre.length + data.length + 1)).take 4 = len4 ∧
    (B.drop (pre.length + 1)).take data.length = data ∧
    B.take pre.length = pre := by
  intro B
  have hB : B = (pre ++ [lead]) ++ (data ++ (len4 ++ [last])) := by simp [B]
  have l1 : (pre ++ [lead]).length = pre.length + 1 := by simp
  refine ⟨by simp [B, hl]; omega, ?_, ?_, ?_, ?_, ?_⟩
  · rw [hB, List.getElem?_append_right (by omega), List.getElem?_append_right (by omega),
      List.getElem?_append_right (by omega)]
    have : pre.length + data.length + 5 - (pre ++ [lead]).length - data.length - len4.length
        = 0 := by omega
    rw [this]; rfl
  · rw [List.getElem?_append_right (by omega)]
    simp
  · rw [hB, ← List.append_assoc]
    have : pre.length + data.length + 1 = ((pre ++ [lead]) ++ data).length := by simp; omega
    rw [this, List.drop_left, ← hl, List.take_left]
  · have : pre.length + 1 = (pre ++ [lead]).length := by simp
    rw [hB, this, List.drop_left, List.take_left]
  · simp [B]

/-- The string decoder on a buffer cut before the data that its length field announces:
both markers are tested; then the data up to its first zero byte is returned and the cut
part removed, unless the length field is `0xFFFFFFFF`, where a store leaves `pBuffer`. -/
theorem decode_string_split (h : Host) (pre data len4 : List Byte) (lead last : Byte)
    (hl : len4.length = 4) (hd : data.length = ofBE len4) :
    decode_string h (pre ++ lead :: (data ++ (len4 ++ [last])))
      = if charToInt last ≠ (STREAM_TYPE_STRING : Int) ∨ charToInt lead ≠ (STREAM_TYPE_STRING : Int)
        then some (.thrown .STREAM_ERR_INVALID_TYPE (pre ++ lead :: (data ++ (len4 ++ [last]))))
        else if data.length + 1 < 2 ^ 32 then
          some (.returned (data.takeWhile (fun c => c ≠ 0)) pre)
        else none := by
  obtain ⟨hlen, g1, g2, g3, g4, g5⟩ := string_split_facts pre data len4 lead last hl
  generalize pre ++ lead :: (data ++ (len4 ++ [last])) = B at *
  have hlt : data.length < 2 ^ 32 := by
    have := ofBE_lt len4
    rw [hl] at this
    omega
  have i1 : ((B.length : Int) - 1) = ((pre.length + data.length + 5 : Nat) : Int) := by
    rw [hlen]; push_cast; ring
  have i2 : ((pre.length + data.length + 5 : Nat) : Int) - 1
      = (((pre.length + data.length + 1) + 4 : Nat) : Int) - 1 := by push_cast; ring
  have c4 := copy_back_eq B 4 (pre.length + data.length + 1) [] (by omega)
  rw [g3, List.append_nil] at c4
  have hlenval : ntohl h (ofMem h len4) = data.length := by
    rw [ntohl_ofMem h _ hl, hd]
  have i3 : ((pre.length + 1 + data.length : Nat) : Int) - 1 - ((data.length : Nat) : Int)
      = ((pre.length : Nat) : Int) := by push_cast; ring
  have i4 : ((pre.length + data.length + 1 : Nat) : Int) - 1
      = (((pre.length + 1) + data.length : Nat) : Int) - 1 := by push_cast; ring
  have i5 : ((pre.length + 1 : Nat) : Int) - 1 = ((pre.length : Nat) : Int) := by push_cast; ring
  unfold decode_string
  simp only [i1, deref_natCast, g1, Option.bind_eq_bind, Option.some_bind, Option.pure_def]
  by_cases h1 : charToInt last ≠ (STREAM_TYPE_STRING : Int)
  · rw [if_pos h1, if_pos (Or.inl h1)]
  · rw [if_neg h1]
    simp only [i2, c4, Option.some_bind, hlenval, i4, i3, deref_natCast, g2]
    by_cases h2 : charToInt lead ≠ (STREAM_TYPE_STRING : Int)
    · rw [if_pos h2, if_pos (Or.inr h2)]
    · rw [if_neg h2, if_neg (not_or.mpr ⟨h1, h2⟩)]
      by_cases hN : data.length + 1 < 2 ^ 32
      · rw [if_pos hN]
        have hcap : (data.length + 1) % 2 ^ 32 = data.length + 1 := Nat.mod_eq_of_lt hN
        have cs := copy_string_eq B data.length (pre.length + 1)
          (List.replicate (data.length + 1) 0) (by omega) (by simp)
        rw [g4] at cs
        have hdrop : (List.replicate (data.length + 1) (0 : Byte)).drop data.length = [0] := by
          simp
        rw [hdrop] at cs
        simp only [hcap, cs, Option.some_bind, i5, erase_natCast B pre.length (by omega), g5,
          c_str_append_zero]
      · rw [if_neg hN]
        have hcap : (data.length + 1) % 2 ^ 32 = 0 := by omega
        obtain ⟨n, hn⟩ : ∃ n, data.length = n + 1 := ⟨data.length - 1, by omega⟩
        simp only [hcap, List.replicate_zero]
        rw [hn, copy_string_empty]
        rfl

/-- The string decoder on a buffer that ends with the string marker but has no room for
the record its last five bytes announce: a load outside the buffer. -/
theorem decode_string_no_room (h : Host) (X : Buffer_t) (c : Byte)
    (hc : ¬ charToInt c ≠ (STREAM_TYPE_STRING : Int))
    (hroom : (X ++ [c]).length < 5 ∨ (X ++ [c]).length < lengthField (X ++ [c]) + 6) :
    decode_string h (X ++ [c]) = none := by
  have i1 : (((X ++ [c]).length : Int) - 1) = ((X.length : Nat) : Int) := by simp
  have hlen : (X ++ [c]).length = X.length + 1 := by simp
  unfold decode_string
  simp only [i1, deref_natCast, List.getElem?_concat_length, Option.bind_eq_bind,
    Option.some_bind, if_neg hc]
  by_cases h5 : (X ++ [c]).length < 5
  · rw [copy_back_none _ 4 _ _ (by decide) (by rw [hlen] at h5; push_cast; omega)]
    rfl
  · have hN : (X ++ [c]).length < lengthField (X ++ [c]) + 6 := by
      rcases hroom with h | h
      · exact absurd h h5
      · exact h
    generalize X ++ [c] = B at *
    have e : ((X.length : Nat) : Int) - 1 = (((B.length - 5) + 4 : Nat) : Int) - 1 := by omega
    have c4 := copy_back_eq B 4 (B.length - 5) [] (by omega)
    rw [List.append_nil] at c4
    have l4 : ((B.drop (B.length - 5)).take 4).length = 4 := by
      rw [List.length_take, List.length_drop]; omega
    have hv : ntohl h (ofMem h ((B.drop (B.length - 5)).take 4)) = lengthField B := by
      rw [ntohl_ofMem h _ l4, lengthField, ofBigEndian_eq_ofBE]
    have hneg : ((B.length - 5 : Nat) : Int) - 1 - ((lengthField B : Nat) : Int) < 0 := by omega
    simp only [e, c4, Option.some_bind, hv, deref_neg _ _ hneg, Option.none_bind]

/-- A buffer with room for the string record that its last five bytes announce, cut before
that record. -/
theorem exists_string_split (buf : Buffer_t) (hN : lengthField buf + 6 ≤ buf.length) :
    ∃ (pre data len4 : List Byte) (lead last : Byte),
      buf = pre ++ lead :: (data ++ (len4 ++ [last])) ∧ len4.length = 4
        ∧ data.length = ofBE len4 ∧ data.length = lengthField buf := by
  obtain ⟨pre, payload, lead, last, hb, hw⟩ := exists_split buf (lengthField buf + 4) (by omega)
  have hp : payload = payload.take (lengthField buf) ++ payload.drop (lengthField buf) :=
    (List.take_append_drop _ _).symm
  have l1 : (payload.take (lengthField buf)).length = lengthField buf := by
    rw [List.length_take, hw]; omega
  have l2 : (payload.drop (lengthField buf)).length = 4 := by
    rw [List.length_drop, hw]; omega
  have hb2 : buf = pre ++ lead :: (payload.take (lengthField buf)
      ++ (payload.drop (lengthField buf) ++ [last])) := by
    rw [← List.append_assoc, ← hp]; exact hb
  obtain ⟨hlen, -, -, g3, -, -⟩ := string_split_facts pre (payload.take (lengthField buf))
    (payload.drop (lengthField buf)) lead last l2
  rw [← hb2] at hlen g3
  have e5 : buf.length - 5 = pre.length + (payload.take (lengthField buf)).length + 1 := by omega
  have hf : lengthField buf = ofBE (payload.drop (lengthField buf)) := by
    conv_lhs => rw [lengthField, e5, g3, ofBigEndian_eq_ofBE]
  refine ⟨pre, _, _, lead, last, hb2, l2, ?_, l1⟩
  rw [l1]
  exact hf

/-! ## Every scalar overload of `operator>>` at once -/

theorem decode_scalar_eq (h : Host) (T : Ty) (hs : T.scalar) (buf : Buffer_t) :
    decode h T buf = (decode_payload T.tag T.width buf).map (Result.map (T.conv h)) := by
  have hm : ∀ {α : Type} (f : α → Value) (g : List Byte → α) (r : Option (Result (List Byte))),
      (r.map (Result.map g)).map (Result.map f) = r.map (Result.map (fun m => f (g m))) := by
    intro α f g r
    cases r with
    | none => rfl
    | some x => cases x <;> rfl
  cases T with
  | char => simp only [decode, decode_char_eq, hm]; rfl
  | uchar => simp only [decode, decode_uchar_eq, hm]; rfl
  | int16 => simp only [decode, decode_int16_eq, hm]; rfl
  | uint16 => simp only [decode, decode_uint16_eq, hm]; rfl
  | int32 => simp only [decode, decode_int32_eq, hm]; rfl
  | uint32 => simp only [decode, decode_uint32_eq, hm]; rfl
  | int64 => simp only [decode, decode_int64_eq, hm]; rfl
  | uint64 => simp only [decode, decode_uint64_eq, hm]; rfl
  | string => exact absurd rfl hs

theorem tag_lt (T : Ty) : T.tag < 128 := by
  cases T <;> decide

theorem charToInt_ne_tag_iff (c : Byte) (T : Ty) :
    charToInt c ≠ (T.tag : Int) ↔ c ≠ toByte T.tag :=
  charToInt_ne_iff c T.tag (tag_lt T)

theorem toSigned_range (bits x : Nat) (hb : 0 < bits) :
    -(2 : Int) ^ (bits - 1) ≤ toSigned bits x ∧ toSigned bits x < (2 : Int) ^ (bits - 1) := by
  obtain ⟨k, rfl⟩ : ∃ k, bits = k + 1 := ⟨bits - 1, by omega⟩
  simp only [Nat.add_sub_cancel]
  have hlt : x % 2 ^ (k + 1) < 2 ^ (k + 1) := Nat.mod_lt _ (by positivity)
  have hpn : (2 : Nat) ^ (k + 1) = 2 * 2 ^ k := by rw [pow_succ]; ring
  have hp : (2 : Int) ^ (k + 1) = 2 * 2 ^ k := by rw [pow_succ]; ring
  have hc : ((2 ^ k : Nat) : Int) = (2 : Int) ^ k := by push_cast; rfl
  unfold toSigned
  simp only [Nat.add_sub_cancel]
  split
  · rename_i hlo
    constructor
    · have : (0 : Int) ≤ ((x % 2 ^ (k + 1) : Nat) : Int) := Int.natCast_nonneg _
      have : (0 : Int) ≤ (2 : Int) ^ k := by positivity
      omega
    · rw [← hc]; exact_mod_cast hlo
  · rename_i hhi
    have h1 : ((2 ^ k : Nat) : Int) ≤ ((x % 2 ^ (k + 1) : Nat) : Int) := by
      exact_mod_cast Nat.le_of_not_lt hhi
    have h2 : ((x % 2 ^ (k + 1) : Nat) : Int) < ((2 * 2 ^ k : Nat) : Int) := by
      rw [← hpn]; exact_mod_cast hlt
    rw [hp, ← hc]
    push_cast at h2
    constructor <;> omega

theorem twosComplement_toSigned (bits x : Nat) (hb : 0 < bits) (hx : x < 2 ^ bits) :
    twosComplement bits (toSigned bits x) = x := by
  obtain ⟨hlo, hhi⟩ := toSigned_range bits x hb
  have hp : (2 : Int) ^ (bits - 1) ≤ (2 : Int) ^ bits :=
    pow_le_pow_right₀ (by norm_num) (by omega)
  rw [← toUnsigned_eq_twosComplement bits _ (by omega) (by omega), toUnsigned_toSigned,
    Nat.mod_eq_of_lt hx]

theorem bigEndian_ofBE (bs : List Byte) : bigEndian bs.length (ofBE bs) = bs := by
  rw [← toBE_eq_bigEndian, toBE_ofBE]

theorem charToInt_eq_toSigned (c : Byte) : charToInt c = toSigned 8 c.val := by
  have := c.isLt
  unfold charToInt toSigned
  have e : c.val % 2 ^ 8 = c.val := Nat.mod_eq_of_lt (by omega)
  rw [e]
  norm_num

/-- The value a scalar overload of `operator>>` makes of the bytes between the markers:
a value of the type, in its range, whose big-endian bytes are those bytes. -/
theorem conv_value (h : Host) (T : Ty) (hs : T.scalar) (payload : List Byte)
    (hw : payload.length = T.width) :
    (T.conv h payload).ty = T ∧ (T.conv h payload).representable
      ∧ bigEndian T.width (T.conv h payload).pattern = payload := by
  have hb := bigEndian_ofBE payload
  have hlt := ofBE_lt payload
  rw [hw] at hb hlt
  cases T with
  | char =>
    obtain ⟨c, rfl⟩ : ∃ c, payload = [c] := by
      match payload, hw with
      | [c], _ => exact ⟨c, rfl⟩
    have hr := toSigned_range 8 c.val (by decide)
    have hp := twosComplement_toSigned 8 c.val (by decide) c.isLt
    simp only [Ty.conv, List.headD_cons, Value.ty, Value.representable, Value.pattern, Ty.width,
      charToInt_eq_toSigned, hp]
    refine ⟨trivial, hr, ?_⟩
    simp [bigEndian, toByte_val]
  | uchar =>
    obtain ⟨c, rfl⟩ : ∃ c, payload = [c] := by
      match payload, hw with
      | [c], _ => exact ⟨c, rfl⟩
    have hu : toUnsigned 8 (charToInt c) = c.val := by
      rw [charToInt_eq_toSigned, toUnsigned_toSigned]
      exact Nat.mod_eq_of_lt c.isLt
    simp only [Ty.conv, List.headD_cons, Value.ty, Value.representable, Value.pattern, Ty.width,
      hu]
    refine ⟨trivial, c.isLt, ?_⟩
    simp [bigEndian, toByte_val]
  | int16 =>
    simp only [Ty.width] at hw hb hlt
    have hr := toSigned_range 16 (ofBE payload) (by decide)
    have hp := twosComplement_toSigned 16 (ofBE payload) (by decide) (by omega)
    simp only [Ty.conv, Value.ty, Value.representable, Value.pattern, Ty.width,
      ntohs_conv h payload hw, hp]
    exact ⟨trivial, hr, hb⟩
  | uint16 =>
    simp only [Ty.width] at hw hb hlt
    simp only [Ty.conv, Value.ty, Value.representable, Value.pattern, Ty.width,
      ntohs_ofMem h payload hw]
    exact ⟨trivial, by omega, hb⟩
  | int32 =>
    simp only [Ty.width] at hw hb hlt
    have hr := toSigned_range 32 (ofBE payload) (by decide)
    have hp := twosComplement_toSigned 32 (ofBE payload) (by decide) (by omega)
    simp only [Ty.conv, Value.ty, Value.representable, Value.pattern, Ty.width,
      ntohl_conv h payload hw, hp]
    exact ⟨trivial, hr, hb⟩
  | uint32 =>
    simp only [Ty.width] at hw hb hlt
    simp only [Ty.conv, Value.ty, Value.representable, Value.pattern, Ty.width,
      ntohl_ofMem h payload hw]
    exact ⟨trivial, by omega, hb⟩
  | int64 =>
    simp only [Ty.width] at hw hb hlt
    have hr := toSigned_range 64 (ofBE payload) (by decide)
    have hp := twosComplement_toSigned 64 (ofBE payload) (by decide) (by omega)
    simp only [Ty.conv, Value.ty, Value.representable, Value.pattern, Ty.width,
      ntohll_conv h payload hw, hp]
    exact ⟨trivial, hr, hb⟩
  | uint64 =>
    simp only [Ty.width] at hw hb hlt
    simp only [Ty.conv, Value.ty, Value.representable, Value.pattern, Ty.width,
      ntohll_ofMem h payload hw]
    exact ⟨trivial, by omega, hb⟩
  | string => exact absurd rfl hs

/-- A scalar decode on a buffer of at least `w + 2` bytes, cut at its last `w + 2` bytes. -/
theorem decode_scalar_split (h : Host) (T : Ty) (hs : T.scalar) (pre payload : List Byte)
    (lead last : Byte) (hw : payload.length = T.width) :
    decode h T (pre ++ lead :: (payload ++ [last]))
      = some (if last ≠ toByte T.tag ∨ lead ≠ toByte T.tag then
          .thrown .STREAM_ERR_INVALID_TYPE (pre ++ lead :: (payload ++ [last]))
        else .returned (T.conv h payload) pre) := by
  rw [decode_scalar_eq h T hs, decode_payload_split T.tag T.width pre payload lead last hw]
  simp only [charToInt_ne_tag_iff, Option.map_some']
  split <;> rfl

/-- A scalar decode on a buffer of fewer than `w + 2` bytes. -/
theorem decode_scalar_short (h : Host) (T : Ty) (hs : T.scalar) (buf : Buffer_t)
    (hl : buf.length < T.width + 2) :
    decode h T buf
      = match buf.getLast? with
        | none => none
        | some c =>
          if c ≠ toByte T.tag then some (.thrown .STREAM_ERR_INVALID_TYPE buf) else none := by
  rw [decode_scalar_eq h T hs, decode_payload_short T.tag T.width buf hl]
  cases buf.getLast? with
  | none => rfl
  | some c =>
    simp only [charToInt_ne_tag_iff]
    split <;> rfl

/-- The three outcomes of the string decoder on an arbitrary buffer: undefined behaviour, a
throw that leaves the buffer, or the removal of the record that the last five bytes
announce. -/
theorem decode_string_cases (h : Host) (buf : Buffer_t) :
    decode_string h buf = none
    ∨ decode_string h buf = some (.thrown .STREAM_ERR_INVALID_TYPE buf)
    ∨ ∃ (pre data len4 : List Byte),
        buf = pre ++ toByte STREAM_TYPE_STRING :: (data ++ (len4 ++ [toByte STREAM_TYPE_STRING]))
        ∧ len4.length = 4 ∧ data.length = ofBE len4 ∧ data.length = lengthField buf
        ∧ data.length + 1 < 2 ^ 32
        ∧ decode_string h buf = some (.returned (data.takeWhile (fun c => c ≠ 0)) pre) := by
  rcases List.eq_nil_or_concat buf with rfl | ⟨X, c, hX⟩
  · left
    simp [decode_string, deref_empty]
  rw [List.concat_eq_append] at hX
  subst hX
  by_cases hc : charToInt c ≠ (STREAM_TYPE_STRING : Int)
  · right; left
    exact decode_string_last_ne h X c hc
  by_cases hroom : (X ++ [c]).length < 5 ∨ (X ++ [c]).length < lengthField (X ++ [c]) + 6
  · left
    exact decode_string_no_room h X c hc hroom
  have hN : lengthField (X ++ [c]) + 6 ≤ (X ++ [c]).length := by omega
  obtain ⟨pre, data, len4, lead, last, hb, hl4, hd, hf⟩ := exists_string_split (X ++ [c]) hN
  have hdec := decode_string_split h pre data len4 lead last hl4 hd
  rw [← hb] at hdec
  by_cases ht : charToInt last ≠ (STREAM_TYPE_STRING : Int)
      ∨ charToInt lead ≠ (STREAM_TYPE_STRING : Int)
  · right; left
    rw [hdec, if_pos ht]
  · rw [if_neg ht] at hdec
    by_cases h32 : data.length + 1 < 2 ^ 32
    · right; right
      rw [if_pos h32] at hdec
      have h1 : last = toByte STREAM_TYPE_STRING := by
        by_contra hne
        exact ht (Or.inl ((charToInt_ne_iff last _ (by decide)).mpr hne))
      have h2 : lead = toByte STREAM_TYPE_STRING := by
        by_contra hne
        exact ht (Or.inr ((charToInt_ne_iff lead _ (by decide)).mpr hne))
      subst h1 h2
      exact ⟨pre, data, len4, hb, hl4, hd, hf, h32, hdec⟩
    · left
      rw [hdec, if_neg h32]

theorem map_returned {α β : Type} (f : α → β) (r : Option (Result α)) (v : β)
    (after : Buffer_t) (ht : r.map (Result.map f) = some (.returned v after)) :
    ∃ a, r = some (.returned a after) ∧ f a = v := by
  cases r with
  | none => simp at ht
  | some x =>
    cases x with
    | thrown c b2 => simp [Result.map] at ht
    | returned val buf =>
      simp only [Option.map_some', Result.map, Option.some.injEq, Result.returned.injEq] at ht
      exact ⟨val, by rw [ht.2], ht.1⟩

/-- A decode that returns has removed a tail of the buffer: `w + 2` bytes with the payload
inside for a scalar type, the length field plus 6 bytes for the string type. -/
theorem decode_returned (h : Host) (T : Ty) (buf after : Buffer_t) (v : Value)
    (hd : decode h T buf = some (.returned v after)) :
    (T.scalar → ∃ (payload : List Byte) (lead last : Byte),
        buf = after ++ lead :: (payload ++ [last]) ∧ payload.length = T.width
          ∧ v = T.conv h payload)
    ∧ (T = Ty.string → ∃ removed : List Byte,
        buf = after ++ removed ∧ removed.length = lengthField buf + 6) := by
  constructor
  · intro hs
    by_cases hl : buf.length < T.width + 2
    · rw [decode_scalar_short h T hs buf hl] at hd
      cases hg : buf.getLast? with
      | none => simp [hg] at hd
      | some c =>
        simp only [hg] at hd
        split at hd <;> simp at hd
    · obtain ⟨pre, payload, lead, last, hb, hw⟩ := exists_split buf T.width (by omega)
      have hdec := decode_scalar_split h T hs pre payload lead last hw
      rw [← hb, hd] at hdec
      split at hdec
      · simp at hdec
      · simp only [Option.some.injEq, Result.returned.injEq] at hdec
        refine ⟨payload, lead, last, ?_, hw, hdec.1⟩
        rw [hdec.2]; exact hb
  · intro hT
    subst hT
    simp only [decode] at hd
    obtain ⟨s, hs, -⟩ := map_returned _ _ _ _ hd
    rcases decode_string_cases h buf with hn | ht | ⟨pre, data, len4, hb, hl4, -, hf, -, hr⟩
    · rw [hn] at hs; simp at hs
    · rw [ht] at hs; simp at hs
    · rw [hr] at hs
      simp only [Option.some.injEq, Result.returned.injEq] at hs
      refine ⟨toByte STREAM_TYPE_STRING :: (data ++ (len4 ++ [toByte STREAM_TYPE_STRING])), ?_, ?_⟩
      · rw [← hs.2]; exact hb
      · rw [← hf]
        simp [hl4]

/-! ## The claims on arbitrary buffers -/

/-- C13: for every scalar type `T` of width `w` and every buffer of length at least
`w + 2`, decoding `T` throws the invalid-type error, leaving the buffer, if and only if the
last byte of the buffer differs from the tag of `T` or the byte `w + 1` positions before
the last byte differs from the tag of `T`; when both bytes equal the tag the decode
returns. -/
theorem dual_tag_validation (h : Host) (T : Ty) (hs : T.scalar) (buf : Buffer_t)
    (hl : T.width + 2 ≤ buf.length) :
    (decode h T buf = some (.thrown .STREAM_ERR_INVALID_TYPE buf)
      ↔ (buf[buf.length - 1]? ≠ some (toByte T.tag)
          ∨ buf[buf.length - 1 - (T.width + 1)]? ≠ some (toByte T.tag)))
    ∧ ((buf[buf.length - 1]? = some (toByte T.tag)
          ∧ buf[buf.length - 1 - (T.width + 1)]? = some (toByte T.tag))
        → ∃ v after, decode h T buf = some (.returned v after)) := by
  obtain ⟨pre, payload, lead, last, hb, hw⟩ := exists_split buf T.width hl
  obtain ⟨-, g1, g2, -, -⟩ := split_facts pre payload lead last
  have hdec := decode_scalar_split h T hs pre payload lead last hw
  rw [← hb] at hdec g1 g2
  rw [hw] at g2
  have e : buf.length - 1 - (T.width + 1) = buf.length - (T.width + 2) := by omega
  rw [e, g1, g2, hdec]
  simp only [ne_eq, Option.some.injEq]
  constructor
  · constructor
    · intro hi
      by_contra hc
      rw [if_neg hc] at hi
      simp at hi
    · intro hc
      rw [if_pos hc]
  · rintro ⟨h1, h2⟩
    rw [if_neg (by rw [h1, h2]; simp)]
    exact ⟨_, _, rfl⟩

theorem dual_tag_validation_witness :
    Ty.int16.scalar ∧ Ty.int16.width + 2 ≤ ([9, 105, 1, 2, 73] : Buffer_t).length
    ∧ ((decode .bigEndian Ty.int16 [9, 105, 1, 2, 73]
          = some (.thrown .STREAM_ERR_INVALID_TYPE [9, 105, 1, 2, 73])
        ↔ (([9, 105, 1, 2, 73] : Buffer_t)[([9, 105, 1, 2, 73] : Buffer_t).length - 1]?
              ≠ some (toByte Ty.int16.tag)
            ∨ ([9, 105, 1, 2, 73] : Buffer_t)[([9, 105, 1, 2, 73] : Buffer_t).length - 1
                - (Ty.int16.width + 1)]? ≠ some (toByte Ty.int16.tag)))
      ∧ ((([9, 105, 1, 2, 73] : Buffer_t)[([9, 105, 1, 2, 73] : Buffer_t).length - 1]?
              = some (toByte Ty.int16.tag)
            ∧ ([9, 105, 1, 2, 73] : Buffer_t)[([9, 105, 1, 2, 73] : Buffer_t).length - 1
                - (Ty.int16.width + 1)]? = some (toByte Ty.int16.tag))
          → ∃ v after, decode .bigEndian Ty.int16 [9, 105, 1, 2, 73]
              = some (.returned v after))) :=
  ⟨by decide, by decide, dual_tag_validation .bigEndian Ty.int16 (by decide) [9, 105, 1, 2, 73]
    (by decide)⟩

/-- What every decode operation does on a buffer shorter than the least record of its
type. -/
theorem decode_short (h : Host) (T : Ty) (buf : Buffer_t) (hl : buf.length < T.minRecord) :
    decode h T buf
      = match buf.getLast? with
        | none => none
        | some c =>
          if c ≠ toByte T.tag then some (.thrown .STREAM_ERR_INVALID_TYPE buf) else none := by
  by_cases hs : T.scalar
  · have hm : T.minRecord = T.width + 2 := by cases T <;> first | rfl | exact absurd rfl hs
    exact decode_scalar_short h T hs buf (by omega)
  · have hT : T = Ty.string := by
      cases T <;> first | rfl | exact absurd (by simp [Ty.scalar]) hs
    subst hT
    have hl6 : buf.length < 6 := hl
    simp only [decode]
    rcases List.eq_nil_or_concat buf with rfl | ⟨X, c, hX⟩
    · simp [decode_string, deref_empty]
    rw [List.concat_eq_append] at hX
    subst hX
    rw [List.getLast?_concat]
    simp only
    by_cases hc : c ≠ toByte Ty.string.tag
    · rw [if_pos hc, decode_string_last_ne h X c ((charToInt_ne_tag_iff c Ty.string).mpr hc)]
      rfl
    · rw [if_neg hc, decode_string_no_room h X c
        (fun hne => hc ((charToInt_ne_tag_iff c Ty.string).mp hne)) (by omega)]
      rfl

/-- C14, as amended: for every decode operation (each scalar type and string), decoding
from a stream that holds fewer bytes than the least record of the requested type (`w + 2`
for a scalar of width `w`, 6 for a string) raises no Truncated error. When the stream is
not empty and its last byte differs from the tag of the type, the decode throws the
invalid-type error and leaves the buffer; when the stream is empty or its last byte is the
tag, the decode loads a position outside the buffer (undefined behaviour). -/
theorem short_buffer (h : Host) (T : Ty) (buf : Buffer_t) (hl : buf.length < T.minRecord) :
    (∀ (X : Buffer_t) (c : Byte), buf = X ++ [c] → c ≠ toByte T.tag →
        decode h T buf = some (.thrown .STREAM_ERR_INVALID_TYPE buf))
    ∧ (buf = [] → decode h T buf = none)
    ∧ (∀ X : Buffer_t, buf = X ++ [toByte T.tag] → decode h T buf = none) := by
  have hd := decode_short h T buf hl
  refine ⟨?_, ?_, ?_⟩
  · intro X c hb hc
    rw [hd, hb, List.getLast?_concat]
    simp only
    rw [if_pos hc]
  · intro hb
    rw [hd, hb]
    rfl
  · intro X hb
    rw [hd, hb, List.getLast?_concat]
    simp

theorem short_buffer_witness :
    ([108, 0, 108] : Buffer_t).length < Ty.int32.minRecord
    ∧ ((∀ (X : Buffer_t) (c : Byte), ([108, 0, 108] : Buffer_t) = X ++ [c] →
          c ≠ toByte Ty.int32.tag →
          decode .littleEndian Ty.int32 [108, 0, 108]
            = some (.thrown .STREAM_ERR_INVALID_TYPE [108, 0, 108]))
      ∧ (([108, 0, 108] : Buffer_t) = [] → decode .littleEndian Ty.int32 [108, 0, 108] = none)
      ∧ (∀ X : Buffer_t, ([108, 0, 108] : Buffer_t) = X ++ [toByte Ty.int32.tag] →
          decode .littleEndian Ty.int32 [108, 0, 108] = none)) :=
  ⟨by decide, short_buffer .littleEndian Ty.int32 [108, 0, 108] (by decide)⟩

/-- C14 as stated fails: decoding a char, or a string, from the empty stream raises no
error at all, and neither does decoding an int32 from the one-byte stream that holds the
int32 tag; in the three cases the decode loads a position outside the buffer. -/
theorem underflow_raises_nothing :
    ([] : Buffer_t).length < Ty.char.minRecord
    ∧ decode .littleEndian Ty.char [] = none
    ∧ (¬ ∃ code after, decode .littleEndian Ty.char [] = some (.thrown code after))
    ∧ (¬ ∃ code after, decode .littleEndian Ty.string [] = some (.thrown code after))
    ∧ ([108] : Buffer_t).length < Ty.int32.minRecord
    ∧ (¬ ∃ code after, decode .littleEndian Ty.int32 [108] = some (.thrown code after)) := by
  have h1 : decode .littleEndian Ty.char [] = none := by decide
  have h2 : decode .littleEndian Ty.string [] = none := by decide
  have h3 : decode .littleEndian Ty.int32 [108] = none := by decide
  refine ⟨by decide, h1, ?_, ?_, by decide, ?_⟩
  · rintro ⟨code, after, he⟩
    rw [h1] at he
    exact absurd he (by simp)
  · rintro ⟨code, after, he⟩
    rw [h2] at he
    exact absurd he (by simp)
  · rintro ⟨code, after, he⟩
    rw [h3] at he
    exact absurd he (by simp)

/-- The string decoder on a buffer of 5 bytes or more that ends with the string marker:
after the four length bytes its next step is the load of the byte `N + 5` positions before
the last byte, with `N` the length field, whatever the length of the buffer. -/
theorem decode_string_lead_load (h : Host) (buf : Buffer_t) (hl : 5 ≤ buf.length)
    (hlast : buf.getLast? = some (toByte STRING)) :
    decode_string h buf = (do
      let t ← deref buf ((buf.length : Int) - 1 - ((lengthField buf : Int) + 5))
      if charToInt t ≠ STREAM_TYPE_STRING then
        pure (.thrown .STREAM_ERR_INVALID_TYPE buf)
      else do
        let pBuffer : List Byte := List.replicate ((lengthField buf + 1) % 2 ^ 32) 0
        let (pBuffer, itr) ← copy_string buf (lengthField buf) ((buf.length : Int) - 6) pBuffer
        let buffer_ ← erase buf itr
        let val ← c_str pBuffer
        pure (.returned val buffer_)) := by
  rcases List.eq_nil_or_concat buf with rfl | ⟨X, c, hX⟩
  · simp at hl
  rw [List.concat_eq_append] at hX
  subst hX
  rw [List.getLast?_concat, Option.some.injEq] at hlast
  subst hlast
  have hc : ¬ charToInt (toByte STRING) ≠ (STREAM_TYPE_STRING : Int) :=
    fun hne => (charToInt_ne_iff _ STREAM_TYPE_STRING (by decide)).mp hne rfl
  have i1 : (((X ++ [toByte STRING]).length : Int) - 1) = ((X.length : Nat) : Int) := by simp
  have hlen : (X ++ [toByte STRING]).length = X.length + 1 := by simp
  unfold decode_string
  simp only [i1, deref_natCast, List.getElem?_concat_length, Option.bind_eq_bind,
    Option.some_bind, if_neg hc]
  generalize X ++ [toByte STRING] = B at *
  have e : ((X.length : Nat) : Int) - 1 = (((B.length - 5) + 4 : Nat) : Int) - 1 := by omega
  have c4 := copy_back_eq B 4 (B.length - 5) [] (by omega)
  rw [List.append_nil] at c4
  have l4 : ((B.drop (B.length - 5)).take 4).length = 4 := by
    rw [List.length_take, List.length_drop]; omega
  have hv : ntohl h (ofMem h ((B.drop (B.length - 5)).take 4)) = lengthField B := by
    rw [ntohl_ofMem h _ l4, lengthField, ofBigEndian_eq_ofBE]
  have e2 : ((B.length - 5 : Nat) : Int) - 1 - ((lengthField B : Nat) : Int)
      = (X.length : Int) - ((lengthField B : Int) + 5) := by omega
  have e3 : ((B.length - 5 : Nat) : Int) - 1 = (B.length : Int) - 6 := by omega
  simp only [e, c4, Option.some_bind, hv, e2]
  rw [e3]

/-- C15, as amended: for every buffer of at least 6 bytes whose last byte is the string
tag and whose 4-byte big-endian length field `N` (the 4 bytes preceding the last byte)
satisfies `N + 6 > ` buffer length, the string decoder makes no test of `N` against the
length of the buffer: the position `N + 5` before the last byte, which it loads after the
length bytes, is before the start of the buffer, so the decode reads outside the buffer and
its behaviour is undefined. The decoder has no error for an invalid length: whatever the
buffer, an error it raises is the invalid-type error and leaves the buffer as it was. -/
theorem invalid_length (h : Host) (buf : Buffer_t) (hl : 6 ≤ buf.length)
    (hlast : buf.getLast? = some (toByte STRING)) (hN : buf.length < lengthField buf + 6) :
    (buf.length : Int) - 1 - ((lengthField buf : Int) + 5) < 0
    ∧ deref buf ((buf.length : Int) - 1 - ((lengthField buf : Int) + 5)) = none
    ∧ decode_string h buf = none
    ∧ ∀ (b after : Buffer_t) (code : StreamErr),
        decode_string h b = some (.thrown code after) →
          code = .STREAM_ERR_INVALID_TYPE ∧ after = b := by
  have hneg : (buf.length : Int) - 1 - ((lengthField buf : Int) + 5) < 0 := by omega
  refine ⟨hneg, deref_neg _ _ hneg, ?_, ?_⟩
  · rw [decode_string_lead_load h buf (by omega) hlast, deref_neg _ _ hneg]
    rfl
  · intro b after code ht
    exact ⟨by cases code; rfl, decode_string_thrown h b after code ht⟩

/-- The amended C15 on the 7-byte buffer `'s' 'A' 00 00 00 09 's'`: the load is at the
position 8 before the start of the buffer. -/
theorem invalid_length_witness :
    6 ≤ ([115, 65, 0, 0, 0, 9, 115] : Buffer_t).length
    ∧ ([115, 65, 0, 0, 0, 9, 115] : Buffer_t).getLast? = some (toByte STRING)
    ∧ ([115, 65, 0, 0, 0, 9, 115] : Buffer_t).length
        < lengthField [115, 65, 0, 0, 0, 9, 115] + 6
    ∧ ((([115, 65, 0, 0, 0, 9, 115] : Buffer_t).length : Int) - 1
        - ((lengthField [115, 65, 0, 0, 0, 9, 115] : Int) + 5) < 0
      ∧ deref [115, 65, 0, 0, 0, 9, 115]
          ((([115, 65, 0, 0, 0, 9, 115] : Buffer_t).length : Int) - 1
            - ((lengthField [115, 65, 0, 0, 0, 9, 115] : Int) + 5)) = none
      ∧ decode_string .bigEndian [115, 65, 0, 0, 0, 9, 115] = none
      ∧ ∀ (b after : Buffer_t) (code : StreamErr),
          decode_string .bigEndian b = some (.thrown code after) →
            code = .STREAM_ERR_INVALID_TYPE ∧ after = b) :=
  ⟨by decide, by decide, by decide,
    invalid_length .bigEndian [115, 65, 0, 0, 0, 9, 115] (by decide) (by decide) (by decide)⟩

/-- C15 as stated fails: the 6-byte buffer `'s' 00 00 00 09 's'` ends with the string tag
and its length field 9 exceeds the room, and the decode of a string from it does not stay
inside the buffer: the byte `N + 5 = 14` positions before the last byte, at the position 9
before the start of the buffer, is loaded, and the behaviour of the decode is undefined. -/
theorem invalid_length_reads_outside :
    6 ≤ ([115, 0, 0, 0, 9, 115] : Buffer_t).length
    ∧ ([115, 0, 0, 0, 9, 115] : Buffer_t).getLast? = some (toByte STRING)
    ∧ lengthField [115, 0, 0, 0, 9, 115] = 9
    ∧ (([115, 0, 0, 0, 9, 115] : Buffer_t).length : Int) - 1
        - ((lengthField [115, 0, 0, 0, 9, 115] : Int) + 5) = -9
    ∧ deref [115, 0, 0, 0, 9, 115] (-9) = none
    ∧ decode_string .littleEndian [115, 0, 0, 0, 9, 115] = none := by
  decide

/-- C16: the type markers have the byte values char `'c'`, uchar `'C'`, int16 `'i'`, uint16
`'I'`, int32 `'l'`, uint32 `'L'`, int64 `'w'`, uint64 `'W'`, string `'s'`, stream `'S'`,
streamable `'M'`, unknown `'X'`; the twelve are pairwise distinct, each is below 0x80, and
a (signed) `char` buffer element holding a marker promotes to the marker. -/
theorem tag_alphabet :
    CHAR = 'c'.toNat ∧ UCHAR = 'C'.toNat ∧ INT16 = 'i'.toNat ∧ UINT16 = 'I'.toNat
    ∧ INT32 = 'l'.toNat ∧ UINT32 = 'L'.toNat ∧ INT64 = 'w'.toNat ∧ UINT64 = 'W'.toNat
    ∧ STRING = 's'.toNat ∧ STREAM = 'S'.toNat ∧ STREAMABLE = 'M'.toNat ∧ UNKNOWN = 'X'.toNat
    ∧ [CHAR, UCHAR, INT16, UINT16, INT32, UINT32, INT64, UINT64, STRING, STREAM, STREAMABLE,
        UNKNOWN].Nodup
    ∧ ∀ t ∈ [CHAR, UCHAR, INT16, UINT16, INT32, UINT32, INT64, UINT64, STRING, STREAM,
        STREAMABLE, UNKNOWN], t < 0x80 ∧ charToInt (toByte t) = (t : Int) := by
  decide

/-- C18: for every prior buffer content (empty or not) and every byte sequence `d` of
length `n` (a `u_int32_t`), `setRaw(d, n)` returns 0 and leaves the buffer exactly equal to
`d`, with `size() == n`. -/
theorem setRaw_replaces (buffer_ d : List Byte) (hn : d.length < 2 ^ 32) :
    setRaw buffer_ d d.length = some (0, d) ∧ size d = d.length := by
  constructor
  · have hr : (resize (if buffer_.length > 0 then [] else buffer_) d.length).length
        = d.length := by
      split
      · simp [resize]
      · rename_i h0
        have : buffer_ = [] := List.length_eq_zero.mp (by omega)
        subst this
        simp [resize]
    have hm : memcpy (resize (if buffer_.length > 0 then [] else buffer_) d.length) d d.length
        = some d := by
      unfold memcpy
      rw [if_pos ⟨le_refl _, by rw [hr]⟩, List.take_length, List.drop_of_length_le (by rw [hr]),
        List.append_nil]
    unfold setRaw
    simp only [hm, Option.bind_eq_bind, Option.some_bind, Option.pure_def]
  · exact Nat.mod_eq_of_lt hn

theorem setRaw_replaces_witness :
    ([9, 8] : List Byte).length < 2 ^ 32
    ∧ (setRaw [1, 2, 3] [9, 8] ([9, 8] : List Byte).length = some (0, [9, 8])
      ∧ size [9, 8] = ([9, 8] : List Byte).length) :=
  ⟨by decide, setRaw_replaces [1, 2, 3] [9, 8] (by decide)⟩

/-- C19: for every buffer and every decode operation that returns on it, the resulting
buffer is the original buffer with exactly its last `w + 2` bytes removed for a scalar of
width `w`, or exactly its last `N + 6` bytes removed for a string whose length field is
`N`; the bytes before the removed record keep their value and position. -/
theorem tail_only_removal (h : Host) (T : Ty) (buf after : Buffer_t) (v : Value)
    (hd : decode h T buf = some (.returned v after)) :
    ∃ removed : List Byte, buf = after ++ removed
      ∧ removed.length = if T = Ty.string then lengthField buf + 6 else T.width + 2 := by
  obtain ⟨hsc, hst⟩ := decode_returned h T buf after v hd
  by_cases hT : T = Ty.string
  · obtain ⟨removed, hb, hlen⟩ := hst hT
    exact ⟨removed, hb, by rw [if_pos hT]; exact hlen⟩
  · obtain ⟨payload, lead, last, hb, hw, -⟩ := hsc hT
    refine ⟨lead :: (payload ++ [last]), hb, ?_⟩
    rw [if_neg hT]
    simp [hw]

theorem tail_only_removal_witness :
    decode .littleEndian Ty.string [7, 105, 115, 65, 66, 0, 0, 0, 2, 115]
      = some (.returned (Value.string [65, 66]) [7, 105])
    ∧ ∃ removed : List Byte, ([7, 105, 115, 65, 66, 0, 0, 0, 2, 115] : Buffer_t)
        = [7, 105] ++ removed
      ∧ removed.length = if Ty.string = Ty.string then
          lengthField [7, 105, 115, 65, 66, 0, 0, 0, 2, 115] + 6 else Ty.string.width + 2 :=
  ⟨by decide, tail_only_removal .littleEndian Ty.string [7, 105, 115, 65, 66, 0, 0, 0, 2, 115]
    [7, 105] (Value.string [65, 66]) (by decide)⟩

/-- C20: for every scalar type `T` of width `w` and every buffer (produced by encode or
not) on which decoding `T` returns, the value returned is a value of type `T`, in the range
of `T`, whose big-endian representation on `w` bytes (twos complement for the signed types)
is the `w` bytes that lie between the two tag bytes at the tail, the byte nearest the
leading tag being the most significant. -/
theorem decoded_value (h : Host) (T : Ty) (hs : T.scalar) (buf after : Buffer_t) (v : Value)
    (hd : decode h T buf = some (.returned v after)) :
    v.ty = T ∧ v.representable
      ∧ bigEndian T.width v.pattern = (buf.drop (buf.length - (T.width + 1))).take T.width := by
  obtain ⟨payload, lead, last, hb, hw, hv⟩ := (decode_returned h T buf after v hd).1 hs
  obtain ⟨c1, c2, c3⟩ := conv_value h T hs payload hw
  obtain ⟨-, -, -, g3, -⟩ := split_facts after payload lead last
  rw [← hb, hw] at g3
  rw [hv, g3]
  exact ⟨c1, c2, c3⟩

theorem decoded_value_witness :
    Ty.int16.scalar
    ∧ decode .littleEndian Ty.int16 [9, 105, 0xFF, 0xFE, 105]
      = some (.returned (Value.int16 (-2)) [9])
    ∧ ((Value.int16 (-2)).ty = Ty.int16 ∧ (Value.int16 (-2)).representable
      ∧ bigEndian Ty.int16.width (Value.int16 (-2)).pattern
        = (([9, 105, 0xFF, 0xFE, 105] : Buffer_t).drop
            (([9, 105, 0xFF, 0xFE, 105] : Buffer_t).length - (Ty.int16.width + 1))).take
            Ty.int16.width) :=
  ⟨by decide, by decide,
    decoded_value .littleEndian Ty.int16 (by decide) [9, 105, 0xFF, 0xFE, 105] [9]
      (Value.int16 (-2)) (by decide)⟩

/-! ## Well-formed buffers -/

/-- Every encode operation appends one complete record, whatever the value. -/
theorem encode_record (h : Host) (b : Buffer_t) (v : Value) :
    ∃ r, Record r ∧ encode h b v = b ++ r := by
  cases v with
  | char v =>
    exact ⟨_, Record.scalar Ty.char (toBE 1 (toUnsigned 8 v)) (by decide) (length_toBE _ _),
      encode_char_eq b v⟩
  | uchar v =>
    exact ⟨_, Record.scalar Ty.uchar (toBE 1 v) (by decide) (length_toBE _ _),
      encode_uchar_eq b v⟩
  | int16 v =>
    exact ⟨_, Record.scalar Ty.int16 (toBE 2 (toUnsigned 16 v)) (by decide) (length_toBE _ _),
      encode_int16_eq h b v⟩
  | uint16 v =>
    exact ⟨_, Record.scalar Ty.uint16 (toBE 2 v) (by decide) (length_toBE _ _),
      encode_uint16_eq h b v⟩
  | int32 v =>
    exact ⟨_, Record.scalar Ty.int32 (toBE 4 (toUnsigned 32 v)) (by decide) (length_toBE _ _),
      encode_int32_eq h b v⟩
  | uint32 v =>
    exact ⟨_, Record.scalar Ty.uint32 (toBE 4 v) (by decide) (length_toBE _ _),
      encode_uint32_eq h b v⟩
  | int64 v =>
    exact ⟨_, Record.scalar Ty.int64 (toBE 8 (toUnsigned 64 v)) (by decide) (length_toBE _ _),
      encode_int64_eq h b v⟩
  | uint64 v =>
    exact ⟨_, Record.scalar Ty.uint64 (toBE 8 v) (by decide) (length_toBE _ _),
      encode_uint64_eq h b v⟩
  | string s =>
    have hlt : s.length % 2 ^ 32 < 2 ^ 32 := Nat.mod_lt _ (by decide)
    have hl : (s.take (s.length % 2 ^ 32)).length = s.length % 2 ^ 32 := by
      rw [List.length_take]
      exact Nat.min_eq_left (Nat.mod_le _ _)
    have hr := Record.string (s.take (s.length % 2 ^ 32)) (by rw [hl]; exact hlt)
    rw [hl] at hr
    refine ⟨_, hr, ?_⟩
    show encode_string h b s = _
    rw [encode_string_eq, toBE_eq_bigEndian]
    rfl

/-- A decode that returns on a well-formed buffer leaves a well-formed buffer: it has
removed the last record. -/
theorem wellFormed_decode (h : Host) (T : Ty) (b after : Buffer_t) (v : Value)
    (hb : WellFormed b) (hd : decode h T b = some (.returned v after)) : WellFormed after := by
  cases hb with
  | nil =>
    rw [decode_short h T [] (by cases T <;> decide)] at hd
    simp at hd
  | snoc b0 r hb0 hr =>
    cases hr with
    | scalar T2 payload hs hw =>
      by_cases hT : T2 = T
      · subst hT
        rw [decode_scalar_split h T2 hs b0 payload _ _ hw] at hd
        simp only [ne_eq, not_true_eq_false, or_self, if_false, Option.some.injEq,
          Result.returned.injEq] at hd
        rw [← hd.2]
        exact hb0
      · have hl := decode_last_ne h T (b0 ++ toByte T2.tag :: payload) (toByte T2.tag)
          (charToInt_tag_ne T2 T hT)
        rw [List.append_assoc, List.cons_append] at hl
        rw [hl] at hd
        simp at hd
    | string data hN =>
      by_cases hT : Ty.string = T
      · subst hT
        simp only [decode] at hd
        obtain ⟨s, hs, -⟩ := map_returned _ _ _ _ hd
        have hlen : data.length = ofBE (toBE 4 data.length) := by
          rw [ofBE_toBE_of_lt _ _ (by omega)]
        have hsp := decode_string_split h b0 data (toBE 4 data.length) (toByte STRING)
          (toByte STRING) (length_toBE _ _) hlen
        rw [toBE_eq_bigEndian, hs] at hsp
        have ht : ¬ (charToInt (toByte STRING) ≠ (STREAM_TYPE_STRING : Int)
            ∨ charToInt (toByte STRING) ≠ (STREAM_TYPE_STRING : Int)) := by decide
        rw [if_neg ht] at hsp
        split at hsp
        · simp only [Option.some.injEq, Result.returned.injEq] at hsp
          rw [hsp.2]
          exact hb0
        · simp at hsp
      · have hl := decode_last_ne h T
          (b0 ++ toByte STRING :: (data ++ bigEndian 4 data.length)) (toByte STRING)
          (charToInt_tag_ne Ty.string T hT)
        rw [List.append_assoc, List.cons_append, List.append_assoc] at hl
        rw [hl] at hd
        simp at hd

/-- Every buffer a stream created empty can hold is well-formed. -/
theorem wellFormed_reachable (h : Host) (b : Buffer_t) (hr : Reachable h b) : WellFormed b := by
  induction hr with
  | created => exact WellFormed.nil
  | encoded b v _ ih =>
    obtain ⟨r, hrec, he⟩ := encode_record h b v
    rw [he]
    exact WellFormed.snoc b r ih hrec
  | decoded b t v after _ _ hd ih => exact wellFormed_decode h t b after v ih hd
  | raised b t code after _ _ hd ih =>
    rw [decode_thrown h t b after code hd]
    exact ih

/-- C17: for every stream created empty, after any finite sequence of encode operations
(any supported type and value) and of decode operations attempted on a non-empty buffer
that return or throw, the buffer is a concatenation of zero or more complete well-formed
tagged records (tag, payload of the width of the tag, same tag; or `'s'`, `N` data bytes,
4-byte big-endian `N`, `'s'`), with no partial record. -/
theorem wellFormed_invariant (h : Host) (b : Buffer_t) (hr : Reachable h b) : WellFormed b :=
  wellFormed_reachable h b hr

theorem wellFormed_invariant_witness :
    Reachable .littleEndian (encode .littleEndian [] (Value.int16 21845))
    ∧ WellFormed (encode .littleEndian [] (Value.int16 21845)) :=
  have hr : Reachable .littleEndian (encode .littleEndian [] (Value.int16 21845)) :=
    Reachable.decoded
      (encode .littleEndian (encode .littleEndian [] (Value.int16 21845)) (Value.string [65, 0]))
      Ty.string (Value.string [65]) _
      (Reachable.raised
        (encode .littleEndian (encode .littleEndian [] (Value.int16 21845)) (Value.string [65, 0]))
        Ty.char .STREAM_ERR_INVALID_TYPE
        (encode .littleEndian (encode .littleEndian [] (Value.int16 21845)) (Value.string [65, 0]))
        (Reachable.encoded (encode .littleEndian [] (Value.int16 21845)) (Value.string [65, 0])
          (Reachable.encoded [] (Value.int16 21845) Reachable.created))
        (by decide) (by decide))
      (by decide) (by decide)
  ⟨hr, wellFormed_invariant .littleEndian _ hr⟩

/-- A record has at least three bytes, so not every buffer is well-formed. -/
theorem Record.length_ge (r : List Byte) (hr : Record r) : 3 ≤ r.length := by
  cases hr with
  | scalar T payload hs hw =>
    have : 1 ≤ T.width := by cases T <;> first | decide | exact absurd rfl hs
    simp [hw]
    omega
  | string data hN => simp [length_bigEndian]

theorem not_wellFormed_of_length (b : Buffer_t) (h1 : 0 < b.length) (h3 : b.length < 3) :
    ¬ WellFormed b := by
  intro hb
  cases hb with
  | nil => simp at h1
  | snoc b0 r hb0 hr =>
    have := Record.length_ge r hr
    simp at h3
    omega

/-! ## Raw bytes, and the buffer after a round trip -/

theorem NetStream_raw_eq (d : List Byte) : NetStream_raw d d.length = some d := by
  unfold NetStream_raw memcpy
  simp

/-- A stream built from the raw bytes of a string record decodes to the string, when the
string has no zero byte and fewer than `2 ^ 32 - 1` bytes. -/
theorem raw_string_decodes (h : Host) (s : List Byte) (hz : (0 : Byte) ∉ s)
    (hN : s.length + 1 < 2 ^ 32) :
    NetStream_raw (toByte STRING :: (s ++ (bigEndian 4 s.length ++ [toByte STRING])))
        (toByte STRING :: (s ++ (bigEndian 4 s.length ++ [toByte STRING]))).length
      = some (toByte STRING :: (s ++ (bigEndian 4 s.length ++ [toByte STRING])))
    ∧ decode_string h (toByte STRING :: (s ++ (bigEndian 4 s.length ++ [toByte STRING])))
      = some (.returned s []) := by
  refine ⟨NetStream_raw_eq _, ?_⟩
  have hd := decode_string_record h [] s hN
  rw [takeWhile_ne_zero s hz, toBE_eq_bigEndian] at hd
  exact hd

/-- The test `test_rawstring` of `tests/StreamString.h`: the stream built from the 22 bytes
of `raw` decodes to `"This is a string"` and is left empty. -/
theorem test_rawstring (h : Host) :
    NetStream_raw [0x73, 0x54, 0x68, 0x69, 0x73, 0x20, 0x69, 0x73, 0x20, 0x61, 0x20, 0x73, 0x74,
        0x72, 0x69, 0x6e, 0x67, 0x00, 0x00, 0x00, 0x10, 0x73] 22
      = some [0x73, 0x54, 0x68, 0x69, 0x73, 0x20, 0x69, 0x73, 0x20, 0x61, 0x20, 0x73, 0x74,
        0x72, 0x69, 0x6e, 0x67, 0x00, 0x00, 0x00, 0x10, 0x73]
    ∧ decode_string h [0x73, 0x54, 0x68, 0x69, 0x73, 0x20, 0x69, 0x73, 0x20, 0x61, 0x20, 0x73,
        0x74, 0x72, 0x69, 0x6e, 0x67, 0x00, 0x00, 0x00, 0x10, 0x73]
      = some (.returned STRING_DATA []) := by
  cases h <;> decide

theorem raw_string_max (h : Host) (s : List Byte) (hN : s.length = 2 ^ 32 - 1) :
    decode_string h (toByte STRING :: (s ++ [255, 255, 255, 255, toByte STRING])) = none := by
  have hd := decode_string_record_max h [] s hN
  have e : toBE 4 s.length = [255, 255, 255, 255] := by
    rw [hN]; decide
  rw [e] at hd
  exact hd

/-- C11: the claim asks that the stream built from the raw bytes `'s'`, `s`, the
big-endian length of `s`, `'s'` decodes to `s` for every `s` without zero byte and of
length below `2 ^ 32`. At length `2 ^ 32 - 1` the code does not do so: for `s` made of
4294967295 bytes 0x61 the constructor holds the raw bytes, whose length field is
0xFFFFFFFF, and the behaviour of the string decoder on them is undefined, on either host
(the defect of C4: `length + 1` is 0 and the copy loop stores outside `pBuffer`). -/
theorem raw_string_of_4294967295_bytes_undefined (h : Host) :
    (0 : Byte) ∉ List.replicate 4294967295 (97 : Byte)
    ∧ (List.replicate 4294967295 (97 : Byte)).length < 2 ^ 32
    ∧ bigEndian 4 (List.replicate 4294967295 (97 : Byte)).length = [255, 255, 255, 255]
    ∧ NetStream_raw
        (toByte STRING :: (List.replicate 4294967295 97 ++ [255, 255, 255, 255, toByte STRING]))
        (toByte STRING
          :: (List.replicate 4294967295 97 ++ [255, 255, 255, 255, toByte STRING])).length
      = some (toByte STRING
          :: (List.replicate 4294967295 97 ++ [255, 255, 255, 255, toByte STRING]))
    ∧ decode_string h
        (toByte STRING :: (List.replicate 4294967295 97 ++ [255, 255, 255, 255, toByte STRING]))
      = none := by
  refine ⟨?_, ?_, ?_, NetStream_raw_eq _, raw_string_max h _ (List.length_replicate _ _)⟩
  · intro hm
    have := List.eq_of_mem_replicate hm
    exact absurd this (by decide)
  · rw [List.length_replicate]
    decide
  · rw [List.length_replicate]
    decide

/-- Encode then decode gives the buffer back, for every value of a scalar type in the range
of the type and every string, zero bytes or not, of fewer than `2 ^ 32 - 1` bytes. -/
theorem buffer_restored (h : Host) (b : Buffer_t) (v : Value) (hv : v.representable)
    (hl : v.shorterThan (2 ^ 32 - 1)) :
    ∃ r, decode h v.ty (encode h b v) = some (.returned r b) := by
  by_cases hs : v.ty.scalar
  · exact ⟨v, roundtrip_scalar h b v hs hv⟩
  · cases v with
    | string s =>
      have hN : s.length + 1 < 2 ^ 32 := by
        have : s.length < 2 ^ 32 - 1 := hl
        omega
      exact ⟨Value.string (s.takeWhile (fun c => c ≠ 0)), by
        simp [decode, encode, Value.ty, decode_encode_string h b s hN, Result.map]⟩
    | _ => exact absurd (by simp [Ty.scalar, Value.ty]) hs

/-- Concrete scenario 1: int16 `0x5555` encoded onto an empty stream decodes to 21845 and
the buffer length returns to 0. -/
theorem scenario_1 (h : Host) :
    decode h Ty.int16 (encode h [] (Value.int16 0x5555)) = some (.returned (Value.int16 21845) [])
    ∧ size [] = 0 := by
  cases h <;> decide

theorem decode_encode_value_max (h : Host) (b : Buffer_t) (s : List Byte)
    (hN : s.length = 2 ^ 32 - 1) :
    decode h (Value.string s).ty (encode h b (Value.string s)) = none := by
  simp [decode, encode, Value.ty, decode_encode_string_max h b s hN]

/-- C12: the claim asks that after encoding any value onto `b` and decoding the same type
the buffer is `b` again. For a string of `2 ^ 32 - 1` bytes the code does not do so: after
encoding the string of 4294967295 bytes 0x61 the behaviour of the string decoder is
undefined, so no decode returns and no buffer is given back, for every host and every prior
buffer (the defect of C4: `length + 1` is 0 and the copy loop stores outside `pBuffer`). -/
theorem string_of_4294967295_bytes_not_restored (h : Host) (b : Buffer_t) :
    (Value.string (List.replicate 4294967295 97)).representable
    ∧ decode h (Value.string (List.replicate 4294967295 97)).ty
        (encode h b (Value.string (List.replicate 4294967295 97))) = none
    ∧ ¬ ∃ r after, decode h (Value.string (List.replicate 4294967295 97)).ty
        (encode h b (Value.string (List.replicate 4294967295 97))) = some (.returned r after) := by
  have hd := decode_encode_value_max h b (List.replicate 4294967295 (97 : Byte))
    (List.length_replicate _ _)
  refine ⟨trivial, hd, ?_⟩
  rintro ⟨r, after, he⟩
  rw [hd] at he
  exact absurd he (by simp)

/-! ## The 64-bit byte order helpers -/

theorem ntohl_eq_htonl (h : Host) (y : Nat) : ntohl h y = htonl h y := by
  cases h <;> rfl

theorem ntohll_eq_htonll (h : Host) (x : Nat) : ntohll h x = htonll h x := by
  unfold ntohll htonll
  simp only [ntohl_eq_htonl]

theorem htonll_lt (h : Host) (x : Nat) (hx : x < 2 ^ 64) : htonll h x < 2 ^ 64 := by
  cases h
  · rw [htonll_littleEndian]
    have hh := htonl_lt .littleEndian (x / 2 ^ 32 % 2 ^ 32)
    have hl := htonl_lt .littleEndian (x % 2 ^ 32)
    omega
  · rw [htonll_bigEndian]; exact hx

theorem toLE_eq_map_range (w x : Nat) :
    toLE w x = (List.range w).map fun i => toByte (x / 256 ^ i) := by
  apply List.ext_getElem?
  intro i
  rw [getElem?_toLE, List.getElem?_map]
  by_cases hi : i < w
  · rw [if_pos hi, List.getElem?_range hi]; rfl
  · rw [if_neg hi, List.getElem?_eq_none (by simp; omega)]; rfl

theorem reverseBytes_eq (w x : Nat) : reverseBytes w x = ofBE (toLE w x) := by
  rw [reverseBytes, ofBigEndian_eq_ofBE, toLE_eq_map_range]

theorem htonll_littleEndian_eq_reverseBytes (x : Nat) (hx : x < 2 ^ 64) :
    htonll .littleEndian x = reverseBytes 8 x := by
  have hlt := htonll_lt .littleEndian x hx
  have hm := toMem_htonll .littleEndian x
  have ho := ofMem_toMem .littleEndian 8 (htonll .littleEndian x)
  rw [hm, Nat.mod_eq_of_lt (by omega)] at ho
  rw [reverseBytes_eq, ← ho]
  simp [ofMem, ofBE, toBE]

theorem ntohll_htonll (h : Host) (x : Nat) (hx : x < 2 ^ 64) : ntohll h (htonll h x) = x := by
  have hlt := htonll_lt h x hx
  have hm := toMem_htonll h x
  have ho := ofMem_toMem h 8 (htonll h x)
  rw [hm, Nat.mod_eq_of_lt (by omega)] at ho
  rw [← ho, ntohll_ofMem h _ (length_toBE _ _), ofBE_toBE_of_lt _ _ (by omega)]

/-- C30: for every 64-bit value `x`, on a little-endian host `htonll(x)` is the value
obtained by reversing the eight bytes of `x` and on a big-endian host it is `x`; `ntohll`
computes the same function as `htonll`, and `ntohll(htonll(x)) == x` on either host. -/
theorem htonll_ntohll_spec (x : Nat) (hx : x < 2 ^ 64) :
    htonll .littleEndian x = reverseBytes 8 x
    ∧ htonll .bigEndian x = x
    ∧ (∀ h : Host, ntohll h x = htonll h x)
    ∧ (∀ h : Host, ntohll h (htonll h x) = x) :=
  ⟨htonll_littleEndian_eq_reverseBytes x hx, htonll_bigEndian x,
    fun h => ntohll_eq_htonll h x, fun h => ntohll_htonll h x hx⟩

theorem htonll_ntohll_spec_witness :
    (0x0102030405060708 : Nat) < 2 ^ 64
    ∧ (htonll .littleEndian 0x0102030405060708 = reverseBytes 8 0x0102030405060708
      ∧ htonll .bigEndian 0x0102030405060708 = 0x0102030405060708
      ∧ (∀ h : Host, ntohll h 0x0102030405060708 = htonll h 0x0102030405060708)
      ∧ (∀ h : Host, ntohll h (htonll h 0x0102030405060708) = 0x0102030405060708)) :=
  ⟨by decide, htonll_ntohll_spec 0x0102030405060708 (by decide)⟩

theorem reverseBytes_example : reverseBytes 8 0x0102030405060708 = 0x0807060504030201 := by
  decide

/-! ## Independence of the host byte order -/

theorem conv_host (h1 h2 : Host) (T : Ty) (payload : List Byte)
    (hw : payload.length = T.width) : T.conv h1 payload = T.conv h2 payload := by
  cases T with
  | char => rfl
  | uchar => rfl
  | int16 => simp only [Ty.conv, ntohs_conv h1 payload hw, ntohs_conv h2 payload hw]
  | uint16 => simp only [Ty.conv, ntohs_ofMem h1 payload hw, ntohs_ofMem h2 payload hw]
  | int32 => simp only [Ty.conv, ntohl_conv h1 payload hw, ntohl_conv h2 payload hw]
  | uint32 => simp only [Ty.conv, ntohl_ofMem h1 payload hw, ntohl_ofMem h2 payload hw]
  | int64 => simp only [Ty.conv, ntohll_conv h1 payload hw, ntohll_conv h2 payload hw]
  | uint64 => simp only [Ty.conv, ntohll_ofMem h1 payload hw, ntohll_ofMem h2 payload hw]
  | string => rfl

theorem decode_string_host (h1 h2 : Host) (buf : Buffer_t) :
    decode_string h1 buf = decode_string h2 buf := by
  rcases List.eq_nil_or_concat buf with rfl | ⟨X, c, hX⟩
  · simp [decode_string, deref_empty]
  rw [List.concat_eq_append] at hX
  subst hX
  by_cases hc : charToInt c ≠ (STREAM_TYPE_STRING : Int)
  · rw [decode_string_last_ne h1 X c hc, decode_string_last_ne h2 X c hc]
  by_cases hroom : (X ++ [c]).length < 5 ∨ (X ++ [c]).length < lengthField (X ++ [c]) + 6
  · rw [decode_string_no_room h1 X c hc hroom, decode_string_no_room h2 X c hc hroom]
  have hN : lengthField (X ++ [c]) + 6 ≤ (X ++ [c]).length := by omega
  obtain ⟨pre, data, len4, lead, last, hb, hl4, hd, -⟩ := exists_string_split (X ++ [c]) hN
  rw [hb, decode_string_split h1 pre data len4 lead last hl4 hd,
    decode_string_split h2 pre data len4 lead last hl4 hd]

theorem decode_host (h1 h2 : Host) (T : Ty) (buf : Buffer_t) :
    decode h1 T buf = decode h2 T buf := by
  by_cases hs : T.scalar
  · by_cases hl : buf.length < T.width + 2
    · rw [decode_scalar_short h1 T hs buf hl, decode_scalar_short h2 T hs buf hl]
    · obtain ⟨pre, payload, lead, last, hb, hw⟩ := exists_split buf T.width (by omega)
      rw [hb, decode_scalar_split h1 T hs pre payload lead last hw,
        decode_scalar_split h2 T hs pre payload lead last hw, conv_host h1 h2 T payload hw]
  · have hT : T = Ty.string := by
      cases T <;> first | rfl | exact absurd (by simp [Ty.scalar]) hs
    subst hT
    simp only [decode, decode_string_host h1 h2 buf]

theorem encode_host (h1 h2 : Host) (b : Buffer_t) (v : Value) :
    encode h1 b v = encode h2 b v := by
  cases v with
  | char v => rfl
  | uchar v => rfl
  | int16 v => simp only [encode, encode_int16_eq]
  | uint16 v => simp only [encode, encode_uint16_eq]
  | int32 v => simp only [encode, encode_int32_eq]
  | uint32 v => simp only [encode, encode_uint32_eq]
  | int64 v => simp only [encode, encode_int64_eq]
  | uint64 v => simp only [encode, encode_uint64_eq]
  | string s => simp only [encode, encode_string_eq]

/-- C21: for every value of a supported type (the 16-, 32- and 64-bit integers and the
strings among them) and every prior buffer, the buffer after encode is the same on a
little-endian host and on a big-endian host; and for every type and every buffer, decode
has the same outcome (value returned and buffer left, throw, or undefined behaviour) on
both. The host enters through `htons`, `htonl`, the object representation read through
`pIndex`, and the run-time test of `htonll` and `ntohll`. -/
theorem host_order_independence :
    (∀ (b : Buffer_t) (v : Value), encode .littleEndian b v = encode .bigEndian b v)
    ∧ (∀ (T : Ty) (buf : Buffer_t), decode .littleEndian T buf = decode .bigEndian T buf) :=
  ⟨fun b v => encode_host .littleEndian .bigEndian b v,
    fun T buf => decode_host .littleEndian .bigEndian T buf⟩

/-- The two hosts do differ inside: the same value has two object representations, and
`htons` changes the value on one host only. -/
theorem hosts_differ :
    toMem .littleEndian 2 0x1234 = [0x34, 0x12] ∧ toMem .bigEndian 2 0x1234 = [0x12, 0x34]
    ∧ htons .littleEndian 0x1234 = 0x3412 ∧ htons .bigEndian 0x1234 = 0x1234
    ∧ htonl .littleEndian 0x12345678 = 0x78563412 ∧ htonl .bigEndian 0x12345678 = 0x12345678 := by
  decide

/-! ## Payloads, zero bytes, leading tags -/

/-- C26: for every scalar type `T` of width `w`, every prefix `b` and every two distinct
`w`-byte payloads `p` and `q`, decoding `T` from `b ++ tag(T) ++ p ++ tag(T)` and from
`b ++ tag(T) ++ q ++ tag(T)` both return, leave `b`, and give two different values: no
record is rejected because of its payload bytes. -/
theorem payload_not_validated (h : Host) (T : Ty) (hs : T.scalar) (b p q : List Byte)
    (hp : p.length = T.width) (hq : q.length = T.width) (hne : p ≠ q) :
    ∃ vp vq : Value,
      decode h T (b ++ [toByte T.tag] ++ p ++ [toByte T.tag]) = some (.returned vp b)
      ∧ decode h T (b ++ [toByte T.tag] ++ q ++ [toByte T.tag]) = some (.returned vq b)
      ∧ vp ≠ vq := by
  have e : ∀ x : List Byte, b ++ [toByte T.tag] ++ x ++ [toByte T.tag]
      = b ++ toByte T.tag :: (x ++ [toByte T.tag]) := by
    intro x; simp
  have hdp := decode_scalar_split h T hs b p (toByte T.tag) (toByte T.tag) hp
  have hdq := decode_scalar_split h T hs b q (toByte T.tag) (toByte T.tag) hq
  simp only [ne_eq, not_true_eq_false, or_self, if_false] at hdp hdq
  refine ⟨T.conv h p, T.conv h q, by rw [e, hdp], by rw [e, hdq], ?_⟩
  intro hv
  apply hne
  have c1 := (conv_value h T hs p hp).2.2
  have c2 := (conv_value h T hs q hq).2.2
  rw [← c1, ← c2, hv]

theorem payload_not_validated_witness :
    Ty.uint16.scalar ∧ ([0, 1] : List Byte).length = Ty.uint16.width
    ∧ ([1, 0] : List Byte).length = Ty.uint16.width ∧ ([0, 1] : List Byte) ≠ [1, 0]
    ∧ ∃ vp vq : Value,
      decode .littleEndian Ty.uint16 ([5] ++ [toByte Ty.uint16.tag] ++ [0, 1]
        ++ [toByte Ty.uint16.tag]) = some (.returned vp [5])
      ∧ decode .littleEndian Ty.uint16 ([5] ++ [toByte Ty.uint16.tag] ++ [1, 0]
        ++ [toByte Ty.uint16.tag]) = some (.returned vq [5])
      ∧ vp ≠ vq :=
  ⟨by decide, by decide, by decide, by decide,
    payload_not_validated .littleEndian Ty.uint16 (by decide) [5] [0, 1] [1, 0] (by decide)
      (by decide) (by decide)⟩

theorem takeWhile_split (s : List Byte) (hz : (0 : Byte) ∈ s) :
    ∃ rest, s = s.takeWhile (fun c => c ≠ 0) ++ 0 :: rest := by
  induction s with
  | nil => simp at hz
  | cons c cs ih =>
    by_cases hc : c = 0
    · subst hc
      exact ⟨cs, by simp⟩
    · have hz2 : (0 : Byte) ∈ cs := by
        rcases List.mem_cons.mp hz with e | m
        · exact absurd e.symm hc
        · exact m
      obtain ⟨rest, hr⟩ := ih hz2
      refine ⟨rest, ?_⟩
      rw [List.takeWhile_cons]
      simp only [ne_eq, hc, not_false_eq_true, decide_True, if_true, List.cons_append]
      rw [← hr]

theorem zero_not_mem_takeWhile (s : List Byte) : (0 : Byte) ∉ s.takeWhile (fun c => c ≠ 0) := by
  intro hm
  have := List.mem_takeWhile_imp hm
  simp at this

/-- C27, as amended: for every string `s` of fewer than `2 ^ 32 - 1` bytes that contains
at least one zero byte and every prior buffer `b`, encoding `s` and then decoding a string
returns only the prefix of `s` that precedes its first zero byte (so the result differs
from `s`), while the whole record of `N + 6` bytes is removed and the buffer is `b` again. -/
theorem embedded_zero_truncation (h : Host) (b : Buffer_t) (s : List Byte)
    (hz : (0 : Byte) ∈ s) (hN : s.length < 2 ^ 32 - 1) :
    ∃ r rest : List Byte, s = r ++ 0 :: rest ∧ (0 : Byte) ∉ r ∧ r ≠ s
      ∧ decode_string h (encode_string h b s) = some (.returned r b)
      ∧ (encode_string h b s).length = b.length + (s.length + 6) := by
  obtain ⟨rest, hr⟩ := takeWhile_split s hz
  refine ⟨s.takeWhile (fun c => c ≠ 0), rest, hr, zero_not_mem_takeWhile s, ?_,
    decode_encode_string h b s (by omega), ?_⟩
  · intro e
    have hm := zero_not_mem_takeWhile s
    rw [e] at hm
    exact hm hz
  · have hm : s.length % 2 ^ 32 = s.length := Nat.mod_eq_of_lt (by omega)
    rw [encode_string_eq, hm, List.take_length]
    simp [length_toBE]

theorem embedded_zero_truncation_witness :
    (0 : Byte) ∈ ([65, 0, 66, 0] : List Byte) ∧ ([65, 0, 66, 0] : List Byte).length < 2 ^ 32 - 1
    ∧ ∃ r rest : List Byte, ([65, 0, 66, 0] : List Byte) = r ++ 0 :: rest ∧ (0 : Byte) ∉ r
      ∧ r ≠ [65, 0, 66, 0]
      ∧ decode_string .littleEndian (encode_string .littleEndian [7] [65, 0, 66, 0])
        = some (.returned r [7])
      ∧ (encode_string .littleEndian [7] [65, 0, 66, 0]).length
        = ([7] : Buffer_t).length + (([65, 0, 66, 0] : List Byte).length + 6) :=
  ⟨by decide, by decide,
    embedded_zero_truncation .littleEndian [7] [65, 0, 66, 0] (by decide) (by decide)⟩

theorem decode_encode_two_pow_32 (h : Host) (rest : List Byte)
    (hN : (97 :: 0 :: rest : List Byte).length = 2 ^ 32) :
    (0 : Byte) ∈ (97 :: 0 :: rest : List Byte)
    ∧ (97 :: 0 :: rest : List Byte).takeWhile (fun c => c ≠ 0) = [97]
    ∧ decode_string h (encode_string h [] (97 :: 0 :: rest)) = some (.returned [] [])
    ∧ (encode_string h [] (97 :: 0 :: rest)).length = 6 := by
  refine ⟨by simp, by simp [List.takeWhile_cons],
    decode_encode_string_wrapped h [] _ hN, ?_⟩
  have hm : (97 :: 0 :: rest : List Byte).length % 2 ^ 32 = 0 := by omega
  rw [encode_string_eq, hm, List.take_zero]
  simp [length_toBE]

/-- C27 as stated fails: the string made of the byte 0x61, a zero byte and 4294967294
bytes 0x61 has `2 ^ 32` bytes and contains a zero byte; the prefix before its first zero
byte is the one byte 0x61, yet encoding it onto an empty stream and decoding a string
returns the empty string, and the record written has 6 bytes, not `N + 6`. -/
theorem embedded_zero_long_string :
    (0 : Byte) ∈ (97 :: 0 :: List.replicate 4294967294 97 : List Byte)
    ∧ (97 :: 0 :: List.replicate 4294967294 97 : List Byte).takeWhile (fun c => c ≠ 0) = [97]
    ∧ decode_string .littleEndian
        (encode_string .littleEndian [] (97 :: 0 :: List.replicate 4294967294 97))
      = some (.returned [] [])
    ∧ (encode_string .littleEndian [] (97 :: 0 :: List.replicate 4294967294 97)).length = 6 :=
  decode_encode_two_pow_32 .littleEndian (List.replicate 4294967294 97) (by
    rw [List.length_cons, List.length_cons, List.length_replicate]
    decide)

theorem lengthField_split (pre data len4 : List Byte) (lead last : Byte)
    (hl : len4.length = 4) :
    lengthField (pre ++ lead :: (data ++ (len4 ++ [last]))) = ofBE len4 := by
  obtain ⟨hlen, -, -, g3, -, -⟩ := string_split_facts pre data len4 lead last hl
  have e5 : (pre ++ lead :: (data ++ (len4 ++ [last]))).length - 5
      = pre.length + data.length + 1 := by omega
  rw [lengthField, e5, g3, ofBigEndian_eq_ofBE]

/-- The tests of the string decoder on a buffer with room for the record that its length
field announces: a throw exactly when the last byte, or the byte `N + 5` before it, is not
the string tag; a return otherwise, unless the length field is `0xFFFFFFFF`. -/
theorem string_tags (h : Host) (buf : Buffer_t) (hN : lengthField buf + 6 ≤ buf.length) :
    (decode_string h buf = some (.thrown .STREAM_ERR_INVALID_TYPE buf)
      ↔ (buf[buf.length - 1]? ≠ some (toByte STRING)
          ∨ buf[buf.length - 1 - (lengthField buf + 5)]? ≠ some (toByte STRING)))
    ∧ (buf[buf.length - 1]? = some (toByte STRING) →
        buf[buf.length - 1 - (lengthField buf + 5)]? = some (toByte STRING) →
        lengthField buf ≠ 2 ^ 32 - 1 →
        ∃ val after, decode_string h buf = some (.returned val after))
    ∧ (buf[buf.length - 1]? = some (toByte STRING) →
        buf[buf.length - 1 - (lengthField buf + 5)]? = some (toByte STRING) →
        lengthField buf = 2 ^ 32 - 1 → decode_string h buf = none) := by
  obtain ⟨pre, data, len4, lead, last, hb, hl4, hd, hf⟩ := exists_string_split buf hN
  obtain ⟨hlen, g1, g2, -, -, -⟩ := string_split_facts pre data len4 lead last hl4
  have hdec := decode_string_split h pre data len4 lead last hl4 hd
  rw [← hb] at hlen g1 g2 hdec
  have e1 : buf.length - 1 = pre.length + data.length + 5 := by omega
  have e2 : buf.length - 1 - (lengthField buf + 5) = pre.length := by omega
  have ht : ∀ c : Byte, charToInt c ≠ (STREAM_TYPE_STRING : Int) ↔ c ≠ toByte STRING :=
    fun c => charToInt_ne_iff c STREAM_TYPE_STRING (by decide)
  have hlt : data.length < 2 ^ 32 := by
    have := ofBE_lt len4
    rw [hl4] at this
    omega
  have hp : lengthField buf ≠ 2 ^ 32 - 1 → data.length + 1 < 2 ^ 32 := by omega
  have hq : lengthField buf = 2 ^ 32 - 1 → ¬ data.length + 1 < 2 ^ 32 := by omega
  rw [e2, e1, g1, g2, hdec]
  simp only [ht, ne_eq, Option.some.injEq]
  refine ⟨⟨?_, ?_⟩, ?_, ?_⟩
  · intro hi
    by_contra hc
    rw [if_neg hc] at hi
    split at hi <;> simp at hi
  · intro hc
    rw [if_pos hc]
  · intro h1 h2 h3
    rw [if_neg (by rw [h1, h2]; simp), if_pos (hp h3)]
    exact ⟨_, _, rfl⟩
  · intro h1 h2 h3
    rw [if_neg (by rw [h1, h2]; simp), if_neg (hq h3)]

theorem string_tags_max (h : Host) (s : List Byte) (hs : s.length = 2 ^ 32 - 1) :
    6 ≤ (toByte STRING :: (s ++ ([255, 255, 255, 255] ++ [toByte STRING]))).length
    ∧ lengthField (toByte STRING :: (s ++ ([255, 255, 255, 255] ++ [toByte STRING])))
      = 4294967295
    ∧ lengthField (toByte STRING :: (s ++ ([255, 255, 255, 255] ++ [toByte STRING]))) + 6
      ≤ (toByte STRING :: (s ++ ([255, 255, 255, 255] ++ [toByte STRING]))).length
    ∧ (toByte STRING :: (s ++ ([255, 255, 255, 255] ++ [toByte STRING])))[
        (toByte STRING :: (s ++ ([255, 255, 255, 255] ++ [toByte STRING]))).length - 1]?
      = some (toByte STRING)
    ∧ (toByte STRING :: (s ++ ([255, 255, 255, 255] ++ [toByte STRING])))[
        (toByte STRING :: (s ++ ([255, 255, 255, 255] ++ [toByte STRING]))).length - 1
          - (lengthField (toByte STRING :: (s ++ ([255, 255, 255, 255] ++ [toByte STRING])))
              + 5)]?
      = some (toByte STRING)
    ∧ decode_string h (toByte STRING :: (s ++ ([255, 255, 255, 255] ++ [toByte STRING])))
      = none
    ∧ ¬ ∃ val after,
        decode_string h (toByte STRING :: (s ++ ([255, 255, 255, 255] ++ [toByte STRING])))
          = some (.returned val after) := by
  have hf := lengthField_split [] s [255, 255, 255, 255] (toByte STRING) (toByte STRING) rfl
  have hv : ofBE ([255, 255, 255, 255] : List Byte) = 4294967295 := by decide
  rw [hv, List.nil_append] at hf
  obtain ⟨hlen, g1, g2, -, -, -⟩ :=
    string_split_facts [] s [255, 255, 255, 255] (toByte STRING) (toByte STRING) rfl
  simp only [List.nil_append, List.length_nil, Nat.zero_add] at hlen g1 g2
  have hd := raw_string_max h s hs
  have e : toByte STRING :: (s ++ ([255, 255, 255, 255] ++ [toByte STRING]))
      = toByte STRING :: (s ++ [255, 255, 255, 255, toByte STRING]) := rfl
  rw [← e] at hd
  generalize toByte STRING :: (s ++ ([255, 255, 255, 255] ++ [toByte STRING])) = B at *
  have e1 : B.length - 1 = s.length + 5 := by omega
  have e2 : B.length - 1 - (lengthField B + 5) = 0 := by omega
  refine ⟨by omega, hf, by omega, by rw [e1]; exact g1, by rw [e2]; exact g2, hd, ?_⟩
  rintro ⟨val, after, he⟩
  rw [hd] at he
  exact absurd he (by simp)

/-- C25: the claim asks that, with room for the record, the string decode throws exactly
when one of the two tags is wrong and succeeds otherwise. For the buffer made of `'s'`,
4294967295 bytes 0x61, the length field 0xFFFFFFFF and `'s'` the code does not do so: the
buffer has room for the record and both tags are `'s'`, yet the decode does not return; its
behaviour is undefined, on either host (the defect of C4: `length + 1` is 0 and the copy
loop stores outside `pBuffer`). -/
theorem string_tags_right_but_no_return (h : Host) :
    6 ≤ (toByte STRING
      :: (List.replicate 4294967295 97 ++ ([255, 255, 255, 255] ++ [toByte STRING]))).length
    ∧ lengthField (toByte STRING
        :: (List.replicate 4294967295 97 ++ ([255, 255, 255, 255] ++ [toByte STRING])))
      = 4294967295
    ∧ lengthField (toByte STRING
        :: (List.replicate 4294967295 97 ++ ([255, 255, 255, 255] ++ [toByte STRING]))) + 6
      ≤ (toByte STRING
        :: (List.replicate 4294967295 97 ++ ([255, 255, 255, 255] ++ [toByte STRING]))).length
    ∧ (toByte STRING
        :: (List.replicate 4294967295 97 ++ ([255, 255, 255, 255] ++ [toByte STRING])))[
        (toByte STRING :: (List.replicate 4294967295 97
          ++ ([255, 255, 255, 255] ++ [toByte STRING]))).length - 1]?
      = some (toByte STRING)
    ∧ (toByte STRING
        :: (List.replicate 4294967295 97 ++ ([255, 255, 255, 255] ++ [toByte STRING])))[
        (toByte STRING :: (List.replicate 4294967295 97
          ++ ([255, 255, 255, 255] ++ [toByte STRING]))).length - 1
          - (lengthField (toByte STRING :: (List.replicate 4294967295 97
              ++ ([255, 255, 255, 255] ++ [toByte STRING])))
              + 5)]?
      = some (toByte STRING)
    ∧ decode_string h (toByte STRING
        :: (List.replicate 4294967295 97 ++ ([255, 255, 255, 255] ++ [toByte STRING])))
      = none
    ∧ ¬ ∃ val after,
        decode_string h (toByte STRING
          :: (List.replicate 4294967295 97 ++ ([255, 255, 255, 255] ++ [toByte STRING])))
          = some (.returned val after) :=
  string_tags_max h (List.replicate 4294967295 97) (List.length_replicate _ _)

/-! ## The last record of a well-formed buffer -/

theorem record_typed (r : List Byte) : Record r ↔ ∃ T, RecordOf T r := by
  constructor
  · intro hr
    cases hr with
    | scalar t payload hs hw => exact ⟨t, RecordOf.scalar t payload hs hw⟩
    | string data hN => exact ⟨Ty.string, RecordOf.string data hN⟩
  · rintro ⟨T, hr⟩
    cases hr with
    | scalar t payload hs hw => exact Record.scalar T payload hs hw
    | string data hN => exact Record.string data hN

/-- A well-formed buffer that is not empty ends with a record of some type. -/
theorem wellFormed_last (buf : Buffer_t) (hwf : WellFormed buf) (hne : buf ≠ []) :
    ∃ (b0 r : List Byte) (T : Ty), buf = b0 ++ r ∧ WellFormed b0 ∧ RecordOf T r := by
  cases hwf with
  | nil => exact absurd rfl hne
  | snoc b0 r hb0 hr =>
    obtain ⟨T, hT⟩ := (record_typed r).mp hr
    exact ⟨b0, r, T, rfl, hb0, hT⟩

/-- Decoding the type `T` from a buffer that ends with a record of the type `T2`: a throw
when the types differ; when they agree a return that removes the record, unless it is a
string record of `2 ^ 32 - 1` data bytes, where the behaviour is undefined. -/
theorem decode_top_record (h : Host) (T T2 : Ty) (b0 r : List Byte) (hr : RecordOf T2 r) :
    (T ≠ T2 → decode h T (b0 ++ r) = some (.thrown .STREAM_ERR_INVALID_TYPE (b0 ++ r)))
    ∧ (T = T2 → r.length ≠ 2 ^ 32 + 5 → ∃ v, decode h T (b0 ++ r) = some (.returned v b0))
    ∧ (T = T2 → r.length = 2 ^ 32 + 5 → decode h T (b0 ++ r) = none) := by
  cases hr with
  | scalar t payload hs hw =>
    refine ⟨?_, ?_, ?_⟩
    · intro hT
      have hl := decode_last_ne h T (b0 ++ toByte T2.tag :: payload) (toByte T2.tag)
        (charToInt_tag_ne T2 T (fun e => hT e.symm))
      rw [List.append_assoc, List.cons_append] at hl
      exact hl
    · intro hT _
      subst hT
      rw [decode_scalar_split h T hs b0 payload _ _ hw]
      simp
    · intro hT hlen
      have : T2.width ≤ 8 := by
        clear hlen hw hs hT
        cases T2 <;> decide
      simp [hw] at hlen
      omega
  | string data hN =>
    have hlen : data.length = ofBE (toBE 4 data.length) := by
      rw [ofBE_toBE_of_lt _ _ (by omega)]
    have hsp := decode_string_split h b0 data (toBE 4 data.length) (toByte STRING)
      (toByte STRING) (length_toBE _ _) hlen
    rw [toBE_eq_bigEndian] at hsp
    have ht : ¬ (charToInt (toByte STRING) ≠ (STREAM_TYPE_STRING : Int)
        ∨ charToInt (toByte STRING) ≠ (STREAM_TYPE_STRING : Int)) := by decide
    rw [if_neg ht] at hsp
    have hrl : (toByte STRING :: (data ++ (bigEndian 4 data.length ++ [toByte STRING]))).length
        = data.length + 6 := by
      simp [length_bigEndian]
    refine ⟨?_, ?_, ?_⟩
    · intro hT
      have hl := decode_last_ne h T
        (b0 ++ toByte STRING :: (data ++ bigEndian 4 data.length)) (toByte STRING)
        (charToInt_tag_ne Ty.string T (fun e => hT e.symm))
      rw [List.append_assoc, List.cons_append, List.append_assoc] at hl
      exact hl
    · intro hT hne
      subst hT
      rw [hrl] at hne
      simp only [decode]
      rw [hsp, if_pos (by omega)]
      exact ⟨_, rfl⟩
    · intro hT he
      subst hT
      rw [hrl] at he
      simp only [decode]
      rw [hsp, if_neg (by omega)]
      rfl

theorem tag_injective (T T2 : Ty) (ht : toByte T.tag = toByte T2.tag) : T = T2 := by
  cases T <;> cases T2 <;> first | rfl | exact absurd ht (by decide)

theorem RecordOf.getLast (T : Ty) (r : List Byte) (hr : RecordOf T r) :
    ∃ X, r = X ++ [toByte T.tag] := by
  cases hr with
  | scalar t payload hs hw => exact ⟨toByte T.tag :: payload, by simp⟩
  | string data hN => exact ⟨toByte STRING :: (data ++ bigEndian 4 data.length), by simp; rfl⟩

theorem RecordOf.length_eq (T : Ty) (b0 r : List Byte) (hr : RecordOf T r) :
    r.length = if T = Ty.string then lengthField (b0 ++ r) + 6 else T.width + 2 := by
  cases hr with
  | scalar t payload hs hw =>
    rw [if_neg hs]
    simp [hw]
  | string data hN =>
    rw [if_pos rfl, ← toBE_eq_bigEndian,
      lengthField_split b0 data (toBE 4 data.length) _ _ (length_toBE _ _),
      ofBE_toBE_of_lt _ _ (by omega)]
    simp [length_toBE]

/-- The split of a buffer into a prefix and a last record is unique. -/
theorem last_record_unique (b1 r1 b2 r2 : List Byte) (T1 T2 : Ty) (h1 : RecordOf T1 r1)
    (h2 : RecordOf T2 r2) (he : b1 ++ r1 = b2 ++ r2) : T1 = T2 ∧ b1 = b2 ∧ r1 = r2 := by
  obtain ⟨X1, hX1⟩ := RecordOf.getLast T1 r1 h1
  obtain ⟨X2, hX2⟩ := RecordOf.getLast T2 r2 h2
  have hlast : toByte T1.tag = toByte T2.tag := by
    have e := he
    rw [hX1, hX2, ← List.append_assoc, ← List.append_assoc] at e
    have := List.append_inj' e rfl
    simpa using this.2
  have hT := tag_injective T1 T2 hlast
  subst hT
  have l1 := RecordOf.length_eq T1 b1 r1 h1
  have l2 := RecordOf.length_eq T1 b2 r2 h2
  rw [he] at l1
  have hl : r1.length = r2.length := by rw [l1, l2]
  have := List.append_inj' he hl
  exact ⟨rfl, this.1, this.2⟩

theorem top_record_max (h : Host) (s : List Byte) (hs : s.length = 2 ^ 32 - 1) :
    WellFormed (toByte STRING :: (s ++ (bigEndian 4 s.length ++ [toByte STRING])))
    ∧ toByte STRING :: (s ++ (bigEndian 4 s.length ++ [toByte STRING])) ≠ []
    ∧ RecordOf Ty.string (toByte STRING :: (s ++ (bigEndian 4 s.length ++ [toByte STRING])))
    ∧ decode h Ty.string (toByte STRING :: (s ++ (bigEndian 4 s.length ++ [toByte STRING])))
      = none
    ∧ ¬ ∃ v after,
        decode h Ty.string (toByte STRING :: (s ++ (bigEndian 4 s.length ++ [toByte STRING])))
          = some (.returned v after) := by
  have hr := RecordOf.string s (by omega)
  have hd := (decode_top_record h Ty.string Ty.string [] _ hr).2.2 rfl (by
    simp [length_bigEndian]; omega)
  rw [List.nil_append] at hd
  refine ⟨?_, by simp, hr, hd, ?_⟩
  · have := WellFormed.snoc [] _ WellFormed.nil ((record_typed _).mpr ⟨_, hr⟩)
    rwa [List.nil_append] at this
  · rintro ⟨v, after, he⟩
    rw [hd] at he
    exact absurd he (by simp)

/-- C29: the claim asks that on a non-empty well-formed buffer decoding `T` succeeds if
and only if the last record is of type `T`. For the buffer made of the one string record
of 4294967295 data bytes 0x61 the code does not do so: the buffer is well-formed, its last
record is a string record, yet the string decode does not return; its behaviour is
undefined, on either host (the defect of C4: `length + 1` is 0 and the copy loop stores
outside `pBuffer`). -/
theorem top_string_record_of_4294967295_bytes (h : Host) :
    WellFormed (toByte STRING :: (List.replicate 4294967295 97
      ++ (bigEndian 4 (List.replicate 4294967295 (97 : Byte)).length ++ [toByte STRING])))
    ∧ toByte STRING :: (List.replicate 4294967295 97
      ++ (bigEndian 4 (List.replicate 4294967295 (97 : Byte)).length ++ [toByte STRING])) ≠ []
    ∧ RecordOf Ty.string (toByte STRING :: (List.replicate 4294967295 97
      ++ (bigEndian 4 (List.replicate 4294967295 (97 : Byte)).length ++ [toByte STRING])))
    ∧ decode h Ty.string (toByte STRING :: (List.replicate 4294967295 97
      ++ (bigEndian 4 (List.replicate 4294967295 (97 : Byte)).length ++ [toByte STRING])))
      = none
    ∧ ¬ ∃ v after,
        decode h Ty.string (toByte STRING :: (List.replicate 4294967295 97
          ++ (bigEndian 4 (List.replicate 4294967295 (97 : Byte)).length ++ [toByte STRING])))
          = some (.returned v after) :=
  top_record_max h (List.replicate 4294967295 97) (List.length_replicate _ _)

/-! ## Decoding a well-formed buffer -/

/-- The decode operations on a well-formed buffer that is not empty: every scalar decode is
defined, and the string decode is defined unless the last record is a string record of
`2 ^ 32 - 1` data bytes. -/
theorem decode_wellFormed_defined (h : Host) (T : Ty) (buf : Buffer_t) (hwf : WellFormed buf)
    (hne : buf ≠ []) :
    (T.scalar → decode h T buf ≠ none)
    ∧ (decode h Ty.string buf = none → lengthField buf = 2 ^ 32 - 1) := by
  obtain ⟨b0, r, T2, hb, -, hr⟩ := wellFormed_last buf hwf hne
  subst hb
  obtain ⟨d1, d2, d3⟩ := decode_top_record h T T2 b0 r hr
  refine ⟨?_, ?_⟩
  · intro hs
    by_cases hT : T = T2
    · have hlen : r.length ≠ 2 ^ 32 + 5 := by
        have hl := RecordOf.length_eq T2 b0 r hr
        subst hT
        rw [if_neg hs] at hl
        have : T.width ≤ 8 := by
          clear hl hr d1 d2 d3 hs
          cases T <;> decide
        omega
      obtain ⟨v, hv⟩ := d2 hT hlen
      rw [hv]; simp
    · rw [d1 hT]; simp
  · intro hnone
    obtain ⟨e1, e2, -⟩ := decode_top_record h Ty.string T2 b0 r hr
    by_cases hT : Ty.string = T2
    · have hl := RecordOf.length_eq T2 b0 r hr
      subst hT
      rw [if_pos rfl] at hl
      by_cases hlen : r.length = 2 ^ 32 + 5
      · omega
      · obtain ⟨v, hv⟩ := e2 rfl hlen
        rw [hv] at hnone
        simp at hnone
    · rw [e1 hT] at hnone
      simp at hnone

/-- A string record of `2 ^ 32 - 1` data bytes after a well-formed buffer: the buffer is
well-formed and the behaviour of the string decode on it is undefined. -/
theorem wellFormed_record_max (h : Host) (b0 s : List Byte) (hb0 : WellFormed b0)
    (hs : s.length = 2 ^ 32 - 1) :
    WellFormed (b0 ++ toByte STRING :: (s ++ (bigEndian 4 s.length ++ [toByte STRING])))
    ∧ b0 ++ toByte STRING :: (s ++ (bigEndian 4 s.length ++ [toByte STRING])) ≠ []
    ∧ decode h Ty.string
        (b0 ++ toByte STRING :: (s ++ (bigEndian 4 s.length ++ [toByte STRING]))) = none := by
  have hr := RecordOf.string s (by omega)
  have hd := (decode_top_record h Ty.string Ty.string b0 _ hr).2.2 rfl (by
    simp [length_bigEndian]; omega)
  exact ⟨WellFormed.snoc b0 _ hb0 ((record_typed _).mpr ⟨_, hr⟩), by simp, hd⟩

/-- C28: the claim asks that on a non-empty well-formed buffer no decode operation takes
the undefined branch of the embedding. For the buffer made of the int16 record of 0x5555
followed by the string record of 4294967295 data bytes 0x61 the code does not do so: the
buffer is well-formed and not empty, yet the behaviour of the string decode on it is
undefined, on either host (the defect of C4: `length + 1` is 0 and the copy loop stores
outside `pBuffer`; the loads from the buffer themselves are in range). -/
theorem undefined_decode_on_wellFormed (h : Host) :
    WellFormed ([toByte INT16, 0x55, 0x55, toByte INT16] ++ toByte STRING
      :: (List.replicate 4294967295 97
        ++ (bigEndian 4 (List.replicate 4294967295 (97 : Byte)).length ++ [toByte STRING])))
    ∧ [toByte INT16, 0x55, 0x55, toByte INT16] ++ toByte STRING
      :: (List.replicate 4294967295 97
        ++ (bigEndian 4 (List.replicate 4294967295 (97 : Byte)).length ++ [toByte STRING]))
      ≠ []
    ∧ decode h Ty.string ([toByte INT16, 0x55, 0x55, toByte INT16] ++ toByte STRING
      :: (List.replicate 4294967295 97
        ++ (bigEndian 4 (List.replicate 4294967295 (97 : Byte)).length ++ [toByte STRING])))
      = none :=
  wellFormed_record_max h [toByte INT16, 0x55, 0x55, toByte INT16]
    (List.replicate 4294967295 97)
    (WellFormed.snoc [] _ WellFormed.nil (Record.scalar Ty.int16 [0x55, 0x55] (by decide) rfl))
    (List.length_replicate _ _)

end NetStream

/-! ## The transport receive contract -/

/-- C23. For every result `r` of the underlying read, `ConnectionEndpoint::receive` returns
`r` when `r > 0`, raises a `SocketException` with code -1 when `r = 0` on a blocking
endpoint, raises a `SocketException` carrying the OS error code when `r < 0`, and returns 0
without raising when `r = 0` on an endpoint that is not blocking. -/
theorem receive_contract (blocking_ : Bool) (r errno : Int) :
    (0 < r → ConnectionEndpoint.receive blocking_ r errno = .ok r) ∧
    (r = 0 → blocking_ = true →
      ConnectionEndpoint.receive blocking_ r errno = .error { code := -1 }) ∧
    (r < 0 → ConnectionEndpoint.receive blocking_ r errno = .error { code := errno }) ∧
    (r = 0 → blocking_ = false → ConnectionEndpoint.receive blocking_ r errno = .ok 0) := by
  refine ⟨fun h => ?_, fun h hb => ?_, fun h => ?_, fun h hb => ?_⟩
  · have h0 : r ≠ 0 := by omega
    have h1 : ¬ r < 0 := by omega
    simp [ConnectionEndpoint.receive, h0, h1, pure, Except.pure, bind, Except.bind]
  · subst h hb
    rfl
  · have h0 : r ≠ 0 := by omega
    simp [ConnectionEndpoint.receive, h0, h, pure, Except.pure, bind, Except.bind, throw,
      throwThe, MonadExceptOf.throw]
  · subst h hb
    rfl

/-- The four cases of C23 at the results 7, 0 and -1 with the OS error code 104. -/
theorem receive_contract_witness :
    ConnectionEndpoint.receive true 7 104 = .ok 7 ∧
    ConnectionEndpoint.receive true 0 104 = .error { code := -1 } ∧
    ConnectionEndpoint.receive true (-1) 104 = .error { code := 104 } ∧
    ConnectionEndpoint.receive false 0 104 = .ok 0 :=
  ⟨(receive_contract true 7 104).1 (by decide),
   (receive_contract true 0 104).2.1 rfl rfl,
   (receive_contract true (-1) 104).2.2.1 (by decide),
   (receive_contract false 0 104).2.2.2 rfl rfl⟩

/-! ## The cursor over the address list -/

/-- The value of `hasNext()` depends on the head of the list only, at every position of
the cursor. -/
theorem Address.hasNext_eq {α : Type} (a : Address α) (x : α) (rest : List α)
    (hl : a.pAddrInfo_ = x :: rest) : a.hasNext = some (!rest.isEmpty) := by
  unfold Address.hasNext
  rw [hl]

/-- At the position set by `first()`, `hasNext()` tells whether the current address is
valid after one call of `next()`. -/
theorem Address.hasNext_first {α : Type} (x : α) (rest : List α) :
    ∃ a, (Address.mk_from (x :: rest)).first.next = .ok a ∧
      (Address.mk_from (x :: rest)).first.hasNext = some a.valid :=
  ⟨_, rfl, rfl⟩

/-- C24, the code at the failing input: on the list of the two addresses 1 and 2, after
`first()` and one `next()` the cursor is at the last address; `hasNext()` returns true
there, and the further `next()` leaves a current address that is not valid. -/
theorem hasNext_true_at_last_address :
    ∃ a b, (Address.mk_from [1, 2]).first.next = .ok a ∧ a.pCurrent_ = [2] ∧
      a.hasNext = some true ∧ a.next = .ok b ∧ b.valid = false :=
  ⟨_, _, rfl, rfl, rfl, rfl, rfl⟩

/-! ## Messages with a length header -/

/-- The bytes `SendMessage` puts on the wire: the length in four bytes, most significant
first, then the payload. -/
theorem SendMessage_wire (h : Host) (wire payload : List Byte) (hn : payload.length < 2 ^ 31) :
    SendMessage h wire payload payload.length =
      some (true, wire ++ bigEndian 4 payload.length ++ payload) := by
  have h1 : toUnsigned 32 (payload.length : Int) = payload.length := by
    unfold toUnsigned
    have : ((payload.length : Int) % (2 : Int) ^ 32) = (payload.length : Int) :=
      Int.emod_eq_of_lt (by omega) (by omega)
    rw [this, Int.toNat_natCast]
  have h2 : toUnsigned 64 (payload.length : Int) = payload.length := by
    unfold toUnsigned
    have : ((payload.length : Int) % (2 : Int) ^ 64) = (payload.length : Int) :=
      Int.emod_eq_of_lt (by omega) (by omega)
    rw [this, Int.toNat_natCast]
  unfold SendMessage
  simp only [h1, h2, toMem_htonl, toBE_eq_bigEndian, List.take_length, le_refl, if_true]

/-- C22, the code at the failing input: the payload is the one byte 0x41, and the
transport hands over the first byte of the stream in the first read and the other four in
the second. `SendMessage` has put five bytes on the wire; `ReceiveMessage` returns true
with `buflen` 0 and an empty buffer, having read one byte. -/
theorem header_split_over_two_reads (h : Host) :
    SendMessage h [] [0x41] 1 = some (true, [0, 0, 0, 1, 0x41]) ∧
    ReceiveMessage h { wire := [0, 0, 0, 1, 0x41], splits := [1, 4], blocking_ := true } [] 0 0 =
      some { ret := true, buffer := [], buflen := 0, chunks := 0,
             conn := { wire := [0, 0, 1, 0x41], splits := [4], blocking_ := true } } := by
  cases h <;> exact ⟨by decide, by decide⟩

/-! ## The payload loop -/

theorem ConnectionEndpoint.receive_of_pos (blocking_ : Bool) (r errno : Int) (hr : 0 < r) :
    ConnectionEndpoint.receive blocking_ r errno = .ok r := by
  have h0 : r ≠ 0 := by omega
  have h1 : ¬ r < 0 := by omega
  simp [ConnectionEndpoint.receive, h0, h1, pure, Except.pure, bind, Except.bind]

theorem toUnsigned_natCast (bits n : Nat) (hn : n < 2 ^ bits) :
    toUnsigned bits (n : Int) = n := by
  unfold toUnsigned
  have h2 : ((n : Int) % (2 : Int) ^ bits) = (n : Int) := by
    apply Int.emod_eq_of_lt (by omega)
    exact_mod_cast hn
  rw [h2, Int.toNat_natCast]

theorem toSigned_of_lt (n : Nat) (hn : n < 2 ^ 31) : toSigned 32 (n % 2 ^ 32) = (n : Int) := by
  have h1 : n % 2 ^ 32 = n := Nat.mod_eq_of_lt (by omega)
  unfold toSigned
  rw [h1, h1, if_pos (by simpa using hn)]

/-- The payload loop of `ReceiveMessage` ends with the whole payload in the buffer, however
the transport splits it into reads that are not empty. -/
theorem receive_loop_complete (blocking_ : Bool) (payload : List Byte)
    (hn : payload.length < 2 ^ 31) :
    ∀ (splits : List Nat) (totalbytes : Nat) (buffer : List Byte) (chunks : Nat),
      (∀ k ∈ splits, 0 < k) → payload.length - totalbytes ≤ splits.length →
      totalbytes ≤ payload.length → buffer.length = payload.length →
      buffer.take totalbytes = payload.take totalbytes →
      ∃ chunks1 conn, receive_loop blocking_ payload.length splits (payload.drop totalbytes)
        totalbytes buffer chunks = some (true, payload, chunks1, conn) := by
  intro splits
  induction splits with
  | nil =>
    intro tb buffer chunks _ hlen htb hbl htake
    have e : tb = payload.length := by
      simp only [List.length_nil] at hlen
      omega
    subst e
    rw [← hbl, List.take_length, hbl, List.take_length] at htake
    subst htake
    unfold receive_loop
    rw [if_neg (by omega)]
    exact ⟨_, _, rfl⟩
  | cons k ks ih =>
    intro tb buffer chunks hpos hlen htb hbl htake
    by_cases hlt : tb < payload.length
    · have hk : 0 < k := hpos k (List.mem_cons_self _ _)
      have hm : payload.length - tb < 2 ^ 31 := by omega
      have e1 := toSigned_of_lt (payload.length - tb) hm
      have e2 := toUnsigned_natCast 64 (payload.length - tb) (by omega)
      have hc0 : 0 < min (payload.length - tb) k := by
        rw [Nat.lt_min]
        exact ⟨by omega, hk⟩
      have hc1 : min (payload.length - tb) k ≤ payload.length - tb := Nat.min_le_left _ _
      generalize hc : min (payload.length - tb) k = c at hc0 hc1
      have hrl : (List.take c (List.drop tb payload)).length = c := by
        rw [List.length_take, List.length_drop]
        omega
      have e3 : ConnectionEndpoint.receive blocking_
          ((List.take c (List.drop tb payload)).length : Int) 0 = .ok (c : Int) := by
        rw [hrl]
        exact ConnectionEndpoint.receive_of_pos _ _ _ (by exact_mod_cast hc0)
      have e4 := toUnsigned_natCast 32 c (by omega)
      have e5 : (tb + c) % 2 ^ 32 = tb + c := Nat.mod_eq_of_lt (by omega)
      have e6 : store_at buffer tb (List.take c (List.drop tb payload)) =
          some (buffer.take tb ++ List.take c (List.drop tb payload) ++
            buffer.drop (tb + c)) := by
        unfold store_at
        rw [hrl, if_pos (by omega)]
      have e7 : List.drop c (List.drop tb payload) = List.drop (tb + c) payload := by
        rw [List.drop_drop]
      have hl8 : (buffer.take tb ++ List.take c (List.drop tb payload)).length = tb + c := by
        rw [List.length_append, hrl, List.length_take]
        omega
      have e8 : (buffer.take tb ++ List.take c (List.drop tb payload) ++
          buffer.drop (tb + c)).take (tb + c) = payload.take (tb + c) := by
        rw [List.take_append_of_le_length (by omega), List.take_of_length_le (by omega), htake,
          List.take_add]
      have e9 : (buffer.take tb ++ List.take c (List.drop tb payload) ++
          buffer.drop (tb + c)).length = payload.length := by
        rw [List.length_append, hl8, List.length_drop]
        omega
      obtain ⟨chunks1, conn, hih⟩ := ih (tb + c) _ ((chunks + 1) % 2 ^ 32)
        (fun x hx => hpos x (List.mem_cons_of_mem _ hx))
        (by simp only [List.length_cons] at hlen; omega) (by omega) e9 e8
      refine ⟨chunks1, conn, ?_⟩
      unfold receive_loop
      rw [if_pos hlt]
      simp only [Conn.read, e1, e2, hc, e3, e6, e4, e5, e7]
      exact hih
    · have e : tb = payload.length := by omega
      subst e
      rw [← hbl, List.take_length, hbl, List.take_length] at htake
      subst htake
      unfold receive_loop
      rw [if_neg (by omega)]
      exact ⟨_, _, rfl⟩

/-- When the first read hands over the whole header, `ReceiveMessage` returns true with
`buflen` the length of the payload and the payload in the buffer, however the transport
splits the payload into reads that are not empty. The array `buffer` holds `buflen` bytes
on entry. -/
theorem ReceiveMessage_of_whole_header (h : Host) (blocking_ : Bool) (payload : List Byte)
    (hn : payload.length < 2 ^ 31) (k : Nat) (ks : List Nat)
    (hk : 4 ≤ k) (hks : ∀ x ∈ ks, 0 < x) (hlen : payload.length ≤ ks.length)
    (buffer : List Byte) (chunks : Nat) :
    ∃ wire r, SendMessage h [] payload payload.length = some (true, wire) ∧
      ReceiveMessage h { wire := wire, splits := k :: ks, blocking_ }
        buffer buffer.length chunks = some r ∧
      r.ret = true ∧ r.buflen = payload.length ∧ r.buffer = payload := by
  suffices hs : ∃ r, ReceiveMessage h
      { wire := [] ++ bigEndian 4 payload.length ++ payload, splits := k :: ks, blocking_ }
      buffer buffer.length chunks = some r ∧
      r.ret = true ∧ r.buflen = payload.length ∧ r.buffer = payload by
    obtain ⟨r, hr⟩ := hs
    exact ⟨_, r, SendMessage_wire h [] payload hn, hr⟩
  have e0 : toUnsigned 64 (4 : Int) = 4 := by decide
  have e1 : min 4 k = 4 := Nat.min_eq_left hk
  have hl : (bigEndian 4 payload.length).length = 4 := length_bigEndian _ _
  have e2 : List.take 4 ([] ++ bigEndian 4 payload.length ++ payload) =
      bigEndian 4 payload.length := by
    rw [List.nil_append, List.take_append_of_le_length (by omega),
      List.take_of_length_le (by omega)]
  have e3 : List.drop 4 ([] ++ bigEndian 4 payload.length ++ payload) = payload := by
    rw [List.nil_append]
    exact List.drop_left' hl
  have e4 : ConnectionEndpoint.receive blocking_
      ((bigEndian 4 payload.length).length : Int) 0 = .ok 4 := by
    rw [hl]
    exact ConnectionEndpoint.receive_of_pos _ _ _ (by decide)
  have e5 : store_at (toMem h 4 0) 0 (bigEndian 4 payload.length) =
      some (bigEndian 4 payload.length) := by
    unfold store_at
    rw [hl, length_toMem, if_pos (by omega)]
    have : List.drop (0 + 4) (toMem h 4 0) = [] :=
      List.drop_of_length_le (by rw [length_toMem])
    rw [this, List.take_zero, List.nil_append, List.append_nil]
  have e6 : ntohl h (ofMem h (bigEndian 4 payload.length)) = payload.length := by
    rw [ntohl_ofMem h _ hl, ← toBE_eq_bigEndian, ofBE_toBE_of_lt _ _ (by omega)]
  by_cases hb : payload.length = buffer.length
  · obtain ⟨chunks1, conn, hloop⟩ := receive_loop_complete blocking_ payload hn ks 0 buffer
      chunks hks (by omega) (by omega) hb.symm (by simp)
    rw [List.drop_zero] at hloop
    refine ⟨{ ret := true, buffer := payload, buflen := buffer.length, chunks := chunks1,
              conn := conn }, ?_, rfl, hb.symm, rfl⟩
    unfold ReceiveMessage
    simp only [Conn.read, e0, e1, e2, e3, e4, e5, e6]
    simp only [hb, ne_eq, not_true_eq_false, if_false, gt_iff_lt, Nat.ofNat_pos, if_true]
    rw [← hb, hloop]
  · obtain ⟨chunks1, conn, hloop⟩ := receive_loop_complete blocking_ payload hn ks 0
      (List.replicate payload.length 0) chunks hks (by omega) (by omega)
      (List.length_replicate _ _) (by simp)
    rw [List.drop_zero] at hloop
    refine ⟨{ ret := true, buffer := payload, buflen := payload.length, chunks := chunks1,
              conn := conn }, ?_, rfl, rfl, rfl⟩
    unfold ReceiveMessage
    simp only [Conn.read, e0, e1, e2, e3, e4, e5, e6]
    simp only [ne_eq, hb, not_false_eq_true, if_true, gt_iff_lt, Nat.ofNat_pos]
    rw [hloop]

end Inet
